import Mathlib

/-!
# Verification of the plookup vector argument (`ecc/bn254/fr/plookup/vector.go`)

This file gives a shallow embedding of the plookup prover/verifier of
`vector.go` over an abstract field `F` carrying a total order (modelling
`fr.Element` with its `Cmp` order), together with idealised models of the
external collaborators that the repository's spec declares out of scope
(the KZG commitment scheme, the FFT domain abstraction, the Fiat-Shamir
transcript and `fr.BatchInvert`).

Coefficient lists (`List F`, little-endian) model polynomials in canonical
basis; `toPoly` bridges them to Mathlib's `Polynomial F` for the algebraic
arguments.  All definitions translated from the Go source are computable.
-/

set_option maxHeartbeats 1000000

namespace Plookup

variable {F : Type} [Field F]

/-! ## Computable polynomial infrastructure (coefficient lists) -/

/-- Horner evaluation of a little-endian coefficient list. -/
def evalC (p : List F) (x : F) : F := p.foldr (fun a acc => a + x * acc) 0

/-- Coefficient-wise sum of two coefficient lists. -/
def polyAdd : List F → List F → List F
  | [], q => q
  | p, [] => p
  | a :: p, b :: q => (a + b) :: polyAdd p q

/-- Scale a coefficient list by a constant. -/
def polyScale (c : F) (p : List F) : List F := p.map (fun a => c * a)

/-- Multiply a coefficient list by the monic linear factor `X - c`. -/
def mulLinear (c : F) (p : List F) : List F := polyAdd (0 :: p) (polyScale (-c) p)

/-- The monic nodal polynomial `∏ (X - x)` over the list `xs`. -/
def nodalOf (xs : List F) : List F := xs.foldr (fun x acc => mulLinear x acc) [1]

/-- Bridge from coefficient lists to Mathlib polynomials. -/
noncomputable def toPoly : List F → Polynomial F
  | [] => 0
  | a :: p => Polynomial.C a + Polynomial.X * toPoly p

@[simp] lemma toPoly_nil : toPoly ([] : List F) = 0 := rfl

@[simp] lemma toPoly_cons (a : F) (p : List F) :
    toPoly (a :: p) = Polynomial.C a + Polynomial.X * toPoly p := rfl

@[simp] lemma evalC_nil (x : F) : evalC ([] : List F) x = 0 := rfl

@[simp] lemma evalC_cons (a : F) (p : List F) (x : F) :
    evalC (a :: p) x = a + x * evalC p x := rfl

lemma evalC_eq_eval (p : List F) (x : F) : evalC p x = (toPoly p).eval x := by
  induction p with
  | nil => simp
  | cons a p ih => simp [ih]

lemma toPoly_polyAdd (p q : List F) : toPoly (polyAdd p q) = toPoly p + toPoly q := by
  induction p generalizing q with
  | nil => simp [polyAdd]
  | cons a p ih =>
    cases q with
    | nil => simp [polyAdd]
    | cons b q => simp [polyAdd, ih]; ring

lemma toPoly_polyScale (c : F) (p : List F) :
    toPoly (polyScale c p) = Polynomial.C c * toPoly p := by
  induction p with
  | nil => simp [polyScale]
  | cons a p ih => simp [polyScale] at ih ⊢; simp [ih]; ring

lemma toPoly_mulLinear (c : F) (p : List F) :
    toPoly (mulLinear c p) = (Polynomial.X - Polynomial.C c) * toPoly p := by
  simp [mulLinear, toPoly_polyAdd, toPoly_polyScale]
  ring

lemma toPoly_nodalOf (xs : List F) :
    toPoly (nodalOf xs) = (xs.map (fun x => Polynomial.X - Polynomial.C x)).prod := by
  induction xs with
  | nil => simp [nodalOf]
  | cons x xs ih =>
    simp only [nodalOf, List.foldr_cons, toPoly_mulLinear, List.map_cons, List.prod_cons]
    rw [show (List.foldr (fun x acc => mulLinear x acc) [1] xs) = nodalOf xs from rfl, ih]

lemma polyAdd_length (p q : List F) : (polyAdd p q).length = max p.length q.length := by
  induction p generalizing q with
  | nil => simp [polyAdd]
  | cons a p ih =>
    cases q with
    | nil => simp [polyAdd]
    | cons b q => simp [polyAdd, ih]; omega

lemma mulLinear_length (c : F) (p : List F) : (mulLinear c p).length = p.length + 1 := by
  simp [mulLinear, polyAdd_length, polyScale]

lemma nodalOf_length (xs : List F) : (nodalOf xs).length = xs.length + 1 := by
  induction xs with
  | nil => rfl
  | cons x xs ih => simp [nodalOf, mulLinear_length] at ih ⊢; omega

lemma toPoly_natDegree_le (p : List F) : (toPoly p).natDegree ≤ p.length - 1 := by
  induction p with
  | nil => simp
  | cons a p ih =>
    rcases p with _ | ⟨b, q⟩
    · simp
    · have h1 : (Polynomial.X * toPoly (b :: q)).natDegree ≤ 1 + ((b :: q).length - 1) := by
        calc (Polynomial.X * toPoly (b :: q)).natDegree
            ≤ (Polynomial.X : Polynomial F).natDegree + (toPoly (b :: q)).natDegree :=
              Polynomial.natDegree_mul_le
          _ ≤ 1 + ((b :: q).length - 1) := by
              simp only [Polynomial.natDegree_X]; omega
      calc (toPoly (a :: b :: q)).natDegree
          ≤ max (Polynomial.C a).natDegree (Polynomial.X * toPoly (b :: q)).natDegree := by
            simpa using Polynomial.natDegree_add_le _ _
        _ ≤ (a :: b :: q).length - 1 := by
            simp only [Polynomial.natDegree_C]
            simp at h1 ⊢
            omega

/-- A polynomial of `natDegree < n` vanishing on `n` distinct points is zero. -/
lemma poly_eq_zero_of_roots (p : Polynomial F) (nodes : List F) (hnd : nodes.Nodup)
    (hdeg : p.natDegree < nodes.length)
    (hz : ∀ x ∈ nodes, p.eval x = 0) : p = 0 := by
  classical
  have hinj : Function.Injective (fun i : Fin nodes.length => nodes.get i) := by
    intro i j hij
    exact List.nodup_iff_injective_get.mp hnd hij
  refine Polynomial.eq_zero_of_natDegree_lt_card_of_eval_eq_zero p hinj (fun i => ?_) ?_
  · exact hz _ (nodes.get_mem _ _)
  · simpa using hdeg

/-- Two polynomials of `natDegree < n` that agree on `n` distinct points are equal. -/
lemma poly_eq_of_eval_nodes (p q : Polynomial F) (nodes : List F) (hnd : nodes.Nodup)
    (hp : p.natDegree < nodes.length) (hq : q.natDegree < nodes.length)
    (h : ∀ x ∈ nodes, p.eval x = q.eval x) : p = q := by
  have hd : (p - q).natDegree < nodes.length :=
    lt_of_le_of_lt (Polynomial.natDegree_sub_le p q) (by omega)
  have := poly_eq_zero_of_roots (p - q) nodes hnd hd (by
    intro x hx; simp [h x hx])
  exact sub_eq_zero.mp this

/-! ## Computable Lagrange interpolation on coefficient lists -/

/-- Scaled Lagrange basis coefficient list for node `i`. -/
def lagrangeBasisC (nodes : List F) (i : ℕ) : List F :=
  polyScale ((evalC (nodalOf (nodes.eraseIdx i)) (nodes.getD i 0))⁻¹)
    (nodalOf (nodes.eraseIdx i))

/-- Partial Lagrange interpolant built from the first `k` nodes. -/
def interpAux (nodes ys : List F) : ℕ → List F
  | 0 => []
  | i + 1 => polyAdd (interpAux nodes ys i) (polyScale (ys.getD i 0) (lagrangeBasisC nodes i))

/-- Lagrange interpolation: the coefficient list of the unique polynomial of degree
`< nodes.length` taking value `ys[i]` at `nodes[i]`. -/
def interp (nodes ys : List F) : List F := interpAux nodes ys nodes.length

lemma toPoly_interpAux (nodes ys : List F) (k : ℕ) :
    toPoly (interpAux nodes ys k) =
      ∑ i ∈ Finset.range k, Polynomial.C (ys.getD i 0) * toPoly (lagrangeBasisC nodes i) := by
  induction k with
  | zero => simp [interpAux]
  | succ k ih =>
    simp [interpAux, toPoly_polyAdd, ih, toPoly_polyScale, Finset.sum_range_succ]

lemma lagrangeBasisC_length (nodes : List F) (i : ℕ) (hi : i < nodes.length) :
    (lagrangeBasisC nodes i).length = nodes.length := by
  simp [lagrangeBasisC, polyScale, nodalOf_length, List.length_eraseIdx, hi]
  omega

lemma interpAux_length (nodes ys : List F) (k : ℕ) (hk : k ≤ nodes.length) :
    (interpAux nodes ys k).length ≤ nodes.length := by
  induction k with
  | zero => simp [interpAux]
  | succ k ih =>
    simp only [interpAux, polyAdd_length]
    have h1 := ih (by omega)
    have h2 : (polyScale (ys.getD k 0) (lagrangeBasisC nodes k)).length = nodes.length := by
      simp [polyScale, lagrangeBasisC_length nodes k (by omega)]
    omega

lemma interp_length (nodes ys : List F) : (interp nodes ys).length ≤ nodes.length :=
  interpAux_length nodes ys nodes.length le_rfl

/-- Evaluation of the nodal polynomial. -/
lemma eval_nodalOf (xs : List F) (x : F) :
    (toPoly (nodalOf xs)).eval x = (xs.map (fun c => x - c)).prod := by
  rw [toPoly_nodalOf, Polynomial.eval_list_prod]
  congr 1
  simp [List.map_map, Function.comp_def]

lemma eval_basis_ne (nodes : List F) (i j : ℕ) (hj : j < nodes.length) (hij : i ≠ j) :
    (toPoly (lagrangeBasisC nodes i)).eval (nodes.getD j 0) = 0 := by
  have hmem : nodes.getD j 0 ∈ nodes.eraseIdx i := by
    rw [List.getD_eq_getElem nodes 0 hj]
    exact List.mem_eraseIdx_iff_getElem.mpr ⟨j, hj, fun h => hij h.symm, rfl⟩
  have hz : ((nodes.eraseIdx i).map (fun c => nodes.getD j 0 - c)).prod = 0 := by
    refine List.prod_eq_zero (List.mem_map.mpr ⟨nodes.getD j 0, hmem, by ring⟩)
  rw [lagrangeBasisC, toPoly_polyScale, Polynomial.eval_mul, Polynomial.eval_C,
    eval_nodalOf, hz, mul_zero]

lemma eval_basis_self (nodes : List F) (i : ℕ) (hi : i < nodes.length) (hnd : nodes.Nodup) :
    (toPoly (lagrangeBasisC nodes i)).eval (nodes.getD i 0) = 1 := by
  have hne : ∀ y ∈ nodes.eraseIdx i, nodes.getD i 0 - y ≠ 0 := by
    intro y hy
    obtain ⟨k, hk, hki, hky⟩ := List.mem_eraseIdx_iff_getElem.mp hy
    rw [List.getD_eq_getElem nodes 0 hi]
    intro hcontra
    have heq : nodes.get ⟨i, hi⟩ = nodes.get ⟨k, hk⟩ := by
      simp only [List.get_eq_getElem]
      rw [hky]
      linear_combination hcontra
    have hik : (⟨i, hi⟩ : Fin nodes.length) = ⟨k, hk⟩ :=
      List.nodup_iff_injective_get.mp hnd heq
    exact hki (congrArg Fin.val hik).symm
  have hp : ((nodes.eraseIdx i).map (fun c => nodes.getD i 0 - c)).prod ≠ 0 := by
    apply List.prod_ne_zero
    intro hz
    obtain ⟨y, hy, hy2⟩ := List.mem_map.mp hz
    exact hne y hy hy2
  have hval : evalC (nodalOf (nodes.eraseIdx i)) (nodes.getD i 0) =
      ((nodes.eraseIdx i).map (fun c => nodes.getD i 0 - c)).prod := by
    rw [evalC_eq_eval, eval_nodalOf]
  rw [lagrangeBasisC, toPoly_polyScale, Polynomial.eval_mul, Polynomial.eval_C,
    eval_nodalOf, hval, inv_mul_cancel₀ hp]

/-- The interpolant takes the prescribed value at each node. -/
lemma evalC_interp_at_node (nodes ys : List F) (hnd : nodes.Nodup) (j : ℕ)
    (hj : j < nodes.length) :
    evalC (interp nodes ys) (nodes.getD j 0) = ys.getD j 0 := by
  rw [evalC_eq_eval, interp, toPoly_interpAux, Polynomial.eval_finset_sum]
  rw [Finset.sum_eq_single j]
  · rw [Polynomial.eval_mul, Polynomial.eval_C, eval_basis_self nodes j hj hnd, mul_one]
  · intro i _ hij
    rw [Polynomial.eval_mul, eval_basis_ne nodes i j hj hij, mul_zero]
  · intro h
    exact absurd (Finset.mem_range.mpr hj) h

lemma interp_natDegree_le (nodes ys : List F) :
    (toPoly (interp nodes ys)).natDegree ≤ nodes.length - 1 :=
  le_trans (toPoly_natDegree_le _) (by have := interp_length nodes ys; omega)

/-! ## Bit reversal

Models `int(bits.Reverse64(uint64(i)) >> nn)` with `nn = 64 - log2(size)`:
reversal of the low `k` bits of `i`. -/

/-- Reverse the low `k` bits of `i`. -/
def bitRev : ℕ → ℕ → ℕ
  | 0, _ => 0
  | k + 1, i => i % 2 * 2 ^ k + bitRev k (i / 2)

lemma bitRev_lt (k i : ℕ) : bitRev k i < 2 ^ k := by
  induction k generalizing i with
  | zero => simp [bitRev]
  | succ k ih =>
    have h1 := ih (i / 2)
    have h2 : i % 2 < 2 := Nat.mod_lt _ (by omega)
    have h3 : (2 : ℕ) ^ (k + 1) = 2 ^ k + 2 ^ k := by ring
    simp only [bitRev]
    nlinarith [Nat.one_le_two_pow (n := k)]

lemma bitRev_high (k b r : ℕ) (hb : b < 2) (hr : r < 2 ^ k) :
    bitRev (k + 1) (b * 2 ^ k + r) = 2 * bitRev k r + b := by
  induction k generalizing b r with
  | zero =>
    interval_cases r
    simp only [bitRev]
    interval_cases b <;> simp
  | succ k ih =>
    have e1 : b * 2 ^ (k + 1) + r = 2 * (b * 2 ^ k) + r := by ring
    have emod : (b * 2 ^ (k + 1) + r) % 2 = r % 2 := by
      rw [e1, Nat.mul_add_mod]
    have ediv : (b * 2 ^ (k + 1) + r) / 2 = b * 2 ^ k + r / 2 := by
      rw [e1, Nat.mul_add_div (by omega)]
    have hr2 : r / 2 < 2 ^ k := Nat.div_lt_of_lt_mul (by rw [pow_succ] at hr; omega)
    have step : bitRev (k + 1 + 1) (b * 2 ^ (k + 1) + r)
        = (b * 2 ^ (k + 1) + r) % 2 * 2 ^ (k + 1)
          + bitRev (k + 1) ((b * 2 ^ (k + 1) + r) / 2) := rfl
    rw [step, emod, ediv, ih b (r / 2) hb hr2]
    have expand : bitRev (k + 1) r = r % 2 * 2 ^ k + bitRev k (r / 2) := rfl
    rw [expand]
    have : r % 2 * 2 ^ (k + 1) = 2 * (r % 2 * 2 ^ k) := by ring
    omega

lemma bitRev_bitRev (k i : ℕ) (hi : i < 2 ^ k) : bitRev k (bitRev k i) = i := by
  induction k generalizing i with
  | zero => simp [bitRev]; omega
  | succ k ih =>
    have hi2 : i / 2 < 2 ^ k := Nat.div_lt_of_lt_mul (by rw [pow_succ] at hi; omega)
    have hb : i % 2 < 2 := Nat.mod_lt _ (by omega)
    have step : bitRev (k + 1) i = i % 2 * 2 ^ k + bitRev k (i / 2) := rfl
    rw [step, bitRev_high k (i % 2) (bitRev k (i / 2)) hb (bitRev_lt k (i / 2)),
      ih (i / 2) hi2]
    omega

/-! ## Bit-reversed-order write loops

Models the pattern `for i { res[_i] = body(i) }` with `_i = bitRev i`,
used by all coset evaluators of `vector.go`. -/

/-- Write `body i` to position `bitRev k i` of a zero buffer of length
`bufLen`, for `i` ranging over `iters` loop iterations. -/
def loopWrite (bufLen iters k : ℕ) (body : ℕ → F) : List F :=
  (List.range iters).foldl (fun acc i => acc.set (bitRev k i) (body i))
    (List.replicate bufLen 0)

lemma foldl_set_length (idx : List ℕ) (g : ℕ → ℕ) (w : ℕ → F) (init : List F) :
    (idx.foldl (fun acc i => acc.set (g i) (w i)) init).length = init.length := by
  induction idx generalizing init with
  | nil => rfl
  | cons a idx ih => simp [List.foldl_cons, ih]

lemma foldl_set_getD (idx : List ℕ) (w : ℕ → F) (init : List F) (j : ℕ)
    (hj : j < init.length) (hnd : idx.Nodup) :
    (idx.foldl (fun acc i => acc.set i (w i)) init).getD j 0 =
      if j ∈ idx then w j else init.getD j 0 := by
  induction idx generalizing init with
  | nil => simp
  | cons a idx ih =>
    have hnd' := (List.nodup_cons.mp hnd).2
    have hna := (List.nodup_cons.mp hnd).1
    simp only [List.foldl_cons]
    rw [ih (init.set a (w a)) (by simpa using hj) hnd']
    by_cases hji : j ∈ idx
    · simp [hji, List.mem_cons]
    · by_cases hja : j = a
      · subst hja
        simp only [hji, if_false, List.mem_cons, true_or, if_true]
        rw [List.getD_eq_getElem _ _ (by simpa using hj), List.getElem_set_self]
      · have : j ∉ (a :: idx) := by simp [hja, hji]
        simp only [hji, if_false, this, if_false]
        rw [List.getD_eq_getElem _ _ (by simpa using hj),
          List.getD_eq_getElem _ _ hj, List.getElem_set_ne (fun h => hja h.symm)]

lemma loopWrite_length (bufLen iters k : ℕ) (body : ℕ → F) :
    (loopWrite bufLen iters k body).length = bufLen := by
  rw [loopWrite, foldl_set_length _ (bitRev k) body _, List.length_replicate]

lemma loopWrite_getD (s k : ℕ) (hs : s = 2 ^ k) (body : ℕ → F) (j : ℕ) (hj : j < s) :
    (loopWrite s s k body).getD j 0 = body (bitRev k j) := by
  subst hs
  have hfold : (List.range (2 ^ k)).foldl (fun acc i => acc.set (bitRev k i) (body i))
        (List.replicate (2 ^ k) (0 : F)) =
      ((List.range (2 ^ k)).map (bitRev k)).foldl
        (fun acc m => acc.set m (body (bitRev k m)))
        (List.replicate (2 ^ k) (0 : F)) := by
    rw [List.foldl_map]
    apply List.foldl_ext
    intro acc i hi
    rw [bitRev_bitRev k i (List.mem_range.mp hi)]
  have hnd : ((List.range (2 ^ k)).map (bitRev k)).Nodup := by
    refine List.Nodup.map_on ?_ (List.nodup_range _)
    intro i hi i' hi' he
    have := congrArg (bitRev k) he
    rwa [bitRev_bitRev k i (List.mem_range.mp hi),
      bitRev_bitRev k i' (List.mem_range.mp hi')] at this
  have hmem : j ∈ (List.range (2 ^ k)).map (bitRev k) :=
    List.mem_map.mpr ⟨bitRev k j, List.mem_range.mpr (bitRev_lt k j), bitRev_bitRev k j hj⟩
  rw [loopWrite, hfold, foldl_set_getD _ _ _ j (by simpa using hj) hnd, if_pos hmem]

/-! ## Consecutive pairs of sorted lists

Combinatorial core of the plookup argument: inserting a value that already
occurs in a sorted list adds exactly the diagonal pair `(x, x)` to the
multiset of consecutive pairs. -/

/-- The list of consecutive pairs of a list. -/
def pairs {α : Type} : List α → List (α × α)
  | a :: b :: l => (a, b) :: pairs (b :: l)
  | _ => []

@[simp] lemma pairs_nil {α : Type} : pairs ([] : List α) = [] := rfl

@[simp] lemma pairs_single {α : Type} (a : α) : pairs [a] = [] := rfl

@[simp] lemma pairs_cons_cons {α : Type} (a b : α) (l : List α) :
    pairs (a :: b :: l) = (a, b) :: pairs (b :: l) := rfl

section Pairs

variable {α : Type} [LinearOrder α]

lemma pairs_orderedInsert_perm (u : List α) (x : α) (hu : u.Sorted (· ≤ ·)) (hx : x ∈ u) :
    (pairs (List.orderedInsert (· ≤ ·) x u)).Perm ((x, x) :: pairs u) := by
  induction u with
  | nil => cases hx
  | cons a u ih =>
    by_cases h : x ≤ a
    · have hax : x = a := by
        rcases List.mem_cons.mp hx with h1 | h1
        · exact h1
        · exact le_antisymm h ((List.sorted_cons.mp hu).1 x h1)
      simp only [List.orderedInsert, if_pos h]
      rw [pairs_cons_cons, hax]
    · have hax : x ≠ a := fun he => h (le_of_eq he)
      have hxu : x ∈ u := by
        rcases List.mem_cons.mp hx with h1 | h1
        · exact absurd h1 hax
        · exact h1
      cases u with
      | nil => cases hxu
      | cons b v =>
        simp only [List.orderedInsert, if_neg h]
        by_cases hb : x ≤ b
        · have hbx : x = b := by
            rcases List.mem_cons.mp hxu with h1 | h1
            · exact h1
            · exact le_antisymm hb ((List.sorted_cons.mp (List.sorted_cons.mp hu).2).1 x h1)
          rw [if_pos hb, pairs_cons_cons, pairs_cons_cons, hbx, pairs_cons_cons]
          exact List.Perm.swap _ _ _
        · have hins : List.orderedInsert (· ≤ ·) x (b :: v) =
              b :: List.orderedInsert (· ≤ ·) x v := by
            simp only [List.orderedInsert, if_neg hb]
          have ihres := ih (List.sorted_cons.mp hu).2 hxu
          rw [hins] at ihres
          rw [if_neg hb]
          have p1 : (pairs (a :: b :: List.orderedInsert (· ≤ ·) x v)).Perm
              ((a, b) :: (x, x) :: pairs (b :: v)) := List.Perm.cons _ ihres
          have p2 : ((a, b) :: (x, x) :: pairs (b :: v)).Perm
              ((x, x) :: (a, b) :: pairs (b :: v)) := List.Perm.swap _ _ _
          exact p1.trans p2

lemma insertionSort_append_cons (t f : List α) (x : α) :
    List.insertionSort (· ≤ ·) (t ++ x :: f) =
      List.orderedInsert (· ≤ ·) x (List.insertionSort (· ≤ ·) (t ++ f)) := by
  apply List.eq_of_perm_of_sorted (r := (· ≤ ·))
  · have p1 : (List.insertionSort (· ≤ ·) (t ++ x :: f)).Perm (t ++ x :: f) :=
      List.perm_insertionSort _ _
    have p2 : (t ++ x :: f).Perm (x :: (t ++ f)) := List.perm_middle
    have p3 : (x :: (t ++ f)).Perm (x :: List.insertionSort (· ≤ ·) (t ++ f)) :=
      List.Perm.cons _ (List.perm_insertionSort _ _).symm
    have p4 : (x :: List.insertionSort (· ≤ ·) (t ++ f)).Perm
        (List.orderedInsert (· ≤ ·) x (List.insertionSort (· ≤ ·) (t ++ f))) :=
      (List.perm_orderedInsert _ _ _).symm
    exact ((p1.trans p2).trans p3).trans p4
  · exact List.sorted_insertionSort _ _
  · exact List.Sorted.orderedInsert _ _ (List.sorted_insertionSort _ _)

/-- Multiset of consecutive pairs of the sorted merge of a sorted table with
values all occurring in the table. -/
lemma pairs_sort_append (t f : List α) (hts : t.Sorted (· ≤ ·))
    (hmem : ∀ x ∈ f, x ∈ t) :
    (pairs (List.insertionSort (· ≤ ·) (t ++ f))).Perm
      (pairs t ++ f.map (fun x => (x, x))) := by
  induction f with
  | nil =>
    rw [List.append_nil, List.Sorted.insertionSort_eq hts]
    simp
  | cons x f ih =>
    have hmem' : ∀ y ∈ f, y ∈ t := fun y hy => hmem y (List.mem_cons_of_mem _ hy)
    have hxs : x ∈ List.insertionSort (· ≤ ·) (t ++ f) :=
      (List.perm_insertionSort _ _).symm.subset
        (List.mem_append.mpr (Or.inl (hmem x (List.mem_cons_self _ _))))
    rw [insertionSort_append_cons]
    have p1 : (pairs (List.orderedInsert (· ≤ ·) x
          (List.insertionSort (· ≤ ·) (t ++ f)))).Perm
        ((x, x) :: pairs (List.insertionSort (· ≤ ·) (t ++ f))) :=
      pairs_orderedInsert_perm _ x (List.sorted_insertionSort _ _) hxs
    have p2 : ((x, x) :: pairs (List.insertionSort (· ≤ ·) (t ++ f))).Perm
        ((x, x) :: (pairs t ++ f.map (fun x => (x, x)))) := List.Perm.cons _ (ih hmem')
    have p3 : (pairs t ++ (x, x) :: f.map (fun x => (x, x))).Perm
        ((x, x) :: (pairs t ++ f.map (fun x => (x, x)))) := List.perm_middle
    exact (p1.trans p2).trans p3.symm

end Pairs

/-- Products over consecutive pairs written as an indexed range product. -/
lemma prod_pairs_eq_range (φ : F → F → F) (l : List F) :
    ((pairs l).map (fun p => φ p.1 p.2)).prod =
      ∏ i ∈ Finset.range (l.length - 1), φ (l.getD i 0) (l.getD (i + 1) 0) := by
  induction l with
  | nil => simp
  | cons a l ih =>
    cases l with
    | nil => simp
    | cons b m =>
      rw [pairs_cons_cons]
      simp only [List.map_cons, List.prod_cons]
      have hlen : (a :: b :: m).length - 1 = ((b :: m).length - 1) + 1 := by simp
      rw [ih, hlen, Finset.prod_range_succ']
      have h0 : φ ((a :: b :: m).getD 0 0) ((a :: b :: m).getD 1 0) = φ a b := rfl
      rw [h0, mul_comm]
      refine congrArg (· * φ a b) (Finset.prod_congr rfl fun i _ => ?_)
      simp [List.getD_cons_succ]

/-! ## Models of the external collaborators (spec §6)

These components live outside `src/` (the `fr`, `fft`, `kzg` and
`fiat-shamir` packages); they are modelled from the spec's contracts. -/

/-- Modelled from the spec: an `fft.Domain` descriptor — cardinality,
subgroup generator, and multiplicative coset shift (`FrMultiplicativeGen`). -/
structure Domain (F : Type) where
  card : ℕ
  gen : F
  shift : F

/-- Modelled from the spec: `fr.BatchInvert` returns element-wise inverses,
with 0 mapped to itself — the convention of Mathlib's field inverse. -/
def batchInvert (l : List F) : List F := l.map (fun x => x⁻¹)

/-- Modelled from the spec: `fft.NewDomain` rounds the requested size up to
the next power of two (its cardinality). -/
def nextPow2 (m : ℕ) : ℕ := 2 ^ Nat.clog 2 m

/-- Modelled from the spec: the small-domain grid `gen^i` in natural order. -/
def smallNodes (d : Domain F) : List F := (List.range d.card).map (fun i => d.gen ^ i)

/-- Modelled from the spec: the coset grid `shift * gen^i` in natural order. -/
def cosetNodes (d : Domain F) : List F :=
  (List.range d.card).map (fun i => d.shift * d.gen ^ i)

/-- Modelled from the spec: `FFTInverse(·, fft.DIF)` followed by
`fft.BitReverse`: conversion of Lagrange values on the small domain (natural
order) to canonical coefficients, i.e. Lagrange interpolation. -/
def toCanonical (d : Domain F) (vals : List F) : List F := interp (smallNodes d) vals

/-- Modelled from the spec: `FFT(·, fft.DIF, true)` over the big coset domain:
evaluation of the canonical-basis polynomial on the coset, stored in
bit-reversed order (the value at node `i` sits at index `bitRev i`). -/
def fftCosetDIF (d : Domain F) (coeffs : List F) : List F :=
  (List.range d.card).map
    (fun idx => evalC coeffs (d.shift * d.gen ^ bitRev (Nat.log 2 d.card) idx))

/-- Modelled from the spec: `FFTInverse(·, fft.DIT, true)`: from bit-reversed
Lagrange values on the big coset back to canonical coefficients. -/
def fftInverseCosetDIT (d : Domain F) (vals : List F) : List F :=
  interp (cosetNodes d)
    ((List.range d.card).map (fun i => vals.getD (bitRev (Nat.log 2 d.card) i) 0))

/-- Zero-extension of a coefficient list to length `n` (the `copy` of a
small-domain polynomial into a fresh big-domain buffer). -/
def padZero (p : List F) (n : ℕ) : List F := p ++ List.replicate (n - p.length) 0

/-- The errors of the plookup package and of its collaborators. -/
inductive PErr
  /-- `ErrNotInTable`: "some value in the vector is not in the lookup table". -/
  | notInTable
  /-- `ErrPlookupVerification`: "plookup verification failed". -/
  | plookupVerification
  /-- An error of the KZG collaborator, propagated unchanged. -/
  | kzg (code : ℕ)
  /-- An error of the Fiat-Shamir transcript, propagated unchanged. -/
  | transcript
deriving DecidableEq

/-- Outcome of a prover run: a Go runtime `panic` (crash) is distinct from a
returned `error` value. -/
inductive PFail
  | panic
  | err (e : PErr)
deriving DecidableEq

/-- Modelled from the spec: the Fiat-Shamir transcript — an ordered list of
pending labels plus the absorbed data so far. -/
structure Transcript (F : Type) where
  labels : List String
  absorbed : List (String × List (List F))

/-- `fiatshamir.NewTranscript(h, "beta", "gamma", "alpha", "nu")`. -/
def newTranscript : Transcript F := ⟨["beta", "gamma", "alpha", "nu"], []⟩

/-- Modelled from the spec: `deriveRandomness` binds the given commitments to
the next label (labels are consumed in declared order, anything else fails)
and returns the hash of the whole transcript state. -/
def deriveRandomness (H : List (String × List (List F)) → F) (fs : Transcript F)
    (label : String) (points : List (List F)) : Except PErr (F × Transcript F) :=
  match fs.labels with
  | [] => .error .transcript
  | l :: rest =>
    if l = label then
      let st := fs.absorbed ++ [(label, points)]
      .ok (H st, ⟨rest, st⟩)
    else .error .transcript

/-- Modelled from the spec: KZG batch opening proof — the opening point and
the ordered claimed values (the aggregated witness is not inspected by the
ideal model). -/
structure BatchOpeningProof (F : Type) where
  point : F
  claimedValues : List F
deriving DecidableEq

/-- Modelled from the spec: ideal binding commitment — the digest is the
coefficient list itself (the SRS is assumed large enough, per the claims). -/
def idealCommit (p : List F) : Except ℕ (List F) := .ok p

/-- Modelled from the spec: ideal `kzg.BatchOpenSinglePoint` — claimed values
are the true evaluations at the point. -/
def idealBatchOpen (polys : List (List F)) (_digests : List (List F)) (point : F)
    (_d : Domain F) : Except ℕ (BatchOpeningProof F) :=
  .ok ⟨point, polys.map (fun p => evalC p point)⟩

/-- Modelled from the spec: ideal `kzg.BatchVerifySinglePoint` — accepts
exactly when every claimed value is the evaluation of the corresponding
committed polynomial at the proof's point. -/
def idealBatchVerify [DecidableEq F] (digests : List (List F))
    (bp : BatchOpeningProof F) : Option ℕ :=
  if bp.claimedValues = digests.map (fun p => evalC p bp.point) then none else some 0

/-! ## Embedding of the functions of `vector.go` -/

/-- `sort.Sort(Table(·))`: ascending sort by the total order on field
elements (`fr.Element.Cmp`). -/
def sortFr [LinearOrder F] (l : List F) : List F := List.insertionSort (· ≤ ·) l

/-- The running product of `evaluateAccumulationPolynomial`:
`z[0] = 1`, `z[i+1] = z[i] * ((gamma+lf[i]) * (beta*lt[i+1]+lt[i]+c) * (1+beta)) * d[i]`. -/
def zAcc (lf lt d : List F) (beta gamma c e : F) : ℕ → F
  | 0 => 1
  | i + 1 => zAcc lf lt d beta gamma c e i *
      ((gamma + lf.getD i 0) * (beta * lt.getD (i + 1) 0 + lt.getD i 0 + c) * e) *
      d.getD i 0

/-- Embedding of `evaluateAccumulationPolynomial` (vector.go:76-119): the
accumulation polynomial `Z` in Lagrange basis, denominators batch-inverted. -/
def evaluateAccumulationPolynomial (lf lt lh1 lh2 : List F) (beta gamma : F) : List F :=
  let n := lt.length
  let c := (1 + beta) * gamma
  let d := batchInvert ((List.range (n - 1)).map (fun i =>
    (beta * lh1.getD (i + 1) 0 + lh1.getD i 0 + c) *
      (beta * lh2.getD (i + 1) 0 + lh2.getD i 0 + c)))
  (List.range n).map (zAcc lf lt d beta gamma c (1 + beta))

/-- Embedding of `evaluateNumBitReversed` (vector.go:129-185): the shifted,
bit-reversed evaluation of the main transition constraint `h` on the big
coset, where `g[i] = shift * gen^i` and `gg = (gen^2)^(card/2 - 1)`. -/
def evaluateNumBitReversed (lz lh1 lh2 lt lf : List F) (beta gamma : F)
    (domainBig : Domain F) : List F :=
  let s := domainBig.card
  let k := Nat.log 2 s
  let onePlusBeta := 1 + beta
  let gb := onePlusBeta * gamma
  let gg := (domainBig.gen ^ 2) ^ (s / 2 - 1)
  loopWrite s s k (fun i =>
    let ii := bitRev k i
    let is := bitRev k ((i + 2) % s)
    let m := onePlusBeta * lz.getD ii 0 * (gamma + lf.getD ii 0) *
        (beta * lt.getD is 0 + lt.getD ii 0 + gb)
    let n := (beta * lh1.getD is 0 + lh1.getD ii 0 + gb) *
        (beta * lh2.getD is 0 + lh2.getD ii 0 + gb) * lz.getD is 0
    (m - n) * (domainBig.shift * domainBig.gen ^ i - gg))

/-- Embedding of `evaluateXnMinusOneDomainBig` (vector.go:188-204): the two
values of `x^n - 1` on the coset, indexed by parity. -/
def evaluateXnMinusOneDomainBig (domainBig : Domain F) : F × F :=
  let shift := domainBig.shift ^ (domainBig.card / 2)
  (shift - 1, -(shift + 1))

/-- Parity-indexed selection `r[i % 2]` from a two-element array. -/
def pick (r : F × F) (i : ℕ) : F := if i % 2 = 0 then r.1 else r.2

/-- Embedding of `evaluateL0DomainBig` (vector.go:208-227): values of
`x^n - 1` (by parity) and batch-inverted values of `x - 1` on the coset. -/
def evaluateL0DomainBig (domainBig : Domain F) : (F × F) × List F :=
  (evaluateXnMinusOneDomainBig domainBig,
    batchInvert ((List.range domainBig.card).map
      (fun i => domainBig.shift * domainBig.gen ^ i - 1)))

/-- Embedding of `evaluationLnDomainBig` (vector.go:231-254): values of
`x^n - 1` (by parity) and batch-inverted values of `x - g^(n-1)` on the coset,
with `gg = (gen^2)^(card/2 - 1)`. -/
def evaluationLnDomainBig (domainBig : Domain F) : (F × F) × List F :=
  let gg := (domainBig.gen ^ 2) ^ (domainBig.card / 2 - 1)
  (evaluateXnMinusOneDomainBig domainBig,
    batchInvert ((List.range domainBig.card).map
      (fun i => domainBig.shift * domainBig.gen ^ i - gg)))

/-- Embedding of `evaluateZStartsByOneBitReversed` (vector.go:257-276):
`L0 * (z - 1)` on the coset, bit reversed. -/
def evaluateZStartsByOneBitReversed (lsZ : List F) (domainBig : Domain F) : List F :=
  let k := Nat.log 2 domainBig.card
  let p := evaluateL0DomainBig domainBig
  loopWrite domainBig.card lsZ.length k (fun i =>
    let ii := bitRev k i
    (lsZ.getD ii 0 - 1) * pick p.1 i * p.2.getD i 0)

/-- Embedding of `evaluateZEndsByOneBitReversed` (vector.go:279-297):
`Ln * (z - 1)` on the coset, bit reversed. -/
def evaluateZEndsByOneBitReversed (lsZ : List F) (domainBig : Domain F) : List F :=
  let k := Nat.log 2 domainBig.card
  let p := evaluationLnDomainBig domainBig
  loopWrite lsZ.length lsZ.length k (fun i =>
    let ii := bitRev k i
    (lsZ.getD ii 0 - 1) * pick p.1 i * p.2.getD i 0)

/-- Embedding of `evaluateOverlapH1h2BitReversed` (vector.go:300-322):
`Ln * (h1 - h2(g·x))` on the coset, bit reversed. -/
def evaluateOverlapH1h2BitReversed (lh1 lh2 : List F) (domainBig : Domain F) : List F :=
  let k := Nat.log 2 domainBig.card
  let p := evaluationLnDomainBig domainBig
  let s := lh1.length
  loopWrite s s k (fun i =>
    let ii := bitRev k i
    let is := bitRev k ((i + 2) % s)
    (lh1.getD ii 0 - lh2.getD is 0) * pick p.1 i * p.2.getD i 0)

/-- Embedding of `computeQuotientCanonical` (vector.go:329-358): Horner fold
of the four numerator pieces by `alpha`, pointwise division by `x^n - 1`, and
inverse coset transform back to canonical basis. -/
def computeQuotientCanonical (alpha : F) (lh lh0 lhn lh1h2 : List F)
    (domainBig : Domain F) : List F :=
  let s := domainBig.card
  let k := Nat.log 2 s
  let numLn := evaluateXnMinusOneDomainBig domainBig
  let numLnInv := (numLn.1⁻¹, numLn.2⁻¹)
  fftInverseCosetDIT domainBig (loopWrite s s k (fun i =>
    let ii := bitRev k i
    (((lh1h2.getD ii 0 * alpha + lhn.getD ii 0) * alpha + lh0.getD ii 0) * alpha
        + lh.getD ii 0) * pick numLnInv i))

/-- The `Proof` object (vector.go:55-68): domain size, six commitments, and
the two batched opening proofs. -/
structure ProofLookupVector (F : Type) where
  size : ℕ
  h1 : List F
  h2 : List F
  t : List F
  z : List F
  f : List F
  h : List F
  BatchedProof : BatchOpeningProof F
  BatchedProofShifted : BatchOpeningProof F
deriving DecidableEq

/-- Lift a KZG collaborator result into the prover's failure type
(collaborator errors are propagated unchanged). -/
def kz {α : Type} (r : Except ℕ α) : Except PFail α :=
  r.mapError (fun e => .err (.kzg e))

/-- Lift a transcript result into the prover's failure type. -/
def tsc {α : Type} (r : Except PErr α) : Except PFail α := r.mapError .err

/-- Resizing of an input slice to the domain size: `copy` plus the padding
loop `lf[i] = f[len(f)-1]`, which reads index `-1` — a runtime panic — when
the padding loop runs on an empty slice. -/
def padTo (v : List F) (s : ℕ) : Except PFail (List F) :=
  if v.length < s then
    match v.getLast? with
    | none => .error .panic
    | some x => .ok (v.take s ++ List.replicate (s - v.length) x)
  else .ok (v.take s)

/-- Embedding of `ProveLookupVector` (vector.go:369-573), parameterised over
the domain constructor, the KZG commit/open collaborators and the transcript
hash.  Returns the proof, a returned `error`, or a `panic`. -/
def ProveLookupVector [LinearOrder F] (dommk : ℕ → Domain F)
    (commitF : List F → Except ℕ (List F))
    (batchOpenF : List (List F) → List (List F) → F → Domain F →
      Except ℕ (BatchOpeningProof F))
    (H : List (String × List (List F)) → F)
    (f t : List F) : Except PFail (ProofLookupVector F) := do
  let fs : Transcript F := newTranscript
  let domainSmall := dommk (if t.length ≤ f.length then f.length + 1 else t.length)
  let sizeDomainSmall := domainSmall.card
  let lf ← padTo f sizeDomainSmall
  let lt0 ← padTo t sizeDomainSmall
  let lt := sortFr lt0
  let ct := toCanonical domainSmall lt
  let cf := toCanonical domainSmall lf
  let td ← kz (commitF ct)
  let fd ← kz (commitF cf)
  let lfSortedByt := sortFr (lt ++ lf.take (sizeDomainSmall - 1))
  let lh1 := lfSortedByt.take sizeDomainSmall
  let lh2 := lfSortedByt.drop (sizeDomainSmall - 1)
  let ch1 := toCanonical domainSmall lh1
  let ch2 := toCanonical domainSmall lh2
  let h1d ← kz (commitF ch1)
  let h2d ← kz (commitF ch2)
  let (beta, fs) ← tsc (deriveRandomness H fs "beta" [td, fd, h1d, h2d])
  let (gamma, fs) ← tsc (deriveRandomness H fs "gamma" [])
  let lz := evaluateAccumulationPolynomial lf lt lh1 lh2 beta gamma
  let cz := toCanonical domainSmall lz
  let zd ← kz (commitF cz)
  let domainBig := dommk (2 * sizeDomainSmall)
  let bigLz := fftCosetDIF domainBig (padZero cz (2 * sizeDomainSmall))
  let bigLh1 := fftCosetDIF domainBig (padZero ch1 (2 * sizeDomainSmall))
  let bigLh2 := fftCosetDIF domainBig (padZero ch2 (2 * sizeDomainSmall))
  let bigLt := fftCosetDIF domainBig (padZero ct (2 * sizeDomainSmall))
  let bigLf := fftCosetDIF domainBig (padZero cf (2 * sizeDomainSmall))
  let lh := evaluateNumBitReversed bigLz bigLh1 bigLh2 bigLt bigLf beta gamma domainBig
  let lh0 := evaluateZStartsByOneBitReversed bigLz domainBig
  let lhn := evaluateZEndsByOneBitReversed bigLz domainBig
  let lh1h2 := evaluateOverlapH1h2BitReversed bigLh1 bigLh2 domainBig
  let (alpha, fs) ← tsc (deriveRandomness H fs "alpha" [zd])
  let ch := computeQuotientCanonical alpha lh lh0 lhn lh1h2 domainBig
  let hd ← kz (commitF ch)
  let (nu, _fs) ← tsc (deriveRandomness H fs "nu" [hd])
  let bp ← kz (batchOpenF [ch1, ch2, ct, cz, cf, ch] [h1d, h2d, td, zd, fd, hd]
    nu domainSmall)
  let nu2 := nu * domainSmall.gen
  let bps ← kz (batchOpenF [ch1, ch2, ct, cz] [h1d, h2d, td, zd] nu2 domainSmall)
  return ⟨sizeDomainSmall, h1d, h2d, td, zd, fd, hd, bp, bps⟩

/-- The verifier's reconstruction of the folded numerator at `nu`
(vector.go:638-703): the main `h` term, `L0(nu)·(z-1)`, `Ln(nu)·(z-1)` and
`Ln(nu)·(h1 - h2(g·nu))`, folded by `alpha` in Horner order. -/
def plookupFinalFold (d : Domain F) (beta gamma alpha nu : F)
    (proof : ProofLookupVector F) : F :=
  let g := d.gen ^ (d.card - 1)
  let v := 1 + beta
  let w := v * gamma
  let cv := fun i => proof.BatchedProof.claimedValues.getD i 0
  let cvs := fun i => proof.BatchedProofShifted.claimedValues.getD i 0
  let lhs0 := (nu - g) * cv 3 * v * (gamma + cv 4) * (beta * cvs 2 + cv 2 + w)
  let rhs := (nu - g) * cvs 3 * (beta * cvs 0 + cv 0 + w) * (beta * cvs 1 + cv 1 + w)
  let lhs := lhs0 - rhs
  let l0 := (nu ^ d.card - 1) / (nu - 1)
  let ln := (nu ^ d.card - 1) / (nu - g)
  let l0z := (cv 3 - 1) * l0
  let lnz := ln * (cv 3 - 1)
  let lnh1h2 := (cv 0 - cvs 1) * ln
  ((lnh1h2 * alpha + lnz) * alpha + l0z) * alpha + lhs

/-- The right-hand side of the verifier's final comparison
(vector.go:705-708): `claimed_h * (nu^n - 1)`. -/
def plookupRight (d : Domain F) (nu : F) (proof : ProofLookupVector F) : F :=
  proof.BatchedProof.claimedValues.getD 5 0 * (nu ^ d.card - 1)

/-- Embedding of `VerifyLookupVector` (vector.go:576-714), parameterised over
the domain constructor, the KZG batch verifier, and the transcript hash.
`.ok ()` models a `nil` return (accept). -/
def VerifyLookupVector [DecidableEq F] (dommk : ℕ → Domain F)
    (batchVerifyF : List (List F) → BatchOpeningProof F → Option ℕ)
    (H : List (String × List (List F)) → F)
    (proof : ProofLookupVector F) : Except PErr Unit := do
  let fs : Transcript F := newTranscript
  let (beta, fs) ← deriveRandomness H fs "beta" [proof.t, proof.f, proof.h1, proof.h2]
  let (gamma, fs) ← deriveRandomness H fs "gamma" []
  let (alpha, fs) ← deriveRandomness H fs "alpha" [proof.z]
  let (nu, _fs) ← deriveRandomness H fs "nu" [proof.h]
  match batchVerifyF [proof.h1, proof.h2, proof.t, proof.z, proof.f, proof.h]
      proof.BatchedProof with
  | some e => throw (.kzg e)
  | none => pure ()
  match batchVerifyF [proof.h1, proof.h2, proof.t, proof.z]
      proof.BatchedProofShifted with
  | some e => throw (.kzg e)
  | none => pure ()
  let d := dommk proof.size
  if plookupFinalFold d beta gamma alpha nu proof = plookupRight d nu proof then
    pure ()
  else
    throw .plookupVerification

/-! ## Small utility lemmas about the models -/

lemma getD_range_map (g : ℕ → F) (n i : ℕ) (hi : i < n) :
    ((List.range n).map g).getD i 0 = g i := by
  rw [List.getD_eq_getElem _ _ (by simpa using hi)]
  simp

lemma evalC_append_zero (p : List F) (m : ℕ) (x : F) :
    evalC (p ++ List.replicate m 0) x = evalC p x := by
  induction p with
  | nil =>
    simp only [List.nil_append, evalC_nil]
    induction m with
    | zero => rfl
    | succ m ih => simp [List.replicate_succ, ih]
  | cons a p ih => simp [ih]

lemma evalC_padZero (p : List F) (n : ℕ) (x : F) :
    evalC (padZero p n) x = evalC p x := evalC_append_zero p _ x

lemma padTo_ok (v : List F) (s : ℕ) (hv : v ≠ []) :
    padTo v s = .ok (v.take s ++ List.replicate (s - v.length) (v.getLast?.getD 0)) := by
  have hx := List.getLast?_eq_getLast v hv
  rw [padTo]
  by_cases h : v.length < s
  · rw [if_pos h, hx]
    rfl
  · rw [if_neg h]
    have h0 : s - v.length = 0 := by omega
    rw [h0]
    simp

lemma padTo_panic (s : ℕ) (hs : 0 < s) : padTo ([] : List F) s = .error .panic := by
  rw [padTo, if_pos (by simpa using hs)]
  rfl

/-- The padded form of a non-empty input (the value `padTo` returns). -/
def padded (v : List F) (s : ℕ) : List F :=
  v.take s ++ List.replicate (s - v.length) (v.getLast?.getD 0)

lemma padTo_eq_padded (v : List F) (s : ℕ) (hv : v ≠ []) :
    padTo v s = .ok (padded v s) := padTo_ok v s hv

lemma padded_length (v : List F) (s : ℕ) (hv : v.length ≤ s) :
    (padded v s).length = s := by
  simp [padded]
  omega

lemma length_sortFr [LinearOrder F] (l : List F) : (sortFr l).length = l.length :=
  (List.perm_insertionSort _ l).length_eq

lemma mem_sortFr [LinearOrder F] (l : List F) (x : F) : x ∈ sortFr l ↔ x ∈ l :=
  (List.perm_insertionSort _ l).mem_iff

/-! ## Valid domain pairs

Spec-modelled contract of `fft.NewDomain` for a power-of-two size `N = 2^k`:
the small generator is the square of the big one, the big generator has exact
order `2N`, and the coset shift generates a coset disjoint from the roots of
`x^(2N) - 1`. -/

/-- Validity of the small/big domain pair used by one prover run. -/
structure DomainsOk (Dsm Dbig : Domain F) (N k : ℕ) : Prop where
  hN : N = 2 ^ k
  hN2 : 2 ≤ N
  hsm_card : Dsm.card = N
  hbig_card : Dbig.card = 2 * N
  hgen : Dsm.gen = Dbig.gen ^ 2
  hord : Dbig.gen ^ (2 * N) = 1
  hord_min : ∀ j, 0 < j → j < 2 * N → Dbig.gen ^ j ≠ 1
  hsh0 : Dbig.shift ≠ 0
  hshN : Dbig.shift ^ (2 * N) ≠ 1

namespace DomainsOk

variable {Dsm Dbig : Domain F} {N k : ℕ} (hD : DomainsOk Dsm Dbig N k)

include hD

lemma ws_pow_N : Dsm.gen ^ N = 1 := by
  rw [hD.hgen, ← pow_mul]
  exact hD.hord

lemma wb_ne_zero : Dbig.gen ≠ 0 := by
  intro h
  have h1 := hD.hord
  rw [h, zero_pow (by have := hD.hN2; omega)] at h1
  exact zero_ne_one h1

lemma ws_ne_zero : Dsm.gen ≠ 0 := by
  rw [hD.hgen]
  exact pow_ne_zero 2 hD.wb_ne_zero

lemma ws_pow_ne (j : ℕ) (h0 : 0 < j) (hj : j < N) : Dsm.gen ^ j ≠ 1 := by
  rw [hD.hgen, ← pow_mul]
  exact hD.hord_min (2 * j) (by omega) (by omega)

lemma wb_pow_N : Dbig.gen ^ N = -1 := by
  have hsq : (Dbig.gen ^ N) ^ 2 = 1 := by
    rw [← pow_mul, mul_comm N 2]
    exact hD.hord
  have hne : Dbig.gen ^ N ≠ 1 :=
    hD.hord_min N (by have := hD.hN2; omega) (by have := hD.hN2; omega)
  have hfac : (Dbig.gen ^ N - 1) * (Dbig.gen ^ N + 1) = 0 := by
    calc (Dbig.gen ^ N - 1) * (Dbig.gen ^ N + 1) = (Dbig.gen ^ N) ^ 2 - 1 := by ring
      _ = 0 := by rw [hsq]; ring
  rcases mul_eq_zero.mp hfac with h | h
  · exact absurd (by linear_combination h) hne
  · linear_combination h

lemma ws_pow_inj (i j : ℕ) (hi : i < N) (hj : j < N) (he : Dsm.gen ^ i = Dsm.gen ^ j) :
    i = j := by
  rcases Nat.lt_trichotomy i j with h | h | h
  · exfalso
    apply hD.ws_pow_ne (j - i) (by omega) (by omega)
    have hsplit : Dsm.gen ^ j = Dsm.gen ^ i * Dsm.gen ^ (j - i) := by
      rw [← pow_add]
      congr 1
      omega
    have hz : Dsm.gen ^ i * Dsm.gen ^ (j - i) = Dsm.gen ^ i * 1 := by
      rw [mul_one, ← hsplit, ← he]
    exact mul_left_cancel₀ (pow_ne_zero i hD.ws_ne_zero) hz
  · exact h
  · exfalso
    apply hD.ws_pow_ne (i - j) (by omega) (by omega)
    have hsplit : Dsm.gen ^ i = Dsm.gen ^ j * Dsm.gen ^ (i - j) := by
      rw [← pow_add]
      congr 1
      omega
    have hz : Dsm.gen ^ j * Dsm.gen ^ (i - j) = Dsm.gen ^ j * 1 := by
      rw [mul_one, ← hsplit, he]
    exact mul_left_cancel₀ (pow_ne_zero j hD.ws_ne_zero) hz

lemma wb_pow_inj (i j : ℕ) (hi : i < 2 * N) (hj : j < 2 * N)
    (he : Dbig.gen ^ i = Dbig.gen ^ j) : i = j := by
  rcases Nat.lt_trichotomy i j with h | h | h
  · exfalso
    apply hD.hord_min (j - i) (by omega) (by omega)
    have hsplit : Dbig.gen ^ j = Dbig.gen ^ i * Dbig.gen ^ (j - i) := by
      rw [← pow_add]
      congr 1
      omega
    have hz : Dbig.gen ^ i * Dbig.gen ^ (j - i) = Dbig.gen ^ i * 1 := by
      rw [mul_one, ← hsplit, ← he]
    exact mul_left_cancel₀ (pow_ne_zero i hD.wb_ne_zero) hz
  · exact h
  · exfalso
    apply hD.hord_min (i - j) (by omega) (by omega)
    have hsplit : Dbig.gen ^ i = Dbig.gen ^ j * Dbig.gen ^ (i - j) := by
      rw [← pow_add]
      congr 1
      omega
    have hz : Dbig.gen ^ j * Dbig.gen ^ (i - j) = Dbig.gen ^ j * 1 := by
      rw [mul_one, ← hsplit, he]
    exact mul_left_cancel₀ (pow_ne_zero j hD.wb_ne_zero) hz

lemma smallNodes_length : (smallNodes Dsm).length = N := by
  simp [smallNodes, hD.hsm_card]

lemma smallNodes_getD (i : ℕ) (hi : i < N) :
    (smallNodes Dsm).getD i 0 = Dsm.gen ^ i := by
  rw [smallNodes, hD.hsm_card]
  exact getD_range_map _ N i hi

lemma smallNodes_nodup : (smallNodes Dsm).Nodup := by
  rw [smallNodes, hD.hsm_card]
  refine List.Nodup.map_on ?_ (List.nodup_range _)
  intro i hi j hj he
  exact hD.ws_pow_inj i j (List.mem_range.mp hi) (List.mem_range.mp hj) he

lemma cosetNodes_length : (cosetNodes Dbig).length = 2 * N := by
  simp [cosetNodes, hD.hbig_card]

lemma cosetNodes_getD (i : ℕ) (hi : i < 2 * N) :
    (cosetNodes Dbig).getD i 0 = Dbig.shift * Dbig.gen ^ i := by
  rw [cosetNodes, hD.hbig_card]
  exact getD_range_map _ _ i hi

lemma cosetNodes_nodup : (cosetNodes Dbig).Nodup := by
  rw [cosetNodes, hD.hbig_card]
  refine List.Nodup.map_on ?_ (List.nodup_range _)
  intro i hi j hj he
  have he2 : Dbig.gen ^ i = Dbig.gen ^ j :=
    mul_left_cancel₀ hD.hsh0 he
  exact hD.wb_pow_inj i j (List.mem_range.mp hi) (List.mem_range.mp hj) he2

lemma node_pow_N (i : ℕ) :
    (Dbig.shift * Dbig.gen ^ i) ^ N = Dbig.shift ^ N * (-1 : F) ^ i := by
  rw [mul_pow, ← pow_mul, mul_comm i N, pow_mul, hD.wb_pow_N]

lemma node_pow_ne_one (i : ℕ) : (Dbig.shift * Dbig.gen ^ i) ^ N ≠ 1 := by
  rw [hD.node_pow_N i]
  rcases Nat.even_or_odd i with he | ho
  · rw [he.neg_one_pow, mul_one]
    intro hc
    apply hD.hshN
    rw [show 2 * N = N * 2 by ring, pow_mul, hc, one_pow]
  · rw [ho.neg_one_pow]
    intro hc
    apply hD.hshN
    have : Dbig.shift ^ N = -1 := by linear_combination -hc
    rw [show 2 * N = N * 2 by ring, pow_mul, this]
    norm_num

lemma pick_xn (i : ℕ) :
    pick (evaluateXnMinusOneDomainBig Dbig) i = (Dbig.shift * Dbig.gen ^ i) ^ N - 1 := by
  rw [evaluateXnMinusOneDomainBig, hD.node_pow_N i, hD.hbig_card]
  have hc2 : 2 * N / 2 = N := by omega
  rw [hc2, pick]
  rcases Nat.even_or_odd i with he | ho
  · rw [if_pos (Nat.even_iff.mp he), he.neg_one_pow, mul_one]
  · rw [if_neg (by rw [Nat.odd_iff.mp ho]; omega), ho.neg_one_pow]
    ring

lemma gbar_pow : (Dsm.gen ^ (N - 1)) ^ N = 1 := by
  rw [← pow_mul, mul_comm (N - 1) N, pow_mul, hD.ws_pow_N, one_pow]

lemma gbar_ne_one : Dsm.gen ^ (N - 1) ≠ 1 :=
  hD.ws_pow_ne (N - 1) (by have := hD.hN2; omega) (by have := hD.hN2; omega)

lemma gbar_ne_zero : Dsm.gen ^ (N - 1) ≠ 0 := by
  intro h
  have := hD.gbar_pow
  rw [h] at this
  rw [zero_pow (by have := hD.hN2; omega)] at this
  exact zero_ne_one this

lemma gg_eq_gbar : (Dbig.gen ^ 2) ^ (Dbig.card / 2 - 1) = Dsm.gen ^ (N - 1) := by
  rw [hD.hbig_card, hD.hgen]
  congr 1
  omega

lemma log_big : Nat.log 2 Dbig.card = k + 1 := by
  rw [hD.hbig_card, hD.hN, ← pow_succ']
  exact Nat.log_pow (by omega) _

lemma big_card_pow : Dbig.card = 2 ^ (k + 1) := by
  rw [hD.hbig_card, hD.hN, pow_succ']

/-- Values at coset nodes are never roots of `x^N - 1`, hence differ from `1`
and from the last small-domain point. -/
lemma node_ne_one (i : ℕ) : Dbig.shift * Dbig.gen ^ i ≠ 1 := by
  intro hc
  apply hD.node_pow_ne_one i
  rw [hc, one_pow]

lemma node_ne_gbar (i : ℕ) : Dbig.shift * Dbig.gen ^ i ≠ Dsm.gen ^ (N - 1) := by
  intro hc
  apply hD.node_pow_ne_one i
  rw [hc, hD.gbar_pow]

end DomainsOk

/-! ## The prover's intermediate values

Named replicas of the prover's intermediate computations, used to state
properties of a prover run. -/

/-- The size request passed to `fft.NewDomain` (vector.go:383-387). -/
def requestSize (f t : List F) : ℕ :=
  if t.length ≤ f.length then f.length + 1 else t.length

section ProverTrace

variable [LinearOrder F] (dommk : ℕ → Domain F)
variable (H : List (String × List (List F)) → F) (f t : List F)

/-- The prover's small domain. -/
def pDomS : Domain F := dommk (requestSize f t)

/-- The small-domain cardinality `s`. -/
def pS : ℕ := (pDomS dommk f t).card

/-- The padded vector `lf`. -/
def pLf : List F := padded f (pS dommk f t)

/-- The padded, sorted table `lt`. -/
def pLt : List F := sortFr (padded t (pS dommk f t))

/-- The sorted merge `lfSortedByt` (vector.go:424-427). -/
def pMerged : List F :=
  sortFr (pLt dommk f t ++ (pLf dommk f t).take (pS dommk f t - 1))

/-- `h1`: the first `s` entries of the sorted merge. -/
def pLh1 : List F := (pMerged dommk f t).take (pS dommk f t)

/-- `h2`: the entries of the sorted merge from index `s-1` on. -/
def pLh2 : List F := (pMerged dommk f t).drop (pS dommk f t - 1)

/-- Canonical form of the sorted padded table. -/
def pCt : List F := toCanonical (pDomS dommk f t) (pLt dommk f t)

/-- Canonical form of the padded vector. -/
def pCf : List F := toCanonical (pDomS dommk f t) (pLf dommk f t)

/-- Canonical form of `h1`. -/
def pCh1 : List F := toCanonical (pDomS dommk f t) (pLh1 dommk f t)

/-- Canonical form of `h2`. -/
def pCh2 : List F := toCanonical (pDomS dommk f t) (pLh2 dommk f t)

/-- The challenge `beta`, bound to the commitments to `t, f, h1, h2`. -/
def pBeta : F :=
  H [("beta", [pCt dommk f t, pCf dommk f t, pCh1 dommk f t, pCh2 dommk f t])]

/-- The challenge `gamma`, bound to no further data. -/
def pGamma : F :=
  H [("beta", [pCt dommk f t, pCf dommk f t, pCh1 dommk f t, pCh2 dommk f t]),
     ("gamma", [])]

/-- The accumulation polynomial `Z` in Lagrange form. -/
def pLz : List F :=
  evaluateAccumulationPolynomial (pLf dommk f t) (pLt dommk f t)
    (pLh1 dommk f t) (pLh2 dommk f t) (pBeta dommk H f t) (pGamma dommk H f t)

/-- Canonical form of `Z`. -/
def pCz : List F := toCanonical (pDomS dommk f t) (pLz dommk H f t)

/-- The challenge `alpha`, bound to the commitment to `z`. -/
def pAlpha : F :=
  H [("beta", [pCt dommk f t, pCf dommk f t, pCh1 dommk f t, pCh2 dommk f t]),
     ("gamma", []),
     ("alpha", [pCz dommk H f t])]

/-- The prover's big coset domain. -/
def pDomB : Domain F := dommk (2 * pS dommk f t)

/-- The big-coset lift of a small-domain canonical polynomial. -/
def pBig (p : List F) : List F :=
  fftCosetDIF (pDomB dommk f t) (padZero p (2 * pS dommk f t))

/-- The quotient polynomial `h` in canonical form. -/
def pCh : List F :=
  computeQuotientCanonical (pAlpha dommk H f t)
    (evaluateNumBitReversed (pBig dommk f t (pCz dommk H f t))
      (pBig dommk f t (pCh1 dommk f t)) (pBig dommk f t (pCh2 dommk f t))
      (pBig dommk f t (pCt dommk f t)) (pBig dommk f t (pCf dommk f t))
      (pBeta dommk H f t) (pGamma dommk H f t) (pDomB dommk f t))
    (evaluateZStartsByOneBitReversed (pBig dommk f t (pCz dommk H f t))
      (pDomB dommk f t))
    (evaluateZEndsByOneBitReversed (pBig dommk f t (pCz dommk H f t))
      (pDomB dommk f t))
    (evaluateOverlapH1h2BitReversed (pBig dommk f t (pCh1 dommk f t))
      (pBig dommk f t (pCh2 dommk f t)) (pDomB dommk f t))
    (pDomB dommk f t)

/-- The challenge `nu`, bound to the commitment to `h`. -/
def pNu : F :=
  H [("beta", [pCt dommk f t, pCf dommk f t, pCh1 dommk f t, pCh2 dommk f t]),
     ("gamma", []),
     ("alpha", [pCz dommk H f t]),
     ("nu", [pCh dommk H f t])]

/-- The proof produced by an ideal-collaborator prover run on non-empty
inputs. -/
def pProof : ProofLookupVector F :=
  { size := pS dommk f t
    h1 := pCh1 dommk f t
    h2 := pCh2 dommk f t
    t := pCt dommk f t
    z := pCz dommk H f t
    f := pCf dommk f t
    h := pCh dommk H f t
    BatchedProof :=
      ⟨pNu dommk H f t,
        [evalC (pCh1 dommk f t) (pNu dommk H f t),
         evalC (pCh2 dommk f t) (pNu dommk H f t),
         evalC (pCt dommk f t) (pNu dommk H f t),
         evalC (pCz dommk H f t) (pNu dommk H f t),
         evalC (pCf dommk f t) (pNu dommk H f t),
         evalC (pCh dommk H f t) (pNu dommk H f t)]⟩
    BatchedProofShifted :=
      ⟨pNu dommk H f t * (pDomS dommk f t).gen,
        [evalC (pCh1 dommk f t) (pNu dommk H f t * (pDomS dommk f t).gen),
         evalC (pCh2 dommk f t) (pNu dommk H f t * (pDomS dommk f t).gen),
         evalC (pCt dommk f t) (pNu dommk H f t * (pDomS dommk f t).gen),
         evalC (pCz dommk H f t) (pNu dommk H f t * (pDomS dommk f t).gen)]⟩ }

/-- A prover run with the ideal collaborators on non-empty inputs succeeds
and returns exactly the trace proof. -/
lemma prove_eq_trace (hf : f ≠ []) (ht : t ≠ []) :
    ProveLookupVector dommk idealCommit idealBatchOpen H f t =
      .ok (pProof dommk H f t) := by
  rw [ProveLookupVector]
  rw [show dommk (if t.length ≤ f.length then f.length + 1 else t.length)
      = pDomS dommk f t from rfl]
  rw [padTo_eq_padded f _ hf, padTo_eq_padded t _ ht]
  simp only [bind, Except.bind, kz, tsc, idealCommit, idealBatchOpen,
    Except.mapError, deriveRandomness, newTranscript, pure, Except.pure]
  rfl

end ProverTrace

/-! ## The verifier's derived challenges -/

section VerifierTrace

variable (H : List (String × List (List F)) → F) (proof : ProofLookupVector F)

/-- The verifier's challenge `beta`, bound to the proof's commitments to
`t, f, h1, h2`. -/
def vBeta : F := H [("beta", [proof.t, proof.f, proof.h1, proof.h2])]

/-- The verifier's challenge `gamma`. -/
def vGamma : F :=
  H [("beta", [proof.t, proof.f, proof.h1, proof.h2]), ("gamma", [])]

/-- The verifier's challenge `alpha`, bound to the commitment to `z`. -/
def vAlpha : F :=
  H [("beta", [proof.t, proof.f, proof.h1, proof.h2]), ("gamma", []),
     ("alpha", [proof.z])]

/-- The verifier's challenge `nu`, bound to the commitment to `h`. -/
def vNu : F :=
  H [("beta", [proof.t, proof.f, proof.h1, proof.h2]), ("gamma", []),
     ("alpha", [proof.z]), ("nu", [proof.h])]

/-- Unfolding of a verifier run: challenge derivation always succeeds in
label order; then the two batch verifications gate the final field check. -/
lemma verify_eq [DecidableEq F] (dommk : ℕ → Domain F)
    (bv : List (List F) → BatchOpeningProof F → Option ℕ) :
    VerifyLookupVector dommk bv H proof =
      match bv [proof.h1, proof.h2, proof.t, proof.z, proof.f, proof.h]
          proof.BatchedProof with
      | some e => .error (.kzg e)
      | none =>
        match bv [proof.h1, proof.h2, proof.t, proof.z]
            proof.BatchedProofShifted with
        | some e => .error (.kzg e)
        | none =>
          if plookupFinalFold (dommk proof.size) (vBeta H proof) (vGamma H proof)
              (vAlpha H proof) (vNu H proof) proof =
              plookupRight (dommk proof.size) (vNu H proof) proof
          then .ok () else .error .plookupVerification := by
  rw [VerifyLookupVector]
  simp only [bind, Except.bind, deriveRandomness, newTranscript, pure, Except.pure]
  rfl

end VerifierTrace

/-! ## Evaluation properties of the modelled FFT operations -/

section FFTLemmas

variable {Dsm Dbig : Domain F} {N k : ℕ} (hD : DomainsOk Dsm Dbig N k)

include hD

lemma toCanonical_eval (vals : List F) (hlen : vals.length = N) (i : ℕ) (hi : i < N) :
    evalC (toCanonical Dsm vals) (Dsm.gen ^ i) = vals.getD i 0 := by
  have h1 := evalC_interp_at_node (smallNodes Dsm) vals hD.smallNodes_nodup i
    (by rw [hD.smallNodes_length]; exact hi)
  rw [hD.smallNodes_getD i hi] at h1
  exact h1

lemma toCanonical_natDegree (vals : List F) :
    (toPoly (toCanonical Dsm vals)).natDegree ≤ N - 1 := by
  have := interp_natDegree_le (smallNodes Dsm) vals
  rwa [hD.smallNodes_length] at this

lemma fftCosetDIF_length (p : List F) : (fftCosetDIF Dbig p).length = 2 * N := by
  simp [fftCosetDIF, hD.hbig_card]

lemma fftCosetDIF_getD (p : List F) (i : ℕ) (hi : i < 2 * N) :
    (fftCosetDIF Dbig p).getD (bitRev (k + 1) i) 0 =
      evalC p (Dbig.shift * Dbig.gen ^ i) := by
  rw [fftCosetDIF, hD.log_big, hD.hbig_card]
  have hrev : bitRev (k + 1) i < 2 * N := by
    have := bitRev_lt (k + 1) i
    have h2 := hD.big_card_pow
    rw [hD.hbig_card] at h2
    omega
  have h2 : 2 * N = 2 ^ (k + 1) := by
    have := hD.big_card_pow
    rwa [hD.hbig_card] at this
  rw [getD_range_map _ _ _ hrev, bitRev_bitRev (k + 1) i (by omega)]

/-- The node two bit-reversed steps ahead is the small-generator shift of the
current node. -/
lemma node_shift (i : ℕ) (hi : i < 2 * N) :
    Dbig.shift * Dbig.gen ^ ((i + 2) % (2 * N)) =
      Dbig.shift * Dbig.gen ^ i * Dsm.gen := by
  have key : Dbig.gen ^ ((i + 2) % (2 * N)) = Dbig.gen ^ (i + 2) := by
    conv_rhs => rw [show i + 2 = 2 * N * ((i + 2) / (2 * N)) + (i + 2) % (2 * N) from by
      rw [Nat.div_add_mod]]
    rw [pow_add, pow_mul, hD.hord, one_pow, one_mul]
  rw [key, pow_add, hD.hgen]
  ring

lemma fftInverseCosetDIT_natDegree (vals : List F) :
    (toPoly (fftInverseCosetDIT Dbig vals)).natDegree ≤ 2 * N - 1 := by
  have := interp_natDegree_le (cosetNodes Dbig)
    ((List.range Dbig.card).map (fun i => vals.getD (bitRev (Nat.log 2 Dbig.card) i) 0))
  rwa [hD.cosetNodes_length] at this

lemma fftInverseCosetDIT_eval (vals : List F) (i : ℕ) (hi : i < 2 * N) :
    evalC (fftInverseCosetDIT Dbig vals) (Dbig.shift * Dbig.gen ^ i) =
      vals.getD (bitRev (k + 1) i) 0 := by
  rw [fftInverseCosetDIT]
  have h1 := evalC_interp_at_node (cosetNodes Dbig)
    ((List.range Dbig.card).map (fun j => vals.getD (bitRev (Nat.log 2 Dbig.card) j) 0))
    hD.cosetNodes_nodup i (by rw [hD.cosetNodes_length]; exact hi)
  rw [hD.cosetNodes_getD i hi] at h1
  rw [h1, hD.log_big, hD.hbig_card]
  exact getD_range_map _ _ i hi

end FFTLemmas

lemma batchInvert_range_getD (g : ℕ → F) (n i : ℕ) (hi : i < n) :
    (batchInvert ((List.range n).map g)).getD i 0 = (g i)⁻¹ := by
  rw [batchInvert, List.map_map]
  exact getD_range_map _ n i hi

lemma pick_inv (a b : F) (i : ℕ) : pick (a⁻¹, b⁻¹) i = (pick (a, b) i)⁻¹ := by
  rw [pick, pick]
  split <;> rfl

section Evaluators

variable {Dsm Dbig : Domain F} {N k : ℕ} (hD : DomainsOk Dsm Dbig N k)

include hD

lemma card_eq_pow : Dbig.card = 2 ^ (k + 1) := hD.big_card_pow

lemma evaluateNum_getD (cz ch1 ch2 ct cf : List F) (beta gamma : F) (i : ℕ)
    (hi : i < 2 * N) :
    (evaluateNumBitReversed (fftCosetDIF Dbig cz) (fftCosetDIF Dbig ch1)
        (fftCosetDIF Dbig ch2) (fftCosetDIF Dbig ct) (fftCosetDIF Dbig cf)
        beta gamma Dbig).getD (bitRev (k + 1) i) 0 =
      ((1 + beta) * evalC cz (Dbig.shift * Dbig.gen ^ i) *
          (gamma + evalC cf (Dbig.shift * Dbig.gen ^ i)) *
          (beta * evalC ct (Dbig.shift * Dbig.gen ^ i * Dsm.gen) +
            evalC ct (Dbig.shift * Dbig.gen ^ i) + (1 + beta) * gamma) -
        (beta * evalC ch1 (Dbig.shift * Dbig.gen ^ i * Dsm.gen) +
            evalC ch1 (Dbig.shift * Dbig.gen ^ i) + (1 + beta) * gamma) *
          (beta * evalC ch2 (Dbig.shift * Dbig.gen ^ i * Dsm.gen) +
            evalC ch2 (Dbig.shift * Dbig.gen ^ i) + (1 + beta) * gamma) *
          evalC cz (Dbig.shift * Dbig.gen ^ i * Dsm.gen)) *
        (Dbig.shift * Dbig.gen ^ i - Dsm.gen ^ (N - 1)) := by
  have hmod : (i + 2) % (2 * N) < 2 * N := Nat.mod_lt _ (by have := hD.hN2; omega)
  have hcard := hD.hbig_card
  have hlog := hD.log_big
  have hpow := hD.big_card_pow
  have hlog2 : Nat.log 2 (2 * N) = k + 1 := by rw [← hcard]; exact hlog
  have h2N : 2 * N = 2 ^ (k + 1) := by rw [← hcard]; exact hpow
  rw [evaluateNumBitReversed]
  simp only [hcard, hlog2]
  rw [loopWrite_getD (2 * N) (k + 1) h2N _ _
    (by have := bitRev_lt (k + 1) i; omega)]
  rw [bitRev_bitRev (k + 1) i (by omega)]
  rw [fftCosetDIF_getD hD cz i hi, fftCosetDIF_getD hD ch1 i hi,
    fftCosetDIF_getD hD ch2 i hi, fftCosetDIF_getD hD ct i hi,
    fftCosetDIF_getD hD cf i hi,
    fftCosetDIF_getD hD cz _ hmod, fftCosetDIF_getD hD ch1 _ hmod,
    fftCosetDIF_getD hD ch2 _ hmod, fftCosetDIF_getD hD ct _ hmod,
    node_shift hD i hi]
  rw [show (Dbig.gen ^ 2) ^ (2 * N / 2 - 1) = Dsm.gen ^ (N - 1) from by
    rw [← hD.hbig_card]; exact hD.gg_eq_gbar]

lemma evaluateZStarts_getD (cz : List F) (i : ℕ) (hi : i < 2 * N) :
    (evaluateZStartsByOneBitReversed (fftCosetDIF Dbig cz) Dbig).getD
        (bitRev (k + 1) i) 0 =
      (evalC cz (Dbig.shift * Dbig.gen ^ i) - 1) *
        ((Dbig.shift * Dbig.gen ^ i) ^ N - 1) *
        (Dbig.shift * Dbig.gen ^ i - 1)⁻¹ := by
  have hcard := hD.hbig_card
  have hlog := hD.log_big
  have h2N : 2 * N = 2 ^ (k + 1) := by rw [← hcard]; exact hD.big_card_pow
  have hlog2 : Nat.log 2 (2 * N) = k + 1 := by rw [← hcard]; exact hlog
  rw [evaluateZStartsByOneBitReversed, evaluateL0DomainBig]
  simp only [hcard, hlog2, fftCosetDIF_length hD]
  rw [loopWrite_getD (2 * N) (k + 1) h2N _ _
    (by have := bitRev_lt (k + 1) i; omega)]
  rw [bitRev_bitRev (k + 1) i (by omega)]
  rw [fftCosetDIF_getD hD cz i hi,
    batchInvert_range_getD (fun j => Dbig.shift * Dbig.gen ^ j - 1) (2 * N) i hi,
    hD.pick_xn i]

lemma evaluateZEnds_getD (cz : List F) (i : ℕ) (hi : i < 2 * N) :
    (evaluateZEndsByOneBitReversed (fftCosetDIF Dbig cz) Dbig).getD
        (bitRev (k + 1) i) 0 =
      (evalC cz (Dbig.shift * Dbig.gen ^ i) - 1) *
        ((Dbig.shift * Dbig.gen ^ i) ^ N - 1) *
        (Dbig.shift * Dbig.gen ^ i - Dsm.gen ^ (N - 1))⁻¹ := by
  have hcard := hD.hbig_card
  have hlog := hD.log_big
  have h2N : 2 * N = 2 ^ (k + 1) := by rw [← hcard]; exact hD.big_card_pow
  have hlog2 : Nat.log 2 (2 * N) = k + 1 := by rw [← hcard]; exact hlog
  rw [evaluateZEndsByOneBitReversed, evaluationLnDomainBig]
  simp only [hcard, hlog2, fftCosetDIF_length hD]
  rw [loopWrite_getD (2 * N) (k + 1) h2N _ _
    (by have := bitRev_lt (k + 1) i; omega)]
  rw [bitRev_bitRev (k + 1) i (by omega)]
  rw [fftCosetDIF_getD hD cz i hi,
    batchInvert_range_getD
      (fun j => Dbig.shift * Dbig.gen ^ j - (Dbig.gen ^ 2) ^ (2 * N / 2 - 1))
      (2 * N) i hi,
    hD.pick_xn i]
  rw [show (Dbig.gen ^ 2) ^ (2 * N / 2 - 1) = Dsm.gen ^ (N - 1) from by
    rw [← hD.hbig_card]; exact hD.gg_eq_gbar]

lemma evaluateOverlap_getD (ch1 ch2 : List F) (i : ℕ) (hi : i < 2 * N) :
    (evaluateOverlapH1h2BitReversed (fftCosetDIF Dbig ch1) (fftCosetDIF Dbig ch2)
        Dbig).getD (bitRev (k + 1) i) 0 =
      (evalC ch1 (Dbig.shift * Dbig.gen ^ i) -
          evalC ch2 (Dbig.shift * Dbig.gen ^ i * Dsm.gen)) *
        ((Dbig.shift * Dbig.gen ^ i) ^ N - 1) *
        (Dbig.shift * Dbig.gen ^ i - Dsm.gen ^ (N - 1))⁻¹ := by
  have hcard := hD.hbig_card
  have hlog := hD.log_big
  have h2N : 2 * N = 2 ^ (k + 1) := by rw [← hcard]; exact hD.big_card_pow
  have hlog2 : Nat.log 2 (2 * N) = k + 1 := by rw [← hcard]; exact hlog
  have hmod : (i + 2) % (2 * N) < 2 * N := Nat.mod_lt _ (by have := hD.hN2; omega)
  rw [evaluateOverlapH1h2BitReversed, evaluationLnDomainBig]
  simp only [hcard, hlog2, fftCosetDIF_length hD]
  rw [loopWrite_getD (2 * N) (k + 1) h2N _ _
    (by have := bitRev_lt (k + 1) i; omega)]
  rw [bitRev_bitRev (k + 1) i (by omega)]
  rw [fftCosetDIF_getD hD ch1 i hi, fftCosetDIF_getD hD ch2 _ hmod,
    node_shift hD i hi,
    batchInvert_range_getD
      (fun j => Dbig.shift * Dbig.gen ^ j - (Dbig.gen ^ 2) ^ (2 * N / 2 - 1))
      (2 * N) i hi,
    hD.pick_xn i]
  rw [show (Dbig.gen ^ 2) ^ (2 * N / 2 - 1) = Dsm.gen ^ (N - 1) from by
    rw [← hD.hbig_card]; exact hD.gg_eq_gbar]

lemma computeQuotient_eval (alpha : F) (lh lh0 lhn lh1h2 : List F) (i : ℕ)
    (hi : i < 2 * N) :
    evalC (computeQuotientCanonical alpha lh lh0 lhn lh1h2 Dbig)
        (Dbig.shift * Dbig.gen ^ i) =
      (((lh1h2.getD (bitRev (k + 1) i) 0 * alpha + lhn.getD (bitRev (k + 1) i) 0) *
            alpha + lh0.getD (bitRev (k + 1) i) 0) * alpha +
          lh.getD (bitRev (k + 1) i) 0) *
        ((Dbig.shift * Dbig.gen ^ i) ^ N - 1)⁻¹ := by
  have hcard := hD.hbig_card
  have hlog := hD.log_big
  have h2N : 2 * N = 2 ^ (k + 1) := by rw [← hcard]; exact hD.big_card_pow
  have hlog2 : Nat.log 2 (2 * N) = k + 1 := by rw [← hcard]; exact hlog
  rw [computeQuotientCanonical]
  simp only [hcard, hlog2]
  rw [fftInverseCosetDIT_eval hD _ i hi]
  rw [loopWrite_getD (2 * N) (k + 1) h2N _ _
    (by have := bitRev_lt (k + 1) i; omega)]
  rw [bitRev_bitRev (k + 1) i (by omega)]
  rw [show pick ((evaluateXnMinusOneDomainBig Dbig).1⁻¹,
      (evaluateXnMinusOneDomainBig Dbig).2⁻¹) i =
      (pick (evaluateXnMinusOneDomainBig Dbig) i)⁻¹ from pick_inv _ _ i]
  rw [hD.pick_xn i]

lemma computeQuotient_natDegree (alpha : F) (lh lh0 lhn lh1h2 : List F) :
    (toPoly (computeQuotientCanonical alpha lh lh0 lhn lh1h2 Dbig)).natDegree ≤
      2 * N - 1 := by
  rw [computeQuotientCanonical]
  exact fftInverseCosetDIT_natDegree hD _

end Evaluators

/-! ## The folded numerator as a polynomial -/

/-- `L0 = (X^N - 1)/(X - 1)` as a geometric sum. -/
noncomputable def l0Poly (N : ℕ) : Polynomial F := ∑ i ∈ Finset.range N, Polynomial.X ^ i

/-- `Ln = (X^N - 1)/(X - g^(N-1))` by monic division. -/
noncomputable def lnPoly (N : ℕ) (gbar : F) : Polynomial F :=
  (Polynomial.X ^ N - 1) /ₘ (Polynomial.X - Polynomial.C gbar)

/-- Composition with `ws·X`: the polynomial evaluating `p` at the shifted point. -/
noncomputable def shiftg (ws : F) (p : Polynomial F) : Polynomial F :=
  p.comp (Polynomial.C ws * Polynomial.X)

/-- The folded numerator polynomial
`h + alpha·L0(Z-1) + alpha^2·Ln(Z-1) + alpha^3·Ln(h1 - h2(gX))`. -/
noncomputable def foldPoly (beta gamma alpha ws gbar : F) (N : ℕ)
    (Z H1 H2 T Fp : Polynomial F) : Polynomial F :=
  (Polynomial.C (1 + beta) * Z * (Polynomial.C gamma + Fp) *
      (Polynomial.C beta * shiftg ws T + T + Polynomial.C ((1 + beta) * gamma)) -
    (Polynomial.C beta * shiftg ws H1 + H1 + Polynomial.C ((1 + beta) * gamma)) *
      (Polynomial.C beta * shiftg ws H2 + H2 + Polynomial.C ((1 + beta) * gamma)) *
      shiftg ws Z) *
    (Polynomial.X - Polynomial.C gbar) +
  Polynomial.C alpha * (l0Poly N * (Z - 1)) +
  Polynomial.C alpha ^ 2 * (lnPoly N gbar * (Z - 1)) +
  Polynomial.C alpha ^ 3 * (lnPoly N gbar * (H1 - shiftg ws H2))

lemma l0Poly_spec (N : ℕ) :
    (Polynomial.X - Polynomial.C 1) * l0Poly N = Polynomial.X ^ N - (1 : Polynomial F) := by
  have := geom_sum_mul (Polynomial.X : Polynomial F) N
  rw [l0Poly, Polynomial.C_1]
  linear_combination this

lemma lnPoly_spec (N : ℕ) (gbar : F) (hg : gbar ^ N = 1) :
    (Polynomial.X - Polynomial.C gbar) * lnPoly N gbar =
      Polynomial.X ^ N - (1 : Polynomial F) := by
  have hmod : (Polynomial.X ^ N - 1 : Polynomial F) %ₘ (Polynomial.X - Polynomial.C gbar)
      = 0 := by
    rw [Polynomial.modByMonic_X_sub_C_eq_C_eval]
    simp [hg]
  have := Polynomial.modByMonic_add_div (Polynomial.X ^ N - 1 : Polynomial F)
    (Polynomial.monic_X_sub_C gbar)
  rw [hmod, zero_add] at this
  exact this

lemma eval_shiftg (ws x : F) (p : Polynomial F) :
    (shiftg ws p).eval x = p.eval (ws * x) := by
  simp [shiftg, Polynomial.eval_comp]

/-- Degree of the exact divisor of `X^N - 1` by a linear factor. -/
lemma natDegree_of_linear_mul (a : F) (p : Polynomial F) (N : ℕ) (hN : 0 < N)
    (h : (Polynomial.X - Polynomial.C a) * p = Polynomial.X ^ N - 1) :
    p.natDegree = N - 1 := by
  have hXn : (Polynomial.X ^ N - 1 : Polynomial F) ≠ 0 := by
    have := Polynomial.X_pow_sub_C_ne_zero hN (1 : F)
    rwa [Polynomial.C_1] at this
  have hp : p ≠ 0 := by
    intro h0
    rw [h0, mul_zero] at h
    exact hXn h.symm
  have hlin : (Polynomial.X - Polynomial.C a : Polynomial F) ≠ 0 :=
    Polynomial.X_sub_C_ne_zero a
  have hdeg := Polynomial.natDegree_mul hlin hp
  rw [h] at hdeg
  have hXnd : (Polynomial.X ^ N - 1 : Polynomial F).natDegree = N := by
    have := Polynomial.natDegree_X_pow_sub_C (n := N) (r := (1 : F))
    rwa [Polynomial.C_1] at this
  rw [hXnd, Polynomial.natDegree_X_sub_C] at hdeg
  omega

lemma l0Poly_natDegree (N : ℕ) (hN : 0 < N) : (l0Poly N : Polynomial F).natDegree = N - 1 :=
  natDegree_of_linear_mul 1 _ N hN (by rw [l0Poly_spec])

lemma lnPoly_natDegree (N : ℕ) (gbar : F) (hN : 0 < N) (hg : gbar ^ N = 1) :
    (lnPoly N gbar : Polynomial F).natDegree = N - 1 :=
  natDegree_of_linear_mul gbar _ N hN (lnPoly_spec N gbar hg)

lemma shiftg_natDegree_le (ws : F) (p : Polynomial F) :
    (shiftg ws p).natDegree ≤ p.natDegree := by
  have h1 : (Polynomial.C ws * Polynomial.X : Polynomial F).natDegree ≤ 1 := by
    refine le_trans Polynomial.natDegree_mul_le ?_
    simp
  calc (shiftg ws p).natDegree ≤ p.natDegree * (Polynomial.C ws * Polynomial.X).natDegree :=
        Polynomial.natDegree_comp_le
    _ ≤ p.natDegree * 1 := Nat.mul_le_mul_left _ h1
    _ = p.natDegree := mul_one _

/-- Evaluation of `L0` off the small domain. -/
lemma l0Poly_eval (N : ℕ) (x : F) (hx : x ≠ 1) :
    (l0Poly N : Polynomial F).eval x = (x ^ N - 1) / (x - 1) := by
  have := congrArg (Polynomial.eval x) (l0Poly_spec (F := F) N)
  simp only [Polynomial.eval_mul, Polynomial.eval_sub, Polynomial.eval_X,
    Polynomial.eval_C, Polynomial.eval_pow, Polynomial.eval_one] at this
  rw [eq_div_iff (sub_ne_zero.mpr hx)]
  linear_combination this

/-- Evaluation of `Ln` off the last small-domain point. -/
lemma lnPoly_eval (N : ℕ) (gbar x : F) (hg : gbar ^ N = 1) (hx : x ≠ gbar) :
    (lnPoly N gbar : Polynomial F).eval x = (x ^ N - 1) / (x - gbar) := by
  have := congrArg (Polynomial.eval x) (lnPoly_spec (F := F) N gbar hg)
  simp only [Polynomial.eval_mul, Polynomial.eval_sub, Polynomial.eval_X,
    Polynomial.eval_C, Polynomial.eval_pow, Polynomial.eval_one] at this
  rw [eq_div_iff (sub_ne_zero.mpr hx)]
  linear_combination this

/-- Evaluation of `Ln` at its removed root: `N · gbar^(N-1)`. -/
lemma lnPoly_eval_gbar (N : ℕ) (gbar : F) (hg : gbar ^ N = 1) :
    (lnPoly N gbar : Polynomial F).eval gbar = (N : F) * gbar ^ (N - 1) := by
  have hder := congrArg Polynomial.derivative (lnPoly_spec (F := F) N gbar hg)
  simp only [Polynomial.derivative_mul, Polynomial.derivative_sub,
    Polynomial.derivative_X_pow, Polynomial.derivative_one,
    Polynomial.derivative_X, Polynomial.derivative_C,
    sub_zero, one_mul] at hder
  have := congrArg (Polynomial.eval gbar) hder
  simp only [Polynomial.eval_add, Polynomial.eval_mul, Polynomial.eval_sub,
    Polynomial.eval_X, Polynomial.eval_C, Polynomial.eval_pow,
    Polynomial.eval_natCast, sub_self, zero_mul, add_zero] at this
  linear_combination this

lemma fftCosetDIF_padZero {Dbig : Domain F} (p : List F) (m : ℕ) :
    fftCosetDIF Dbig (padZero p m) = fftCosetDIF Dbig p := by
  simp [fftCosetDIF, evalC_padZero]

section Pipeline

variable {Dsm Dbig : Domain F} {N k : ℕ} (hD : DomainsOk Dsm Dbig N k)
variable (beta gamma alpha : F) (cz ch1 ch2 ct cf : List F)

/-- The quotient list built by the prover from the five canonical polynomials. -/
def quotientOf (Db : Domain F) : List F :=
  computeQuotientCanonical alpha
    (evaluateNumBitReversed (fftCosetDIF Db cz) (fftCosetDIF Db ch1)
      (fftCosetDIF Db ch2) (fftCosetDIF Db ct) (fftCosetDIF Db cf)
      beta gamma Db)
    (evaluateZStartsByOneBitReversed (fftCosetDIF Db cz) Db)
    (evaluateZEndsByOneBitReversed (fftCosetDIF Db cz) Db)
    (evaluateOverlapH1h2BitReversed (fftCosetDIF Db ch1)
      (fftCosetDIF Db ch2) Db)
    Db

include hD

lemma quotient_eval_coset (i : ℕ) (hi : i < 2 * N) :
    evalC (quotientOf beta gamma alpha cz ch1 ch2 ct cf Dbig)
        (Dbig.shift * Dbig.gen ^ i) =
      (foldPoly beta gamma alpha Dsm.gen (Dsm.gen ^ (N - 1)) N
          (toPoly cz) (toPoly ch1) (toPoly ch2) (toPoly ct) (toPoly cf)).eval
          (Dbig.shift * Dbig.gen ^ i) *
        ((Dbig.shift * Dbig.gen ^ i) ^ N - 1)⁻¹ := by
  rw [quotientOf, computeQuotient_eval hD alpha _ _ _ _ i hi,
    evaluateNum_getD hD cz ch1 ch2 ct cf beta gamma i hi,
    evaluateZStarts_getD hD cz i hi, evaluateZEnds_getD hD cz i hi,
    evaluateOverlap_getD hD ch1 ch2 i hi]
  set x := Dbig.shift * Dbig.gen ^ i with hx
  have hcomm : x * Dsm.gen = Dsm.gen * x := mul_comm _ _
  rw [hcomm]
  have hx1 : x ≠ 1 := hD.node_ne_one i
  have hx2 : x ≠ Dsm.gen ^ (N - 1) := hD.node_ne_gbar i
  have hxn : x ^ N - 1 ≠ 0 := sub_ne_zero.mpr (hD.node_pow_ne_one i)
  have hd1 : x - 1 ≠ 0 := sub_ne_zero.mpr hx1
  have hd2 : x - Dsm.gen ^ (N - 1) ≠ 0 := sub_ne_zero.mpr hx2
  simp only [evalC_eq_eval]
  simp only [foldPoly, Polynomial.eval_add, Polynomial.eval_mul, Polynomial.eval_sub,
    Polynomial.eval_pow, Polynomial.eval_X, Polynomial.eval_C, Polynomial.eval_one,
    eval_shiftg]
  rw [l0Poly_eval N x hx1, lnPoly_eval N (Dsm.gen ^ (N - 1)) x hD.gbar_pow hx2]
  field_simp
  ring

end Pipeline

lemma natDegree_row_le (b c : F) (pg p : Polynomial F) (n : ℕ)
    (hpg : pg.natDegree ≤ n) (hp : p.natDegree ≤ n) :
    (Polynomial.C b * pg + p + Polynomial.C c).natDegree ≤ n := by
  refine le_trans (Polynomial.natDegree_add_le _ _) (max_le ?_ (by simp))
  refine le_trans (Polynomial.natDegree_add_le _ _) (max_le ?_ hp)
  refine le_trans Polynomial.natDegree_mul_le ?_
  simpa using hpg

lemma foldPoly_natDegree_le (beta gamma alpha ws gbar : F) (N : ℕ) (hN : 1 ≤ N)
    (Z H1 H2 T Fp : Polynomial F)
    (hZ : Z.natDegree ≤ N - 1) (hH1 : H1.natDegree ≤ N - 1)
    (hH2 : H2.natDegree ≤ N - 1) (hT : T.natDegree ≤ N - 1)
    (hF : Fp.natDegree ≤ N - 1) (hgbar : gbar ^ N = 1) :
    (foldPoly beta gamma alpha ws gbar N Z H1 H2 T Fp).natDegree ≤ 3 * N - 2 := by
  have hZg : (shiftg ws Z).natDegree ≤ N - 1 := le_trans (shiftg_natDegree_le _ _) hZ
  have hH1g : (shiftg ws H1).natDegree ≤ N - 1 := le_trans (shiftg_natDegree_le _ _) hH1
  have hH2g : (shiftg ws H2).natDegree ≤ N - 1 := le_trans (shiftg_natDegree_le _ _) hH2
  have hTg : (shiftg ws T).natDegree ≤ N - 1 := le_trans (shiftg_natDegree_le _ _) hT
  have hBT := natDegree_row_le beta ((1 + beta) * gamma) (shiftg ws T) T (N - 1) hTg hT
  have hB1 := natDegree_row_le beta ((1 + beta) * gamma) (shiftg ws H1) H1 (N - 1) hH1g hH1
  have hB2 := natDegree_row_le beta ((1 + beta) * gamma) (shiftg ws H2) H2 (N - 1) hH2g hH2
  have hGF : (Polynomial.C gamma + Fp).natDegree ≤ N - 1 :=
    le_trans (Polynomial.natDegree_add_le _ _) (max_le (by simp) hF)
  have hA : (Polynomial.C (1 + beta) * Z * (Polynomial.C gamma + Fp) *
      (Polynomial.C beta * shiftg ws T + T +
        Polynomial.C ((1 + beta) * gamma))).natDegree ≤ 3 * (N - 1) := by
    refine le_trans Polynomial.natDegree_mul_le ?_
    have h1 : (Polynomial.C (1 + beta) * Z * (Polynomial.C gamma + Fp)).natDegree ≤
        2 * (N - 1) := by
      refine le_trans Polynomial.natDegree_mul_le ?_
      have h2 : (Polynomial.C (1 + beta) * Z).natDegree ≤ N - 1 := by
        refine le_trans Polynomial.natDegree_mul_le ?_
        simpa using hZ
      omega
    omega
  have hB : ((Polynomial.C beta * shiftg ws H1 + H1 +
        Polynomial.C ((1 + beta) * gamma)) *
      (Polynomial.C beta * shiftg ws H2 + H2 + Polynomial.C ((1 + beta) * gamma)) *
      shiftg ws Z).natDegree ≤ 3 * (N - 1) := by
    refine le_trans Polynomial.natDegree_mul_le ?_
    have h1 : ((Polynomial.C beta * shiftg ws H1 + H1 +
          Polynomial.C ((1 + beta) * gamma)) *
        (Polynomial.C beta * shiftg ws H2 + H2 +
          Polynomial.C ((1 + beta) * gamma))).natDegree ≤ 2 * (N - 1) := by
      refine le_trans Polynomial.natDegree_mul_le ?_
      omega
    omega
  have hMain : ((Polynomial.C (1 + beta) * Z * (Polynomial.C gamma + Fp) *
        (Polynomial.C beta * shiftg ws T + T + Polynomial.C ((1 + beta) * gamma)) -
      (Polynomial.C beta * shiftg ws H1 + H1 + Polynomial.C ((1 + beta) * gamma)) *
        (Polynomial.C beta * shiftg ws H2 + H2 + Polynomial.C ((1 + beta) * gamma)) *
        shiftg ws Z) * (Polynomial.X - Polynomial.C gbar)).natDegree ≤ 3 * N - 2 := by
    refine le_trans Polynomial.natDegree_mul_le ?_
    have hsub := le_trans (Polynomial.natDegree_sub_le _ _) (max_le hA hB)
    have hlin : (Polynomial.X - Polynomial.C gbar : Polynomial F).natDegree = 1 :=
      Polynomial.natDegree_X_sub_C gbar
    omega
  have hZ1 : (Z - 1).natDegree ≤ N - 1 :=
    le_trans (Polynomial.natDegree_sub_le _ _) (max_le hZ (by simp))
  have hL0T : (Polynomial.C alpha * (l0Poly N * (Z - 1))).natDegree ≤ 3 * N - 2 := by
    refine le_trans Polynomial.natDegree_mul_le ?_
    have := le_trans Polynomial.natDegree_mul_le
      (add_le_add (le_of_eq (l0Poly_natDegree (F := F) N (by omega))) hZ1)
    simp only [Polynomial.natDegree_C]
    omega
  have hLnEq := lnPoly_natDegree (F := F) N gbar (by omega) hgbar
  have hLnT : (Polynomial.C alpha ^ 2 * (lnPoly N gbar * (Z - 1))).natDegree ≤
      3 * N - 2 := by
    refine le_trans Polynomial.natDegree_mul_le ?_
    have h1 := le_trans Polynomial.natDegree_mul_le
      (add_le_add (le_of_eq hLnEq) hZ1)
    have h2 : ((Polynomial.C alpha : Polynomial F) ^ 2).natDegree ≤ 0 := by
      simpa using Polynomial.natDegree_pow_le (p := (Polynomial.C alpha : Polynomial F)) (n := 2)
    omega
  have hOv : (H1 - shiftg ws H2).natDegree ≤ N - 1 :=
    le_trans (Polynomial.natDegree_sub_le _ _) (max_le hH1 hH2g)
  have hLnT2 : (Polynomial.C alpha ^ 3 * (lnPoly N gbar * (H1 - shiftg ws H2))).natDegree ≤
      3 * N - 2 := by
    refine le_trans Polynomial.natDegree_mul_le ?_
    have h1 := le_trans Polynomial.natDegree_mul_le
      (add_le_add (le_of_eq hLnEq) hOv)
    have h2 : ((Polynomial.C alpha : Polynomial F) ^ 3).natDegree ≤ 0 := by
      simpa using Polynomial.natDegree_pow_le (p := (Polynomial.C alpha : Polynomial F)) (n := 3)
    omega
  rw [foldPoly]
  refine le_trans (Polynomial.natDegree_add_le _ _) (max_le ?_ hLnT2)
  refine le_trans (Polynomial.natDegree_add_le _ _) (max_le ?_ hLnT)
  exact le_trans (Polynomial.natDegree_add_le _ _) (max_le hMain hL0T)

section Quotient

variable {Dsm Dbig : Domain F} {N k : ℕ} (hD : DomainsOk Dsm Dbig N k)

include hD

/-- A polynomial vanishing on the small domain is an exact multiple of
`X^N - 1`. -/
lemma eq_vanishing_mul_div (P : Polynomial F)
    (hvan : ∀ i < N, P.eval (Dsm.gen ^ i) = 0) :
    P = (Polynomial.X ^ N - Polynomial.C 1) *
      (P /ₘ (Polynomial.X ^ N - Polynomial.C 1)) := by
  have hN0 : N ≠ 0 := by have := hD.hN2; omega
  have hmonic : (Polynomial.X ^ N - Polynomial.C 1 : Polynomial F).Monic :=
    Polynomial.monic_X_pow_sub_C 1 hN0
  have hRdef := Polynomial.modByMonic_add_div P hmonic
  have hRdeg := Polynomial.degree_modByMonic_lt P hmonic
  have hXdeg : (Polynomial.X ^ N - Polynomial.C 1 : Polynomial F).degree = N :=
    Polynomial.degree_X_pow_sub_C (by omega) 1
  have hR0 : P %ₘ (Polynomial.X ^ N - Polynomial.C 1) = 0 := by
    by_cases hc : P %ₘ (Polynomial.X ^ N - Polynomial.C 1) = 0
    · exact hc
    · refine poly_eq_zero_of_roots _ (smallNodes Dsm) hD.smallNodes_nodup ?_ ?_
      · rw [hD.smallNodes_length]
        rw [hXdeg] at hRdeg
        exact (Polynomial.natDegree_lt_iff_degree_lt hc).mpr hRdeg
      · intro x hx
        obtain ⟨i, hi, hix⟩ := List.mem_map.mp hx
        have hiN : i < N := by
          have := List.mem_range.mp hi
          rwa [hD.hsm_card] at this
        have heval := congrArg (Polynomial.eval (Dsm.gen ^ i)) hRdef
        simp only [Polynomial.eval_add, Polynomial.eval_mul, Polynomial.eval_sub,
          Polynomial.eval_pow, Polynomial.eval_X, Polynomial.eval_C] at heval
        have hroot : (Dsm.gen ^ i) ^ N = 1 := by
          rw [← pow_mul, mul_comm i N, pow_mul, hD.ws_pow_N, one_pow]
        rw [hroot, hvan i hiN] at heval
        rw [← hix]
        linear_combination heval
  rw [hR0, zero_add] at hRdef
  exact hRdef.symm

end Quotient

/-! ## Properties of the accumulation polynomial -/

lemma evalAcc_length (lf lt lh1 lh2 : List F) (beta gamma : F) :
    (evaluateAccumulationPolynomial lf lt lh1 lh2 beta gamma).length = lt.length := by
  simp [evaluateAccumulationPolynomial]

lemma evalAcc_getD (lf lt lh1 lh2 : List F) (beta gamma : F) (i : ℕ)
    (hi : i < lt.length) :
    (evaluateAccumulationPolynomial lf lt lh1 lh2 beta gamma).getD i 0 =
      zAcc lf lt
        (batchInvert ((List.range (lt.length - 1)).map (fun j =>
          (beta * lh1.getD (j + 1) 0 + lh1.getD j 0 + (1 + beta) * gamma) *
            (beta * lh2.getD (j + 1) 0 + lh2.getD j 0 + (1 + beta) * gamma))))
        beta gamma ((1 + beta) * gamma) (1 + beta) i := by
  rw [evaluateAccumulationPolynomial]
  exact getD_range_map _ _ i hi

lemma evalAcc_zero (lf lt lh1 lh2 : List F) (beta gamma : F) (h0 : 0 < lt.length) :
    (evaluateAccumulationPolynomial lf lt lh1 lh2 beta gamma).getD 0 0 = 1 := by
  rw [evalAcc_getD lf lt lh1 lh2 beta gamma 0 h0]
  rfl

/-- The accumulator recurrence, cleared of denominators. -/
lemma evalAcc_rec (lf lt lh1 lh2 : List F) (beta gamma : F) (i : ℕ)
    (hi : i + 1 < lt.length)
    (h1 : beta * lh1.getD (i + 1) 0 + lh1.getD i 0 + (1 + beta) * gamma ≠ 0)
    (h2 : beta * lh2.getD (i + 1) 0 + lh2.getD i 0 + (1 + beta) * gamma ≠ 0) :
    (evaluateAccumulationPolynomial lf lt lh1 lh2 beta gamma).getD (i + 1) 0 *
        ((beta * lh1.getD (i + 1) 0 + lh1.getD i 0 + (1 + beta) * gamma) *
          (beta * lh2.getD (i + 1) 0 + lh2.getD i 0 + (1 + beta) * gamma)) =
      (evaluateAccumulationPolynomial lf lt lh1 lh2 beta gamma).getD i 0 *
        ((gamma + lf.getD i 0) *
          (beta * lt.getD (i + 1) 0 + lt.getD i 0 + (1 + beta) * gamma) *
          (1 + beta)) := by
  rw [evalAcc_getD lf lt lh1 lh2 beta gamma (i + 1) hi,
    evalAcc_getD lf lt lh1 lh2 beta gamma i (by omega)]
  rw [zAcc]
  have hd : (batchInvert ((List.range (lt.length - 1)).map (fun j =>
      (beta * lh1.getD (j + 1) 0 + lh1.getD j 0 + (1 + beta) * gamma) *
        (beta * lh2.getD (j + 1) 0 + lh2.getD j 0 + (1 + beta) * gamma)))).getD i 0 =
      ((beta * lh1.getD (i + 1) 0 + lh1.getD i 0 + (1 + beta) * gamma) *
        (beta * lh2.getD (i + 1) 0 + lh2.getD i 0 + (1 + beta) * gamma))⁻¹ :=
    batchInvert_range_getD _ _ i (by omega)
  rw [hd]
  have hne : (beta * lh1.getD (i + 1) 0 + lh1.getD i 0 + (1 + beta) * gamma) *
      (beta * lh2.getD (i + 1) 0 + lh2.getD i 0 + (1 + beta) * gamma) ≠ 0 :=
    mul_ne_zero h1 h2
  exact inv_mul_cancel_right₀ hne _

section Vanishing

variable {Dsm Dbig : Domain F} {N k : ℕ} (hD : DomainsOk Dsm Dbig N k)
variable (beta gamma alpha : F) (lf lt lh1 lh2 : List F)

include hD

/-- On honest data (accumulator recurrence holds, `Z` starts and ends at 1,
`h1/h2` overlap at the boundary) the folded numerator vanishes on the whole
small domain. -/
lemma foldPoly_vanishing
    (hlf : lf.length = N) (hlt : lt.length = N) (hlh1 : lh1.length = N)
    (hlh2 : lh2.length = N)
    (hden : ∀ i, i + 1 < N →
      beta * lh1.getD (i + 1) 0 + lh1.getD i 0 + (1 + beta) * gamma ≠ 0 ∧
      beta * lh2.getD (i + 1) 0 + lh2.getD i 0 + (1 + beta) * gamma ≠ 0)
    (hzlast : (evaluateAccumulationPolynomial lf lt lh1 lh2 beta gamma).getD
      (N - 1) 0 = 1)
    (hoverlap : lh1.getD (N - 1) 0 = lh2.getD 0 0)
    (i : ℕ) (hi : i < N) :
    (foldPoly beta gamma alpha Dsm.gen (Dsm.gen ^ (N - 1)) N
        (toPoly (toCanonical Dsm
          (evaluateAccumulationPolynomial lf lt lh1 lh2 beta gamma)))
        (toPoly (toCanonical Dsm lh1)) (toPoly (toCanonical Dsm lh2))
        (toPoly (toCanonical Dsm lt)) (toPoly (toCanonical Dsm lf))).eval
      (Dsm.gen ^ i) = 0 := by
  have hN2 := hD.hN2
  set lz := evaluateAccumulationPolynomial lf lt lh1 lh2 beta gamma with hlz
  have hlzlen : lz.length = N := by rw [hlz, evalAcc_length, hlt]
  have hZev : ∀ j, j < N →
      (toPoly (toCanonical Dsm lz)).eval (Dsm.gen ^ j) = lz.getD j 0 := by
    intro j hj
    rw [← evalC_eq_eval]
    exact toCanonical_eval hD lz hlzlen j hj
  have hH1ev : ∀ j, j < N →
      (toPoly (toCanonical Dsm lh1)).eval (Dsm.gen ^ j) = lh1.getD j 0 := by
    intro j hj
    rw [← evalC_eq_eval]
    exact toCanonical_eval hD lh1 hlh1 j hj
  have hH2ev : ∀ j, j < N →
      (toPoly (toCanonical Dsm lh2)).eval (Dsm.gen ^ j) = lh2.getD j 0 := by
    intro j hj
    rw [← evalC_eq_eval]
    exact toCanonical_eval hD lh2 hlh2 j hj
  have hTev : ∀ j, j < N →
      (toPoly (toCanonical Dsm lt)).eval (Dsm.gen ^ j) = lt.getD j 0 := by
    intro j hj
    rw [← evalC_eq_eval]
    exact toCanonical_eval hD lt hlt j hj
  have hFev : ∀ j, j < N →
      (toPoly (toCanonical Dsm lf)).eval (Dsm.gen ^ j) = lf.getD j 0 := by
    intro j hj
    rw [← evalC_eq_eval]
    exact toCanonical_eval hD lf hlf j hj
  have hxN : (Dsm.gen ^ i) ^ N = 1 := by
    rw [← pow_mul, mul_comm i N, pow_mul, hD.ws_pow_N, one_pow]
  have hshiftarg : Dsm.gen * Dsm.gen ^ i = Dsm.gen ^ (i + 1) := (pow_succ' _ _).symm
  simp only [foldPoly, Polynomial.eval_add, Polynomial.eval_mul, Polynomial.eval_sub,
    Polynomial.eval_pow, Polynomial.eval_X, Polynomial.eval_C, Polynomial.eval_one,
    eval_shiftg, hshiftarg]
  by_cases hlast : i = N - 1
  · subst hlast
    have hnext : Dsm.gen ^ (N - 1 + 1) = Dsm.gen ^ 0 := by
      rw [show N - 1 + 1 = N from by omega, hD.ws_pow_N, pow_zero]
    rw [hnext]
    rw [hZev (N - 1) hi, hH1ev (N - 1) hi, hH2ev 0 (by omega), hzlast, hoverlap]
    simp
  · have hi1 : i + 1 < N := by omega
    have hrec := evalAcc_rec lf lt lh1 lh2 beta gamma i (by omega)
      (hden i hi1).1 (hden i hi1).2
    rw [← hlz] at hrec
    have hL0 : (l0Poly N : Polynomial F).eval (Dsm.gen ^ i) *
        (Dsm.gen ^ i - 1) = 0 := by
      have := congrArg (Polynomial.eval (Dsm.gen ^ i)) (l0Poly_spec (F := F) N)
      simp only [Polynomial.eval_mul, Polynomial.eval_sub, Polynomial.eval_X,
        Polynomial.eval_C, Polynomial.eval_pow, Polynomial.eval_one] at this
      rw [hxN] at this
      linear_combination this
    have hLn : (lnPoly N (Dsm.gen ^ (N - 1)) : Polynomial F).eval (Dsm.gen ^ i) = 0 := by
      have := congrArg (Polynomial.eval (Dsm.gen ^ i))
        (lnPoly_spec (F := F) N (Dsm.gen ^ (N - 1)) hD.gbar_pow)
      simp only [Polynomial.eval_mul, Polynomial.eval_sub, Polynomial.eval_X,
        Polynomial.eval_C, Polynomial.eval_pow, Polynomial.eval_one] at this
      rw [hxN] at this
      have hne : Dsm.gen ^ i - Dsm.gen ^ (N - 1) ≠ 0 := by
        refine sub_ne_zero.mpr ?_
        intro he
        exact hlast (hD.ws_pow_inj i (N - 1) hi (by omega) he)
      have hz : (Dsm.gen ^ i - Dsm.gen ^ (N - 1)) *
          (lnPoly N (Dsm.gen ^ (N - 1)) : Polynomial F).eval (Dsm.gen ^ i) = 0 := by
        linear_combination this
      rcases mul_eq_zero.mp hz with h | h
      · exact absurd h hne
      · exact h
    rw [hZev i hi, hZev (i + 1) hi1, hH1ev i hi, hH1ev (i + 1) hi1,
      hH2ev i hi, hH2ev (i + 1) hi1, hTev i hi, hTev (i + 1) hi1, hFev i hi, hLn]
    by_cases hzero : i = 0
    · subst hzero
      have hz0 : lz.getD 0 0 = 1 := by
        rw [hlz]
        exact evalAcc_zero lf lt lh1 lh2 beta gamma (by omega)
      rw [hz0] at hrec ⊢
      simp only [sub_self, mul_zero, zero_mul, mul_one, add_zero, zero_add]
      linear_combination (Dsm.gen ^ (N - 1) - Dsm.gen ^ 0) * hrec
    · have hL0z : (l0Poly N : Polynomial F).eval (Dsm.gen ^ i) = 0 := by
        have hne : Dsm.gen ^ i - 1 ≠ 0 := by
          refine sub_ne_zero.mpr ?_
          exact hD.ws_pow_ne i (by omega) hi
        rcases mul_eq_zero.mp hL0 with h | h
        · exact h
        · exact absurd h hne
      rw [hL0z]
      simp only [mul_zero, zero_mul, add_zero, zero_add]
      linear_combination (Dsm.gen ^ (N - 1) - Dsm.gen ^ i) * hrec

end Vanishing

/-! ## Telescoping of the accumulator over the sorted merge -/

lemma take_getD (l : List F) (n i : ℕ) (hi : i < n) :
    (l.take n).getD i 0 = l.getD i 0 := by
  by_cases h : i < l.length
  · rw [List.getD_eq_getElem _ _ (by simp; omega), List.getD_eq_getElem _ _ h,
      List.getElem_take]
  · rw [List.getD_eq_default _ _ (by simp; omega), List.getD_eq_default _ _ (by omega)]

lemma drop_getD (l : List F) (m i : ℕ) :
    (l.drop m).getD i 0 = l.getD (m + i) 0 := by
  by_cases h : m + i < l.length
  · rw [List.getD_eq_getElem _ _ (by simp; omega), List.getD_eq_getElem _ _ h,
      List.getElem_drop]
  · rw [List.getD_eq_default _ _ (by simp; omega), List.getD_eq_default _ _ (by omega)]

lemma prod_list_getD (g : F → F) (l : List F) :
    (l.map g).prod = ∏ i ∈ Finset.range l.length, g (l.getD i 0) := by
  induction l with
  | nil => simp
  | cons a l ih =>
    rw [List.map_cons, List.prod_cons, ih, List.length_cons, Finset.prod_range_succ']
    rw [mul_comm]
    refine congrArg (· * g ((a :: l).getD 0 0)) (Finset.prod_congr rfl fun i _ => ?_)
    rfl

/-- Running form of the accumulator: denominators cleared up to step `m`. -/
lemma evalAcc_telescope (lf lt lh1 lh2 : List F) (beta gamma : F) (m : ℕ)
    (hm : m < lt.length)
    (hden : ∀ i, i + 1 < lt.length →
      beta * lh1.getD (i + 1) 0 + lh1.getD i 0 + (1 + beta) * gamma ≠ 0 ∧
      beta * lh2.getD (i + 1) 0 + lh2.getD i 0 + (1 + beta) * gamma ≠ 0) :
    (evaluateAccumulationPolynomial lf lt lh1 lh2 beta gamma).getD m 0 *
        ∏ i ∈ Finset.range m,
          ((beta * lh1.getD (i + 1) 0 + lh1.getD i 0 + (1 + beta) * gamma) *
            (beta * lh2.getD (i + 1) 0 + lh2.getD i 0 + (1 + beta) * gamma)) =
      ∏ i ∈ Finset.range m,
        ((gamma + lf.getD i 0) *
          (beta * lt.getD (i + 1) 0 + lt.getD i 0 + (1 + beta) * gamma) *
          (1 + beta)) := by
  induction m with
  | zero =>
    rw [Finset.prod_range_zero, Finset.prod_range_zero,
      evalAcc_zero lf lt lh1 lh2 beta gamma (by omega), mul_one]
  | succ m ih =>
    have hrec := evalAcc_rec lf lt lh1 lh2 beta gamma m hm (hden m hm).1 (hden m hm).2
    rw [Finset.prod_range_succ, Finset.prod_range_succ, ← mul_assoc,
      mul_comm ((evaluateAccumulationPolynomial lf lt lh1 lh2 beta gamma).getD (m + 1) 0)
        (∏ i ∈ Finset.range m,
          ((beta * lh1.getD (i + 1) 0 + lh1.getD i 0 + (1 + beta) * gamma) *
            (beta * lh2.getD (i + 1) 0 + lh2.getD i 0 + (1 + beta) * gamma)))]
    rw [mul_assoc, hrec, ← mul_assoc,
      mul_comm (∏ i ∈ Finset.range m,
        ((beta * lh1.getD (i + 1) 0 + lh1.getD i 0 + (1 + beta) * gamma) *
          (beta * lh2.getD (i + 1) 0 + lh2.getD i 0 + (1 + beta) * gamma)))
        ((evaluateAccumulationPolynomial lf lt lh1 lh2 beta gamma).getD m 0)]
    rw [ih (by omega)]

/-- Product identity over the sorted merge: the denominator product built from
`h1 = merged.take N`, `h2 = merged.drop (N-1)` equals the numerator product,
when every consumed query value appears in the (sorted) table. -/
lemma merge_prod_eq [LinearOrder F] (beta gamma : F) (lt lf lh1 lh2 : List F) (N : ℕ)
    (htlen : lt.length = N) (hflen : lf.length = N) (hN : 1 ≤ N)
    (hts : lt.Sorted (· ≤ ·))
    (hmem : ∀ x ∈ lf.take (N - 1), x ∈ lt)
    (hh1 : lh1 = (sortFr (lt ++ lf.take (N - 1))).take N)
    (hh2 : lh2 = (sortFr (lt ++ lf.take (N - 1))).drop (N - 1)) :
    ∏ i ∈ Finset.range (N - 1),
        ((beta * lh1.getD (i + 1) 0 + lh1.getD i 0 + (1 + beta) * gamma) *
          (beta * lh2.getD (i + 1) 0 + lh2.getD i 0 + (1 + beta) * gamma)) =
      ∏ i ∈ Finset.range (N - 1),
        ((gamma + lf.getD i 0) *
          (beta * lt.getD (i + 1) 0 + lt.getD i 0 + (1 + beta) * gamma) *
          (1 + beta)) := by
  subst hh1 hh2
  have hMlen : (sortFr (lt ++ lf.take (N - 1))).length = 2 * N - 1 := by
    rw [length_sortFr, List.length_append, List.length_take, htlen, hflen]
    omega
  have hstep1 : ∏ i ∈ Finset.range (N - 1),
      ((beta * ((sortFr (lt ++ lf.take (N - 1))).take N).getD (i + 1) 0 +
          ((sortFr (lt ++ lf.take (N - 1))).take N).getD i 0 + (1 + beta) * gamma) *
        (beta * ((sortFr (lt ++ lf.take (N - 1))).drop (N - 1)).getD (i + 1) 0 +
          ((sortFr (lt ++ lf.take (N - 1))).drop (N - 1)).getD i 0 + (1 + beta) * gamma)) =
      ∏ i ∈ Finset.range (N - 1),
      ((beta * (sortFr (lt ++ lf.take (N - 1))).getD (i + 1) 0 +
          (sortFr (lt ++ lf.take (N - 1))).getD i 0 + (1 + beta) * gamma) *
        (beta * (sortFr (lt ++ lf.take (N - 1))).getD (N - 1 + (i + 1)) 0 +
          (sortFr (lt ++ lf.take (N - 1))).getD (N - 1 + i) 0 + (1 + beta) * gamma)) := by
    refine Finset.prod_congr rfl fun i hi => ?_
    have hi' : i < N - 1 := Finset.mem_range.mp hi
    rw [take_getD _ N (i + 1) (by omega), take_getD _ N i (by omega),
      drop_getD, drop_getD]
  rw [hstep1, Finset.prod_mul_distrib]
  have hsplit : (∏ i ∈ Finset.range (N - 1),
      (beta * (sortFr (lt ++ lf.take (N - 1))).getD (i + 1) 0 +
        (sortFr (lt ++ lf.take (N - 1))).getD i 0 + (1 + beta) * gamma)) *
      (∏ i ∈ Finset.range (N - 1),
      (beta * (sortFr (lt ++ lf.take (N - 1))).getD (N - 1 + (i + 1)) 0 +
        (sortFr (lt ++ lf.take (N - 1))).getD (N - 1 + i) 0 + (1 + beta) * gamma)) =
      ∏ i ∈ Finset.range (2 * N - 2),
      (beta * (sortFr (lt ++ lf.take (N - 1))).getD (i + 1) 0 +
        (sortFr (lt ++ lf.take (N - 1))).getD i 0 + (1 + beta) * gamma) := by
    have h2 : 2 * N - 2 = (N - 1) + (N - 1) := by omega
    rw [h2, Finset.prod_range_add]
    refine congrArg _ (Finset.prod_congr rfl fun i _ => ?_)
    have : N - 1 + i + 1 = N - 1 + (i + 1) := by omega
    rw [this]
  rw [hsplit]
  have hpp := prod_pairs_eq_range
    (fun a b => beta * b + a + (1 + beta) * gamma) (sortFr (lt ++ lf.take (N - 1)))
  rw [hMlen] at hpp
  have h22 : 2 * N - 1 - 1 = 2 * N - 2 := by omega
  rw [h22] at hpp
  rw [← hpp]
  simp only [sortFr]
  have hperm := (pairs_sort_append lt (lf.take (N - 1)) hts hmem).map
    (fun p : F × F => beta * p.2 + p.1 + (1 + beta) * gamma)
  rw [(hperm.prod_eq : _ = _)]
  rw [List.map_append, List.prod_append, List.map_map]
  have hpt := prod_pairs_eq_range
    (fun a b => beta * b + a + (1 + beta) * gamma) lt
  rw [htlen] at hpt
  rw [hpt]
  have hftake : (lf.take (N - 1)).length = N - 1 := by
    rw [List.length_take, hflen]; omega
  have hdup : ((lf.take (N - 1)).map
      ((fun p : F × F => beta * p.2 + p.1 + (1 + beta) * gamma) ∘ (fun x => (x, x)))).prod =
      ∏ i ∈ Finset.range (N - 1),
        (beta * lf.getD i 0 + lf.getD i 0 + (1 + beta) * gamma) := by
    rw [prod_list_getD
      ((fun p : F × F => beta * p.2 + p.1 + (1 + beta) * gamma) ∘ (fun x => (x, x)))
      (lf.take (N - 1)), hftake]
    refine Finset.prod_congr rfl fun i hi => ?_
    rw [take_getD lf (N - 1) i (Finset.mem_range.mp hi)]
    rfl
  rw [hdup, ← Finset.prod_mul_distrib]
  refine Finset.prod_congr rfl fun i _ => ?_
  ring

/-- For an honest prover (queries contained in the sorted table), the final entry
of the accumulator vector is `1`. -/
lemma zLast_eq_one [LinearOrder F] (beta gamma : F) (lt lf lh1 lh2 : List F) (N : ℕ)
    (htlen : lt.length = N) (hflen : lf.length = N) (hN : 1 ≤ N)
    (hts : lt.Sorted (· ≤ ·))
    (hmem : ∀ x ∈ lf.take (N - 1), x ∈ lt)
    (hh1 : lh1 = (sortFr (lt ++ lf.take (N - 1))).take N)
    (hh2 : lh2 = (sortFr (lt ++ lf.take (N - 1))).drop (N - 1))
    (hden : ∀ i, i + 1 < N →
      beta * lh1.getD (i + 1) 0 + lh1.getD i 0 + (1 + beta) * gamma ≠ 0 ∧
      beta * lh2.getD (i + 1) 0 + lh2.getD i 0 + (1 + beta) * gamma ≠ 0) :
    (evaluateAccumulationPolynomial lf lt lh1 lh2 beta gamma).getD (N - 1) 0 = 1 := by
  have htel := evalAcc_telescope lf lt lh1 lh2 beta gamma (N - 1)
    (by omega) (by rw [htlen]; exact hden)
  have hprod := merge_prod_eq beta gamma lt lf lh1 lh2 N htlen hflen hN hts hmem hh1 hh2
  have hne : (∏ i ∈ Finset.range (N - 1),
      ((beta * lh1.getD (i + 1) 0 + lh1.getD i 0 + (1 + beta) * gamma) *
        (beta * lh2.getD (i + 1) 0 + lh2.getD i 0 + (1 + beta) * gamma))) ≠ 0 := by
    refine Finset.prod_ne_zero_iff.mpr fun i hi => ?_
    have hi' : i + 1 < N := by
      have := Finset.mem_range.mp hi; omega
    exact mul_ne_zero (hden i hi').1 (hden i hi').2
  have := htel.trans hprod.symm
  exact mul_right_cancel₀ hne (by rw [this, one_mul])

/-! ## The prover quotient as the exact polynomial division -/

section QuotientChar

variable {Dsm Dbig : Domain F} {N k : ℕ} (hD : DomainsOk Dsm Dbig N k)
variable (beta gamma alpha : F) (cz ch1 ch2 ct cf : List F)

include hD

/-- When the folded numerator vanishes on the small domain, the quotient list
computed by the prover is exactly `foldPoly /ₘ (X^N - 1)`. -/
lemma toPoly_quotientOf (hz : (toPoly cz).natDegree ≤ N - 1)
    (hh1 : (toPoly ch1).natDegree ≤ N - 1) (hh2 : (toPoly ch2).natDegree ≤ N - 1)
    (ht : (toPoly ct).natDegree ≤ N - 1) (hf : (toPoly cf).natDegree ≤ N - 1)
    (hvan : ∀ i < N, (foldPoly beta gamma alpha Dsm.gen (Dsm.gen ^ (N - 1)) N
      (toPoly cz) (toPoly ch1) (toPoly ch2) (toPoly ct) (toPoly cf)).eval
        (Dsm.gen ^ i) = 0) :
    toPoly (quotientOf beta gamma alpha cz ch1 ch2 ct cf Dbig) =
      (foldPoly beta gamma alpha Dsm.gen (Dsm.gen ^ (N - 1)) N
        (toPoly cz) (toPoly ch1) (toPoly ch2) (toPoly ct) (toPoly cf)) /ₘ
        (Polynomial.X ^ N - Polynomial.C 1) := by
  have hN2 := hD.hN2
  set P := foldPoly beta gamma alpha Dsm.gen (Dsm.gen ^ (N - 1)) N
    (toPoly cz) (toPoly ch1) (toPoly ch2) (toPoly ct) (toPoly cf) with hP
  have hPdeg : P.natDegree ≤ 3 * N - 2 :=
    foldPoly_natDegree_le beta gamma alpha Dsm.gen (Dsm.gen ^ (N - 1)) N (by omega)
      _ _ _ _ _ hz hh1 hh2 ht hf (hD.gbar_pow)
  have hPQ := eq_vanishing_mul_div hD P hvan
  have hmonic : (Polynomial.X ^ N - Polynomial.C 1 : Polynomial F).Monic :=
    Polynomial.monic_X_pow_sub_C 1 (by omega)
  have hQdeg : (P /ₘ (Polynomial.X ^ N - Polynomial.C 1)).natDegree ≤ 2 * N - 2 := by
    rw [Polynomial.natDegree_divByMonic P hmonic]
    have : (Polynomial.X ^ N - Polynomial.C 1 : Polynomial F).natDegree = N :=
      Polynomial.natDegree_X_pow_sub_C
    omega
  refine poly_eq_of_eval_nodes _ _ (cosetNodes Dbig) (hD.cosetNodes_nodup) ?_ ?_ ?_
  · rw [hD.cosetNodes_length]
    calc (toPoly (quotientOf beta gamma alpha cz ch1 ch2 ct cf Dbig)).natDegree
        ≤ 2 * N - 1 := computeQuotient_natDegree hD alpha _ _ _ _
      _ < 2 * N := by omega
  · rw [hD.cosetNodes_length]; omega
  · intro x hx
    rw [cosetNodes, hD.hbig_card] at hx
    obtain ⟨i, hi, rfl⟩ := List.mem_map.mp hx
    have hi' : i < 2 * N := List.mem_range.mp hi
    have h1 : (toPoly (quotientOf beta gamma alpha cz ch1 ch2 ct cf
        Dbig)).eval (Dbig.shift * Dbig.gen ^ i) =
        P.eval (Dbig.shift * Dbig.gen ^ i) *
          ((Dbig.shift * Dbig.gen ^ i) ^ N - 1)⁻¹ := by
      rw [← evalC_eq_eval]
      exact quotient_eval_coset hD beta gamma alpha cz ch1 ch2 ct cf i hi'
    rw [h1]
    have hne : (Dbig.shift * Dbig.gen ^ i) ^ N - 1 ≠ 0 :=
      sub_ne_zero.mpr (hD.node_pow_ne_one i)
    have h2 : P.eval (Dbig.shift * Dbig.gen ^ i) =
        ((Dbig.shift * Dbig.gen ^ i) ^ N - 1) *
          (P /ₘ (Polynomial.X ^ N - Polynomial.C 1)).eval
            (Dbig.shift * Dbig.gen ^ i) := by
      conv_lhs => rw [hPQ]
      simp [Polynomial.eval_mul]
    rw [h2]
    field_simp

end QuotientChar

/-! ## The verifier's fold as a polynomial evaluation -/

section VerifierFold

variable {Dsm Dbig : Domain F} {N k : ℕ} (hD : DomainsOk Dsm Dbig N k)

include hD

/-- On a proof whose claimed opening values are the true evaluations of the
canonical polynomials at `nu` and `nu·g`, the verifier's reconstructed fold is
exactly the folded numerator polynomial evaluated at `nu`. -/
lemma finalFold_eq_foldPoly (beta gamma alpha nu : F)
    (proof : ProofLookupVector F) (cz ch1 ch2 ct cf ch : List F)
    (hbp : proof.BatchedProof.claimedValues =
      [evalC ch1 nu, evalC ch2 nu, evalC ct nu, evalC cz nu, evalC cf nu,
        evalC ch nu])
    (hbs : proof.BatchedProofShifted.claimedValues =
      [evalC ch1 (nu * Dsm.gen), evalC ch2 (nu * Dsm.gen),
        evalC ct (nu * Dsm.gen), evalC cz (nu * Dsm.gen)])
    (hnu1 : nu ≠ 1) (hnug : nu ≠ Dsm.gen ^ (N - 1)) :
    plookupFinalFold Dsm beta gamma alpha nu proof =
      (foldPoly beta gamma alpha Dsm.gen (Dsm.gen ^ (N - 1)) N
        (toPoly cz) (toPoly ch1) (toPoly ch2) (toPoly ct) (toPoly cf)).eval nu := by
  rw [plookupFinalFold, hD.hsm_card]
  simp only [hbp, hbs]
  simp only [List.getD_cons_zero, List.getD_cons_succ]
  simp only [evalC_eq_eval]
  rw [foldPoly]
  simp only [Polynomial.eval_add, Polynomial.eval_mul, Polynomial.eval_sub,
    Polynomial.eval_pow, Polynomial.eval_X, Polynomial.eval_C,
    Polynomial.eval_one, eval_shiftg]
  rw [l0Poly_eval N nu hnu1, lnPoly_eval N (Dsm.gen ^ (N - 1)) nu hD.gbar_pow hnug]
  simp only [mul_comm Dsm.gen nu]
  ring

end VerifierFold

/-! ## Membership through padding and the h1/h2 overlap -/

lemma mem_of_mem_padded (v : List F) (s : ℕ) (x : F) (hv : v ≠ [])
    (hx : x ∈ padded v s) : x ∈ v := by
  rw [padded] at hx
  rcases List.mem_append.mp hx with h | h
  · exact List.mem_of_mem_take h
  · rw [List.eq_of_mem_replicate h, List.getLast?_eq_getLast v hv]
    exact List.getLast_mem hv

lemma mem_padded_of_mem (v : List F) (s : ℕ) (x : F) (hv : v.length ≤ s)
    (hx : x ∈ v) : x ∈ padded v s := by
  rw [padded, List.take_of_length_le hv]
  exact List.mem_append.mpr (Or.inl hx)

lemma overlap_take_drop (M : List F) (N : ℕ) (hN : 1 ≤ N) :
    (M.take N).getD (N - 1) 0 = (M.drop (N - 1)).getD 0 0 := by
  rw [take_getD M N (N - 1) (by omega), drop_getD, Nat.add_zero]

/-! ## Completeness: an honest prover run always passes verification -/

section Completeness

variable [LinearOrder F] [DecidableEq F] (dommk : ℕ → Domain F)
variable (H : List (String × List (List F)) → F) (f t : List F)
variable {N k : ℕ}

/-- Master completeness helper: under the domain contract, query membership in
the table, and genericity of the derived challenges, the verifier accepts the
honest proof trace. -/
lemma verify_accepts_trace
    (hf : f ≠ []) (ht : t ≠ [])
    (hD : DomainsOk (pDomS dommk f t) (pDomB dommk f t) N k)
    (hver : dommk (pS dommk f t) = pDomS dommk f t)
    (hsub : ∀ x ∈ f, x ∈ t)
    (htle : t.length ≤ N) (hfle : f.length ≤ N)
    (hden : ∀ i, i + 1 < N →
      pBeta dommk H f t * (pLh1 dommk f t).getD (i + 1) 0 +
          (pLh1 dommk f t).getD i 0 +
          (1 + pBeta dommk H f t) * pGamma dommk H f t ≠ 0 ∧
      pBeta dommk H f t * (pLh2 dommk f t).getD (i + 1) 0 +
          (pLh2 dommk f t).getD i 0 +
          (1 + pBeta dommk H f t) * pGamma dommk H f t ≠ 0)
    (hnu1 : pNu dommk H f t ≠ 1)
    (hnug : pNu dommk H f t ≠ (pDomS dommk f t).gen ^ (N - 1)) :
    VerifyLookupVector dommk idealBatchVerify H (pProof dommk H f t) = .ok () := by
  have hN2 := hD.hN2
  have hNpS : pS dommk f t = N := hD.hsm_card
  -- lengths of the trace vectors
  have hlf : (pLf dommk f t).length = N := by
    rw [pLf, padded_length f _ (by omega), hNpS]
  have hlt : (pLt dommk f t).length = N := by
    rw [pLt, length_sortFr, padded_length t _ (by omega), hNpS]
  have hMlen : (pMerged dommk f t).length = 2 * N - 1 := by
    rw [pMerged, length_sortFr, List.length_append, hlt, List.length_take, hlf,
      hNpS]
    omega
  have hlh1 : (pLh1 dommk f t).length = N := by
    rw [pLh1, List.length_take, hMlen, hNpS]
    omega
  have hlh2 : (pLh2 dommk f t).length = N := by
    rw [pLh2, List.length_drop, hMlen, hNpS]
    omega
  -- the sorted table and the honest membership chain
  have hts : (pLt dommk f t).Sorted (· ≤ ·) := List.sorted_insertionSort _ _
  have hmem : ∀ x ∈ (pLf dommk f t).take (N - 1), x ∈ pLt dommk f t := by
    intro x hx
    have hx1 : x ∈ pLf dommk f t := List.mem_of_mem_take hx
    have hx2 : x ∈ f := mem_of_mem_padded f _ x hf hx1
    have hx3 : x ∈ t := hsub x hx2
    rw [pLt, mem_sortFr]
    exact mem_padded_of_mem t _ x (by omega) hx3
  have hh1 : pLh1 dommk f t =
      (sortFr (pLt dommk f t ++ (pLf dommk f t).take (N - 1))).take N := by
    rw [pLh1, pMerged, hNpS]
  have hh2 : pLh2 dommk f t =
      (sortFr (pLt dommk f t ++ (pLf dommk f t).take (N - 1))).drop (N - 1) := by
    rw [pLh2, pMerged, hNpS]
  -- Z ends at one, h1/h2 overlap
  have hzlast : (evaluateAccumulationPolynomial (pLf dommk f t) (pLt dommk f t)
      (pLh1 dommk f t) (pLh2 dommk f t) (pBeta dommk H f t)
      (pGamma dommk H f t)).getD (N - 1) 0 = 1 :=
    zLast_eq_one (pBeta dommk H f t) (pGamma dommk H f t) (pLt dommk f t)
      (pLf dommk f t) (pLh1 dommk f t) (pLh2 dommk f t) N hlt hlf (by omega)
      hts hmem hh1 hh2 hden
  have hoverlap : (pLh1 dommk f t).getD (N - 1) 0 = (pLh2 dommk f t).getD 0 0 := by
    rw [pLh1, pLh2, hNpS]
    exact overlap_take_drop (pMerged dommk f t) N (by omega)
  -- the folded numerator vanishes on the small domain
  have hvan : ∀ i < N, (foldPoly (pBeta dommk H f t) (pGamma dommk H f t)
      (pAlpha dommk H f t) (pDomS dommk f t).gen ((pDomS dommk f t).gen ^ (N - 1)) N
      (toPoly (pCz dommk H f t)) (toPoly (pCh1 dommk f t))
      (toPoly (pCh2 dommk f t)) (toPoly (pCt dommk f t))
      (toPoly (pCf dommk f t))).eval ((pDomS dommk f t).gen ^ i) = 0 := by
    intro i hi
    rw [pCz, pLz, pCh1, pCh2, pCt, pCf]
    exact foldPoly_vanishing hD (pBeta dommk H f t) (pGamma dommk H f t)
      (pAlpha dommk H f t) (pLf dommk f t) (pLt dommk f t) (pLh1 dommk f t)
      (pLh2 dommk f t) hlf hlt hlh1 hlh2 hden hzlast hoverlap i hi
  -- the prover's h is the exact quotient
  have hchq : pCh dommk H f t =
      quotientOf (pBeta dommk H f t) (pGamma dommk H f t) (pAlpha dommk H f t)
        (pCz dommk H f t) (pCh1 dommk f t) (pCh2 dommk f t) (pCt dommk f t)
        (pCf dommk f t) (pDomB dommk f t) := by
    rw [pCh, quotientOf]
    simp only [pBig, fftCosetDIF_padZero]
  have hQ : toPoly (pCh dommk H f t) =
      (foldPoly (pBeta dommk H f t) (pGamma dommk H f t) (pAlpha dommk H f t)
        (pDomS dommk f t).gen ((pDomS dommk f t).gen ^ (N - 1)) N
        (toPoly (pCz dommk H f t)) (toPoly (pCh1 dommk f t))
        (toPoly (pCh2 dommk f t)) (toPoly (pCt dommk f t))
        (toPoly (pCf dommk f t))) /ₘ
        (Polynomial.X ^ N - Polynomial.C 1) := by
    rw [hchq]
    refine toPoly_quotientOf hD (pBeta dommk H f t) (pGamma dommk H f t)
      (pAlpha dommk H f t) (pCz dommk H f t) (pCh1 dommk f t) (pCh2 dommk f t)
      (pCt dommk f t) (pCf dommk f t) ?_ ?_ ?_ ?_ ?_ hvan
    · rw [pCz]; exact toCanonical_natDegree hD _
    · rw [pCh1]; exact toCanonical_natDegree hD _
    · rw [pCh2]; exact toCanonical_natDegree hD _
    · rw [pCt]; exact toCanonical_natDegree hD _
    · rw [pCf]; exact toCanonical_natDegree hD _
  -- the verifier's final identity holds
  have hPQ := eq_vanishing_mul_div hD _ hvan
  have hfold : plookupFinalFold (pDomS dommk f t) (pBeta dommk H f t)
      (pGamma dommk H f t) (pAlpha dommk H f t) (pNu dommk H f t)
      (pProof dommk H f t) =
      plookupRight (pDomS dommk f t) (pNu dommk H f t) (pProof dommk H f t) := by
    rw [finalFold_eq_foldPoly hD (pBeta dommk H f t) (pGamma dommk H f t)
      (pAlpha dommk H f t) (pNu dommk H f t) (pProof dommk H f t)
      (pCz dommk H f t) (pCh1 dommk f t) (pCh2 dommk f t) (pCt dommk f t)
      (pCf dommk f t) (pCh dommk H f t) rfl rfl hnu1 hnug]
    rw [plookupRight, hD.hsm_card]
    have hcv : (pProof dommk H f t).BatchedProof.claimedValues.getD 5 0 =
        evalC (pCh dommk H f t) (pNu dommk H f t) := rfl
    rw [hcv, evalC_eq_eval, hQ]
    conv_lhs => rw [hPQ]
    simp only [Polynomial.eval_mul, Polynomial.eval_sub, Polynomial.eval_pow,
      Polynomial.eval_X, Polynomial.eval_C]
    ring
  -- assemble the verifier run
  rw [verify_eq]
  have hbv1 : idealBatchVerify
      [(pProof dommk H f t).h1, (pProof dommk H f t).h2, (pProof dommk H f t).t,
        (pProof dommk H f t).z, (pProof dommk H f t).f, (pProof dommk H f t).h]
      (pProof dommk H f t).BatchedProof = none := by
    rw [idealBatchVerify, if_pos]
    rfl
  have hbv2 : idealBatchVerify
      [(pProof dommk H f t).h1, (pProof dommk H f t).h2, (pProof dommk H f t).t,
        (pProof dommk H f t).z] (pProof dommk H f t).BatchedProofShifted = none := by
    rw [idealBatchVerify, if_pos]
    rfl
  rw [hbv1, hbv2]
  have hsz : (pProof dommk H f t).size = pS dommk f t := rfl
  rw [hsz, hver]
  have hvb : vBeta H (pProof dommk H f t) = pBeta dommk H f t := rfl
  have hvg : vGamma H (pProof dommk H f t) = pGamma dommk H f t := rfl
  have hva : vAlpha H (pProof dommk H f t) = pAlpha dommk H f t := rfl
  have hvn : vNu H (pProof dommk H f t) = pNu dommk H f t := rfl
  rw [hvb, hvg, hva, hvn, if_pos hfold]

end Completeness

/-! ## The prover's result taxonomy with ideal collaborators -/

section ProverResult

variable [LinearOrder F] (dommk : ℕ → Domain F)
variable (H : List (String × List (List F)) → F) (f t : List F)

/-- With the ideal collaborators, a prover run either returns a proof or
panics; no `error` value is ever returned. -/
lemma prove_result :
    (∃ pf, ProveLookupVector dommk idealCommit idealBatchOpen H f t = .ok pf) ∨
      ProveLookupVector dommk idealCommit idealBatchOpen H f t = .error .panic := by
  rcases Nat.eq_zero_or_pos (pS dommk f t) with hs | hs
  · left
    have h1 : padTo f (pS dommk f t) = .ok (f.take (pS dommk f t)) := by
      rw [padTo, if_neg (by omega)]
    have h2 : padTo t (pS dommk f t) = .ok (t.take (pS dommk f t)) := by
      rw [padTo, if_neg (by omega)]
    rw [ProveLookupVector,
      show dommk (if t.length ≤ f.length then f.length + 1 else t.length)
        = pDomS dommk f t from rfl,
      show (pDomS dommk f t).card = pS dommk f t from rfl]
    simp only [bind, Except.bind, h1, h2, kz, tsc, idealCommit, idealBatchOpen,
      Except.mapError, deriveRandomness, newTranscript, pure, Except.pure]
    exact ⟨_, rfl⟩
  · by_cases hf : f = []
    · right
      subst hf
      rw [ProveLookupVector,
        show dommk (if t.length ≤ ([] : List F).length then ([] : List F).length + 1
            else t.length) = pDomS dommk [] t from rfl,
        show (pDomS dommk [] t).card = pS dommk [] t from rfl,
        padTo_panic _ hs]
      rfl
    · by_cases ht : t = []
      · right
        subst ht
        rw [ProveLookupVector,
          show dommk (if ([] : List F).length ≤ f.length then f.length + 1
              else ([] : List F).length) = pDomS dommk f [] from rfl,
          show (pDomS dommk f []).card = pS dommk f [] from rfl]
        simp only [bind, Except.bind, padTo_eq_padded f _ hf, padTo_panic _ hs]
      · exact Or.inl ⟨pProof dommk H f t, prove_eq_trace dommk H f t hf ht⟩

/-- A run on an empty query vector or an empty table panics (models the
out-of-range read `v[len(v)-1]` in `padTo`), provided the requested domain is
non-trivial. -/
lemma prove_empty_panic (hs : 0 < pS dommk f t) (he : f = [] ∨ t = []) :
    ProveLookupVector dommk idealCommit idealBatchOpen H f t = .error .panic := by
  by_cases hf : f = []
  · subst hf
    rw [ProveLookupVector,
      show dommk (if t.length ≤ ([] : List F).length then ([] : List F).length + 1
          else t.length) = pDomS dommk [] t from rfl,
      show (pDomS dommk [] t).card = pS dommk [] t from rfl,
      padTo_panic _ hs]
    rfl
  · have ht : t = [] := by
      rcases he with h | h
      · exact absurd h hf
      · exact h
    subst ht
    rw [ProveLookupVector,
      show dommk (if ([] : List F).length ≤ f.length then f.length + 1
          else ([] : List F).length) = pDomS dommk f [] from rfl,
      show (pDomS dommk f []).card = pS dommk f [] from rfl]
    simp only [bind, Except.bind, padTo_eq_padded f _ hf, padTo_panic _ hs]

end ProverResult

/-! ## Soundness: the defect polynomial of a prover trace -/

/-- The defect of a prover trace: the folded numerator minus the committed
quotient times the vanishing polynomial.  The verifier's final identity at
`nu` holds exactly when this polynomial vanishes at `nu` (off the degenerate
points `1` and `g^(N-1)`). -/
noncomputable def defectPoly [LinearOrder F] (dommk : ℕ → Domain F)
    (H : List (String × List (List F)) → F) (f t : List F) (N : ℕ) : Polynomial F :=
  foldPoly (pBeta dommk H f t) (pGamma dommk H f t) (pAlpha dommk H f t)
    (pDomS dommk f t).gen ((pDomS dommk f t).gen ^ (N - 1)) N
    (toPoly (pCz dommk H f t)) (toPoly (pCh1 dommk f t)) (toPoly (pCh2 dommk f t))
    (toPoly (pCt dommk f t)) (toPoly (pCf dommk f t)) -
  toPoly (pCh dommk H f t) * (Polynomial.X ^ N - Polynomial.C 1)

section Soundness2

variable [LinearOrder F] (dommk : ℕ → Domain F)
variable (H : List (String × List (List F)) → F) (f t : List F)
variable {N k : ℕ} (hD : DomainsOk (pDomS dommk f t) (pDomB dommk f t) N k)

include hD

/-- The defect has degree at most `3N - 1`. -/
lemma defect_natDegree : (defectPoly dommk H f t N).natDegree ≤ 3 * N - 1 := by
  have hN2 := hD.hN2
  have hz : (toPoly (pCz dommk H f t)).natDegree ≤ N - 1 := by
    rw [pCz]; exact toCanonical_natDegree hD _
  have hh1 : (toPoly (pCh1 dommk f t)).natDegree ≤ N - 1 := by
    rw [pCh1]; exact toCanonical_natDegree hD _
  have hh2 : (toPoly (pCh2 dommk f t)).natDegree ≤ N - 1 := by
    rw [pCh2]; exact toCanonical_natDegree hD _
  have ht' : (toPoly (pCt dommk f t)).natDegree ≤ N - 1 := by
    rw [pCt]; exact toCanonical_natDegree hD _
  have hf' : (toPoly (pCf dommk f t)).natDegree ≤ N - 1 := by
    rw [pCf]; exact toCanonical_natDegree hD _
  have hfold : (foldPoly (pBeta dommk H f t) (pGamma dommk H f t) (pAlpha dommk H f t)
      (pDomS dommk f t).gen ((pDomS dommk f t).gen ^ (N - 1)) N
      (toPoly (pCz dommk H f t)) (toPoly (pCh1 dommk f t)) (toPoly (pCh2 dommk f t))
      (toPoly (pCt dommk f t)) (toPoly (pCf dommk f t))).natDegree ≤ 3 * N - 2 :=
    foldPoly_natDegree_le _ _ _ _ _ N (by omega) _ _ _ _ _ hz hh1 hh2 ht' hf'
      hD.gbar_pow
  have hch : (toPoly (pCh dommk H f t)).natDegree ≤ 2 * N - 1 := by
    rw [pCh]; exact computeQuotient_natDegree hD _ _ _ _ _
  have hmul : (toPoly (pCh dommk H f t) *
      (Polynomial.X ^ N - Polynomial.C 1)).natDegree ≤ 3 * N - 1 := by
    calc (toPoly (pCh dommk H f t) *
        (Polynomial.X ^ N - Polynomial.C 1)).natDegree
        ≤ (toPoly (pCh dommk H f t)).natDegree +
          (Polynomial.X ^ N - Polynomial.C 1 : Polynomial F).natDegree :=
          Polynomial.natDegree_mul_le
      _ ≤ (2 * N - 1) + N := by
          have : (Polynomial.X ^ N - Polynomial.C 1 : Polynomial F).natDegree = N :=
            Polynomial.natDegree_X_pow_sub_C
          omega
      _ ≤ 3 * N - 1 := by omega
  calc (defectPoly dommk H f t N).natDegree
      ≤ max (foldPoly (pBeta dommk H f t) (pGamma dommk H f t) (pAlpha dommk H f t)
          (pDomS dommk f t).gen ((pDomS dommk f t).gen ^ (N - 1)) N
          (toPoly (pCz dommk H f t)) (toPoly (pCh1 dommk f t))
          (toPoly (pCh2 dommk f t)) (toPoly (pCt dommk f t))
          (toPoly (pCf dommk f t))).natDegree
        (toPoly (pCh dommk H f t) *
          (Polynomial.X ^ N - Polynomial.C 1)).natDegree :=
        Polynomial.natDegree_sub_le _ _
    _ ≤ 3 * N - 1 := by
        rw [max_le_iff]
        exact ⟨by omega, hmul⟩

/-- The defect at the last small-domain point `g^(N-1)` collapses to the
`alpha^2 · Ln · (Z_last - 1)` term. -/
lemma defect_eval_gbar (htle : t.length ≤ N) (hfle : f.length ≤ N) :
    (defectPoly dommk H f t N).eval ((pDomS dommk f t).gen ^ (N - 1)) =
      pAlpha dommk H f t ^ 2 *
        ((N : F) * ((pDomS dommk f t).gen ^ (N - 1)) ^ (N - 1)) *
        ((pLz dommk H f t).getD (N - 1) 0 - 1) := by
  have hN2 := hD.hN2
  have hNpS : pS dommk f t = N := hD.hsm_card
  have hlf : (pLf dommk f t).length = N := by
    rw [pLf, padded_length f _ (by omega), hNpS]
  have hlt : (pLt dommk f t).length = N := by
    rw [pLt, length_sortFr, padded_length t _ (by omega), hNpS]
  have hMlen : (pMerged dommk f t).length = 2 * N - 1 := by
    rw [pMerged, length_sortFr, List.length_append, hlt, List.length_take, hlf,
      hNpS]
    omega
  have hlh1 : (pLh1 dommk f t).length = N := by
    rw [pLh1, List.length_take, hMlen, hNpS]
    omega
  have hlh2 : (pLh2 dommk f t).length = N := by
    rw [pLh2, List.length_drop, hMlen, hNpS]
    omega
  have hlz : (pLz dommk H f t).length = N := by
    rw [pLz, evalAcc_length, hlt]
  have hover : (pLh1 dommk f t).getD (N - 1) 0 = (pLh2 dommk f t).getD 0 0 := by
    rw [pLh1, pLh2, hNpS]
    exact overlap_take_drop (pMerged dommk f t) N (by omega)
  have hzev : (toPoly (pCz dommk H f t)).eval ((pDomS dommk f t).gen ^ (N - 1)) =
      (pLz dommk H f t).getD (N - 1) 0 := by
    rw [pCz, ← evalC_eq_eval]
    exact toCanonical_eval hD _ hlz (N - 1) (by omega)
  have hh1ev : (toPoly (pCh1 dommk f t)).eval ((pDomS dommk f t).gen ^ (N - 1)) =
      (pLh1 dommk f t).getD (N - 1) 0 := by
    rw [pCh1, ← evalC_eq_eval]
    exact toCanonical_eval hD _ hlh1 (N - 1) (by omega)
  have harg : (pDomS dommk f t).gen * (pDomS dommk f t).gen ^ (N - 1) =
      (pDomS dommk f t).gen ^ (0 : ℕ) := by
    rw [← pow_succ']
    rw [show N - 1 + 1 = N by omega, hD.ws_pow_N, pow_zero]
  have hh2ev : (toPoly (pCh2 dommk f t)).eval
      ((pDomS dommk f t).gen * (pDomS dommk f t).gen ^ (N - 1)) =
      (pLh2 dommk f t).getD 0 0 := by
    rw [harg, pCh2, ← evalC_eq_eval]
    exact toCanonical_eval hD _ hlh2 0 (by omega)
  rw [defectPoly, foldPoly]
  simp only [Polynomial.eval_sub, Polynomial.eval_add, Polynomial.eval_mul,
    Polynomial.eval_pow, Polynomial.eval_X, Polynomial.eval_C,
    Polynomial.eval_one, eval_shiftg]
  rw [l0Poly_eval N _ hD.gbar_ne_one, lnPoly_eval_gbar N _ hD.gbar_pow,
    hD.gbar_pow, hzev, hh1ev, hh2ev, hover]
  ring

/-- The defect vanishes on the whole big coset. -/
lemma defect_vanish_coset (i : ℕ) (hi : i < 2 * N) :
    (defectPoly dommk H f t N).eval
      ((pDomB dommk f t).shift * (pDomB dommk f t).gen ^ i) = 0 := by
  have hchq : pCh dommk H f t =
      quotientOf (pBeta dommk H f t) (pGamma dommk H f t) (pAlpha dommk H f t)
        (pCz dommk H f t) (pCh1 dommk f t) (pCh2 dommk f t) (pCt dommk f t)
        (pCf dommk f t) (pDomB dommk f t) := by
    rw [pCh, quotientOf]
    simp only [pBig, fftCosetDIF_padZero]
  have hqe := quotient_eval_coset hD (pBeta dommk H f t) (pGamma dommk H f t)
    (pAlpha dommk H f t) (pCz dommk H f t) (pCh1 dommk f t) (pCh2 dommk f t)
    (pCt dommk f t) (pCf dommk f t) i hi
  have hne : ((pDomB dommk f t).shift * (pDomB dommk f t).gen ^ i) ^ N - 1 ≠ 0 :=
    sub_ne_zero.mpr (hD.node_pow_ne_one i)
  rw [defectPoly]
  simp only [Polynomial.eval_sub, Polynomial.eval_mul, Polynomial.eval_pow,
    Polynomial.eval_X, Polynomial.eval_C]
  rw [← evalC_eq_eval (pCh dommk H f t), hchq, hqe]
  field_simp

/-- If `nu` misses the defect's roots (and the two degenerate points), the
verifier rejects the trace proof with `ErrPlookupVerification`. -/
lemma verify_rejects_trace
    (hver : dommk (pS dommk f t) = pDomS dommk f t)
    (hnu1 : pNu dommk H f t ≠ 1)
    (hnug : pNu dommk H f t ≠ (pDomS dommk f t).gen ^ (N - 1))
    (hnr : (defectPoly dommk H f t N).eval (pNu dommk H f t) ≠ 0) :
    VerifyLookupVector dommk idealBatchVerify H (pProof dommk H f t) =
      .error .plookupVerification := by
  rw [verify_eq]
  have hbv1 : idealBatchVerify
      [(pProof dommk H f t).h1, (pProof dommk H f t).h2, (pProof dommk H f t).t,
        (pProof dommk H f t).z, (pProof dommk H f t).f, (pProof dommk H f t).h]
      (pProof dommk H f t).BatchedProof = none := by
    rw [idealBatchVerify, if_pos]
    rfl
  have hbv2 : idealBatchVerify
      [(pProof dommk H f t).h1, (pProof dommk H f t).h2, (pProof dommk H f t).t,
        (pProof dommk H f t).z] (pProof dommk H f t).BatchedProofShifted = none := by
    rw [idealBatchVerify, if_pos]
    rfl
  rw [hbv1, hbv2]
  have hsz : (pProof dommk H f t).size = pS dommk f t := rfl
  rw [hsz, hver]
  have hvb : vBeta H (pProof dommk H f t) = pBeta dommk H f t := rfl
  have hvg : vGamma H (pProof dommk H f t) = pGamma dommk H f t := rfl
  have hva : vAlpha H (pProof dommk H f t) = pAlpha dommk H f t := rfl
  have hvn : vNu H (pProof dommk H f t) = pNu dommk H f t := rfl
  rw [hvb, hvg, hva, hvn]
  rw [if_neg]
  intro hacc
  apply hnr
  rw [finalFold_eq_foldPoly hD (pBeta dommk H f t) (pGamma dommk H f t)
    (pAlpha dommk H f t) (pNu dommk H f t) (pProof dommk H f t)
    (pCz dommk H f t) (pCh1 dommk f t) (pCh2 dommk f t) (pCt dommk f t)
    (pCf dommk f t) (pCh dommk H f t) rfl rfl hnu1 hnug] at hacc
  rw [plookupRight, hD.hsm_card] at hacc
  have hcv : (pProof dommk H f t).BatchedProof.claimedValues.getD 5 0 =
      evalC (pCh dommk H f t) (pNu dommk H f t) := rfl
  rw [hcv, evalC_eq_eval] at hacc
  rw [defectPoly]
  simp only [Polynomial.eval_sub, Polynomial.eval_mul, Polynomial.eval_pow,
    Polynomial.eval_X, Polynomial.eval_C]
  rw [hacc]
  ring

end Soundness2

/-! ## The last padded query entry is never consumed -/

lemma zAcc_congr (lf lf' lt d : List F) (beta gamma c e : F) (m : ℕ)
    (h : ∀ i, i < m → lf.getD i 0 = lf'.getD i 0) :
    zAcc lf lt d beta gamma c e m = zAcc lf' lt d beta gamma c e m := by
  induction m with
  | zero => rfl
  | succ m ih =>
    rw [zAcc, zAcc, ih (fun i hi => h i (by omega)), h m (by omega)]

/-- The accumulator never reads `lf[n-1]`: two query vectors agreeing below
index `n-1` produce the same `Z`. -/
lemma evalAcc_congr (lf lf' lt lh1 lh2 : List F) (beta gamma : F)
    (h : ∀ i, i + 1 < lt.length → lf.getD i 0 = lf'.getD i 0) :
    evaluateAccumulationPolynomial lf lt lh1 lh2 beta gamma =
      evaluateAccumulationPolynomial lf' lt lh1 lh2 beta gamma := by
  rw [evaluateAccumulationPolynomial, evaluateAccumulationPolynomial]
  refine List.map_congr_left fun m hm => ?_
  have hm' : m < lt.length := List.mem_range.mp hm
  exact zAcc_congr lf lf' lt _ beta gamma _ _ m
    (fun i hi => h i (by omega))

/-! ## Concrete instances used by the witnesses -/

deriving instance DecidableEq for Except

abbrev F13 := ZMod 13

instance : Fact (Nat.Prime 13) := ⟨by norm_num⟩

instance : LinearOrder F13 := inferInstanceAs (LinearOrder (Fin 13))

abbrev F17 := ZMod 17

instance : Fact (Nat.Prime 17) := ⟨by norm_num⟩

instance : LinearOrder F17 := inferInstanceAs (LinearOrder (Fin 17))

/-- A concrete domain constructor over `ZMod 13` matching the `fft.NewDomain`
contract on sizes 2 and 4. -/
def dommk13 : ℕ → Domain F13 := fun s =>
  if s ≤ 2 then ⟨2, 12, 2⟩ else ⟨4, 5, 2⟩

/-- A concrete transcript hash over `ZMod 13`. -/
def hash13 : List (String × List (List F13)) → F13 := fun _ => 3

/-- A concrete domain constructor over `ZMod 17` matching the `fft.NewDomain`
contract on sizes 4 and 8. -/
def dommk17 : ℕ → Domain F17 := fun s =>
  if s ≤ 4 then ⟨4, 4, 3⟩ else ⟨8, 2, 3⟩

/-- A concrete transcript hash over `ZMod 17`. -/
def hash17 : List (String × List (List F17)) → F17 := fun _ => 3

lemma domains13 : DomainsOk (pDomS dommk13 [1] [1]) (pDomB dommk13 [1] [1]) 2 1 := by
  refine ⟨by decide, by decide, by decide, by decide, by decide, by decide, ?_,
    by decide, by decide⟩
  intro j hj1 hj2
  interval_cases j <;> decide

lemma domains17 :
    DomainsOk (pDomS dommk17 [1, 2, 5] [1, 2, 3, 4])
      (pDomB dommk17 [1, 2, 5] [1, 2, 3, 4]) 4 2 := by
  refine ⟨by decide, by decide, by decide, by decide, by decide, by decide, ?_,
    by decide, by decide⟩
  intro j hj1 hj2
  interval_cases j <;> decide

/-- Horner folding of the four constraint terms by `alpha`, shared by the
prover's quotient assembly and the verifier's reconstruction. -/
def hornerFold (alpha hterm h0term hnterm h1h2term : F) : F :=
  ((h1h2term * alpha + hnterm) * alpha + h0term) * alpha + hterm

/-! ## The claims -/

/-- C1: Completeness round-trip — for every non-empty table `t` and non-empty
vector `f` whose elements all occur in `t` (any length combination), with
domains satisfying the `fft.NewDomain` contract and generic derived
challenges, `VerifyLookupVector` accepts the proof that `ProveLookupVector`
returns. -/
theorem C1_completeness_roundtrip [LinearOrder F] [DecidableEq F]
    (dommk : ℕ → Domain F) (H : List (String × List (List F)) → F)
    (f t : List F) {N k : ℕ}
    (hf : f ≠ []) (ht : t ≠ [])
    (hsub : ∀ x ∈ f, x ∈ t)
    (hD : DomainsOk (pDomS dommk f t) (pDomB dommk f t) N k)
    (hver : dommk (pS dommk f t) = pDomS dommk f t)
    (htle : t.length ≤ N) (hfle : f.length ≤ N)
    (hden : ∀ i < N - 1,
      pBeta dommk H f t * (pLh1 dommk f t).getD (i + 1) 0 +
          (pLh1 dommk f t).getD i 0 +
          (1 + pBeta dommk H f t) * pGamma dommk H f t ≠ 0 ∧
      pBeta dommk H f t * (pLh2 dommk f t).getD (i + 1) 0 +
          (pLh2 dommk f t).getD i 0 +
          (1 + pBeta dommk H f t) * pGamma dommk H f t ≠ 0)
    (hnu1 : pNu dommk H f t ≠ 1)
    (hnug : pNu dommk H f t ≠ (pDomS dommk f t).gen ^ (N - 1)) :
    ∃ proof, ProveLookupVector dommk idealCommit idealBatchOpen H f t = .ok proof ∧
      VerifyLookupVector dommk idealBatchVerify H proof = .ok () := by
  refine ⟨pProof dommk H f t, prove_eq_trace dommk H f t hf ht, ?_⟩
  exact verify_accepts_trace dommk H f t hf ht hD hver hsub htle hfle
    (fun i hi => hden i (by omega)) hnu1 hnug

/-- Witness for C1 over `ZMod 13`: table `[1]`, vector `[1]`. -/
theorem C1_completeness_roundtrip_witness :
    (∀ x ∈ ([1] : List F13), x ∈ ([1] : List F13)) ∧
    (∃ proof,
      ProveLookupVector dommk13 idealCommit idealBatchOpen hash13 [1] [1] =
        .ok proof ∧
      VerifyLookupVector dommk13 idealBatchVerify hash13 proof = .ok ()) :=
  ⟨by decide,
    C1_completeness_roundtrip dommk13 hash13 [1] [1] (by decide) (by decide)
      (by decide) domains13 rfl (by decide) (by decide) (by decide) (by decide)
      (by decide)⟩

/-- C2: Non-member behaviour — the prover never returns the declared
`ErrNotInTable`; on non-empty inputs it completes with a proof even when `f`
contains a value absent from `t`; and the verifier must reject that proof:
the defect polynomial of the trace is non-zero (its grand product breaks), it
has at most `3N - 1` roots, and whenever `nu` avoids those roots and the two
degenerate points the verifier returns `ErrPlookupVerification`. -/
theorem C2_nonmember_reject [LinearOrder F]
    (dommk : ℕ → Domain F) (H : List (String × List (List F)) → F)
    (f t : List F) {N k : ℕ}
    (hf : f ≠ []) (ht : t ≠ [])
    (hnm : ∃ x ∈ f, x ∉ t)
    (hD : DomainsOk (pDomS dommk f t) (pDomB dommk f t) N k)
    (hver : dommk (pS dommk f t) = pDomS dommk f t)
    (htle : t.length ≤ N) (hfle : f.length ≤ N)
    (halpha : pAlpha dommk H f t ≠ 0)
    (hNF : (N : F) ≠ 0)
    (hden : ∀ i < N - 1,
      pBeta dommk H f t * (pLh1 dommk f t).getD (i + 1) 0 +
          (pLh1 dommk f t).getD i 0 +
          (1 + pBeta dommk H f t) * pGamma dommk H f t ≠ 0 ∧
      pBeta dommk H f t * (pLh2 dommk f t).getD (i + 1) 0 +
          (pLh2 dommk f t).getD i 0 +
          (1 + pBeta dommk H f t) * pGamma dommk H f t ≠ 0)
    (hprodne : ∏ i ∈ Finset.range (N - 1),
        ((pGamma dommk H f t + (pLf dommk f t).getD i 0) *
          (pBeta dommk H f t * (pLt dommk f t).getD (i + 1) 0 +
            (pLt dommk f t).getD i 0 +
            (1 + pBeta dommk H f t) * pGamma dommk H f t) *
          (1 + pBeta dommk H f t)) ≠
      ∏ i ∈ Finset.range (N - 1),
        ((pBeta dommk H f t * (pLh1 dommk f t).getD (i + 1) 0 +
            (pLh1 dommk f t).getD i 0 +
            (1 + pBeta dommk H f t) * pGamma dommk H f t) *
          (pBeta dommk H f t * (pLh2 dommk f t).getD (i + 1) 0 +
            (pLh2 dommk f t).getD i 0 +
            (1 + pBeta dommk H f t) * pGamma dommk H f t))) :
    (∀ (H' : List (String × List (List F)) → F) (f' t' : List F),
      ProveLookupVector dommk idealCommit idealBatchOpen H' f' t' ≠
        .error (.err .notInTable)) ∧
    ProveLookupVector dommk idealCommit idealBatchOpen H f t =
      .ok (pProof dommk H f t) ∧
    defectPoly dommk H f t N ≠ 0 ∧
    Multiset.card (defectPoly dommk H f t N).roots ≤ 3 * N - 1 ∧
    (pNu dommk H f t ∉ (defectPoly dommk H f t N).roots →
      pNu dommk H f t ≠ 1 →
      pNu dommk H f t ≠ (pDomS dommk f t).gen ^ (N - 1) →
      VerifyLookupVector dommk idealBatchVerify H (pProof dommk H f t) =
        .error .plookupVerification) := by
  have hN2 := hD.hN2
  have hNpS : pS dommk f t = N := hD.hsm_card
  have hlt : (pLt dommk f t).length = N := by
    rw [pLt, length_sortFr, padded_length t _ (by omega), hNpS]
  have hzl : (pLz dommk H f t).getD (N - 1) 0 ≠ 1 := by
    intro h1
    have htel := evalAcc_telescope (pLf dommk f t) (pLt dommk f t)
      (pLh1 dommk f t) (pLh2 dommk f t) (pBeta dommk H f t) (pGamma dommk H f t)
      (N - 1) (by rw [hlt]; omega)
      (fun i hi => hden i (by rw [hlt] at hi; omega))
    rw [← pLz, h1, one_mul] at htel
    exact hprodne htel.symm
  have hdefne : defectPoly dommk H f t N ≠ 0 := by
    intro h0
    have hev := defect_eval_gbar dommk H f t hD htle hfle
    rw [h0] at hev
    simp only [Polynomial.eval_zero] at hev
    exact (mul_ne_zero (mul_ne_zero (pow_ne_zero 2 halpha)
      (mul_ne_zero hNF (pow_ne_zero _ hD.gbar_ne_zero)))
      (sub_ne_zero.mpr hzl)) hev.symm
  have hcard : Multiset.card (defectPoly dommk H f t N).roots ≤ 3 * N - 1 :=
    le_trans (Polynomial.card_roots' _) (defect_natDegree dommk H f t hD)
  exact ⟨fun H' f' t' hc => by
      rcases prove_result dommk H' f' t' with ⟨pf, hok⟩ | hp
      · rw [hok] at hc
        simp at hc
      · rw [hp] at hc
        simp at hc,
    prove_eq_trace dommk H f t hf ht,
    hdefne, hcard, fun hnr hnu1 hnug => by
      refine verify_rejects_trace dommk H f t hD hver hnu1 hnug fun heval => ?_
      exact hnr ((Polynomial.mem_roots hdefne).mpr heval)⟩

lemma c2wA : (∃ x ∈ ([1, 2, 5] : List F17), x ∉ ([1, 2, 3, 4] : List F17)) := by
  decide

lemma c2wB : ([1, 2, 5] : List F17) ≠ [] := by decide

lemma c2wC : ([1, 2, 3, 4] : List F17) ≠ [] := by decide

lemma c2wD : ([1, 2, 3, 4] : List F17).length ≤ 4 := by decide

lemma c2wE : ([1, 2, 5] : List F17).length ≤ 4 := by decide

lemma c2wF : pAlpha dommk17 hash17 [1, 2, 5] [1, 2, 3, 4] ≠ 0 := by decide

lemma c2wG : ((4 : ℕ) : F17) ≠ 0 := by decide

lemma c2wH : ∀ i < 4 - 1,
    pBeta dommk17 hash17 [1, 2, 5] [1, 2, 3, 4] *
        (pLh1 dommk17 [1, 2, 5] [1, 2, 3, 4]).getD (i + 1) 0 +
        (pLh1 dommk17 [1, 2, 5] [1, 2, 3, 4]).getD i 0 +
        (1 + pBeta dommk17 hash17 [1, 2, 5] [1, 2, 3, 4]) *
          pGamma dommk17 hash17 [1, 2, 5] [1, 2, 3, 4] ≠ 0 ∧
    pBeta dommk17 hash17 [1, 2, 5] [1, 2, 3, 4] *
        (pLh2 dommk17 [1, 2, 5] [1, 2, 3, 4]).getD (i + 1) 0 +
        (pLh2 dommk17 [1, 2, 5] [1, 2, 3, 4]).getD i 0 +
        (1 + pBeta dommk17 hash17 [1, 2, 5] [1, 2, 3, 4]) *
          pGamma dommk17 hash17 [1, 2, 5] [1, 2, 3, 4] ≠ 0 := by
  decide

lemma c2wI : ∏ i ∈ Finset.range (4 - 1),
      ((pGamma dommk17 hash17 [1, 2, 5] [1, 2, 3, 4] +
          (pLf dommk17 [1, 2, 5] [1, 2, 3, 4]).getD i 0) *
        (pBeta dommk17 hash17 [1, 2, 5] [1, 2, 3, 4] *
            (pLt dommk17 [1, 2, 5] [1, 2, 3, 4]).getD (i + 1) 0 +
          (pLt dommk17 [1, 2, 5] [1, 2, 3, 4]).getD i 0 +
          (1 + pBeta dommk17 hash17 [1, 2, 5] [1, 2, 3, 4]) *
            pGamma dommk17 hash17 [1, 2, 5] [1, 2, 3, 4]) *
        (1 + pBeta dommk17 hash17 [1, 2, 5] [1, 2, 3, 4])) ≠
    ∏ i ∈ Finset.range (4 - 1),
      ((pBeta dommk17 hash17 [1, 2, 5] [1, 2, 3, 4] *
            (pLh1 dommk17 [1, 2, 5] [1, 2, 3, 4]).getD (i + 1) 0 +
          (pLh1 dommk17 [1, 2, 5] [1, 2, 3, 4]).getD i 0 +
          (1 + pBeta dommk17 hash17 [1, 2, 5] [1, 2, 3, 4]) *
            pGamma dommk17 hash17 [1, 2, 5] [1, 2, 3, 4]) *
        (pBeta dommk17 hash17 [1, 2, 5] [1, 2, 3, 4] *
            (pLh2 dommk17 [1, 2, 5] [1, 2, 3, 4]).getD (i + 1) 0 +
          (pLh2 dommk17 [1, 2, 5] [1, 2, 3, 4]).getD i 0 +
          (1 + pBeta dommk17 hash17 [1, 2, 5] [1, 2, 3, 4]) *
            pGamma dommk17 hash17 [1, 2, 5] [1, 2, 3, 4])) := by
  decide

/-- Witness for C2 over `ZMod 17`: the spec's concrete case `t = [1,2,3,4]`,
`f = [1,2,5]` with `5 ∉ t` — the defect polynomial of the trace is non-zero,
so the verifier rejects away from its (at most 11) roots. -/
theorem C2_nonmember_reject_witness :
    (∃ x ∈ ([1, 2, 5] : List F17), x ∉ ([1, 2, 3, 4] : List F17)) ∧
    defectPoly dommk17 hash17 [1, 2, 5] [1, 2, 3, 4] 4 ≠ 0 ∧
    Multiset.card (defectPoly dommk17 hash17 [1, 2, 5] [1, 2, 3, 4] 4).roots ≤
      3 * 4 - 1 :=
  ⟨c2wA,
    (C2_nonmember_reject dommk17 hash17 [1, 2, 5] [1, 2, 3, 4] c2wB c2wC c2wA
      domains17 rfl c2wD c2wE c2wF c2wG c2wH c2wI).2.2.1,
    (C2_nonmember_reject dommk17 hash17 [1, 2, 5] [1, 2, 3, 4] c2wB c2wC c2wA
      domains17 rfl c2wD c2wE c2wF c2wG c2wH c2wI).2.2.2.1⟩

/-- C3: Accept/reject accounting of `VerifyLookupVector` — it accepts iff both
batched-opening verifications pass and the folded identity holds at `nu`; a
failing batched opening is returned as that opening's own error `kzg e`,
distinct from the final-identity failure, which is reported exactly as the
sentinel `ErrPlookupVerification`. -/
theorem C3_verifier_accounting [DecidableEq F] (dommk : ℕ → Domain F)
    (bv : List (List F) → BatchOpeningProof F → Option ℕ)
    (H : List (String × List (List F)) → F) (proof : ProofLookupVector F) :
    (VerifyLookupVector dommk bv H proof = .ok () ↔
      bv [proof.h1, proof.h2, proof.t, proof.z, proof.f, proof.h]
          proof.BatchedProof = none ∧
      bv [proof.h1, proof.h2, proof.t, proof.z] proof.BatchedProofShifted = none ∧
      plookupFinalFold (dommk proof.size) (vBeta H proof) (vGamma H proof)
          (vAlpha H proof) (vNu H proof) proof =
        plookupRight (dommk proof.size) (vNu H proof) proof) ∧
    (∀ e, bv [proof.h1, proof.h2, proof.t, proof.z, proof.f, proof.h]
        proof.BatchedProof = some e →
      VerifyLookupVector dommk bv H proof = .error (.kzg e)) ∧
    (∀ e, bv [proof.h1, proof.h2, proof.t, proof.z, proof.f, proof.h]
        proof.BatchedProof = none →
      bv [proof.h1, proof.h2, proof.t, proof.z] proof.BatchedProofShifted =
        some e →
      VerifyLookupVector dommk bv H proof = .error (.kzg e)) ∧
    (bv [proof.h1, proof.h2, proof.t, proof.z, proof.f, proof.h]
        proof.BatchedProof = none →
      bv [proof.h1, proof.h2, proof.t, proof.z] proof.BatchedProofShifted =
        none →
      plookupFinalFold (dommk proof.size) (vBeta H proof) (vGamma H proof)
          (vAlpha H proof) (vNu H proof) proof ≠
        plookupRight (dommk proof.size) (vNu H proof) proof →
      VerifyLookupVector dommk bv H proof = .error .plookupVerification) := by
  refine ⟨?_, ?_, ?_, ?_⟩
  · constructor
    · intro h
      rw [verify_eq] at h
      cases h6 : bv [proof.h1, proof.h2, proof.t, proof.z, proof.f, proof.h]
          proof.BatchedProof with
      | some e => rw [h6] at h; exact absurd h (by simp)
      | none =>
        rw [h6] at h
        cases h4 : bv [proof.h1, proof.h2, proof.t, proof.z]
            proof.BatchedProofShifted with
        | some e => rw [h4] at h; exact absurd h (by simp)
        | none =>
          rw [h4] at h
          by_cases hif : plookupFinalFold (dommk proof.size) (vBeta H proof)
              (vGamma H proof) (vAlpha H proof) (vNu H proof) proof =
              plookupRight (dommk proof.size) (vNu H proof) proof
          · exact ⟨rfl, rfl, hif⟩
          · rw [if_neg hif] at h
            exact absurd h (by simp)
    · rintro ⟨h6, h4, hif⟩
      rw [verify_eq, h6, h4, if_pos hif]
  · intro e he
    rw [verify_eq, he]
  · intro e h6 h4
    rw [verify_eq, h6, h4]
  · intro h6 h4 hne
    rw [verify_eq, h6, h4, if_neg hne]

/-- Witness for C3 over `ZMod 13` with the ideal batch verifier and the honest
trace proof: wrong claimed values are rejected with the `kzg` error. -/
theorem C3_verifier_accounting_witness :
    VerifyLookupVector dommk13 idealBatchVerify hash13
        (pProof dommk13 hash13 [1] [1]) = .ok () ↔
      idealBatchVerify
          [(pProof dommk13 hash13 [1] [1]).h1, (pProof dommk13 hash13 [1] [1]).h2,
            (pProof dommk13 hash13 [1] [1]).t, (pProof dommk13 hash13 [1] [1]).z,
            (pProof dommk13 hash13 [1] [1]).f, (pProof dommk13 hash13 [1] [1]).h]
          (pProof dommk13 hash13 [1] [1]).BatchedProof = none ∧
      idealBatchVerify
          [(pProof dommk13 hash13 [1] [1]).h1, (pProof dommk13 hash13 [1] [1]).h2,
            (pProof dommk13 hash13 [1] [1]).t, (pProof dommk13 hash13 [1] [1]).z]
          (pProof dommk13 hash13 [1] [1]).BatchedProofShifted = none ∧
      plookupFinalFold (dommk13 (pProof dommk13 hash13 [1] [1]).size)
          (vBeta hash13 (pProof dommk13 hash13 [1] [1]))
          (vGamma hash13 (pProof dommk13 hash13 [1] [1]))
          (vAlpha hash13 (pProof dommk13 hash13 [1] [1]))
          (vNu hash13 (pProof dommk13 hash13 [1] [1]))
          (pProof dommk13 hash13 [1] [1]) =
        plookupRight (dommk13 (pProof dommk13 hash13 [1] [1]).size)
          (vNu hash13 (pProof dommk13 hash13 [1] [1]))
          (pProof dommk13 hash13 [1] [1]) :=
  (C3_verifier_accounting dommk13 idealBatchVerify hash13
    (pProof dommk13 hash13 [1] [1])).1

/-- C4: Sorted-merge splitter — the sorted merge is the ascending sort of the
sorted padded table (length `s`) concatenated with the padded vector minus its
duplicated boundary element (`lf[:s-1]`); it has length `2s - 1` and is
sorted; `h1` is its first `s` entries, `h2` its entries from index `s-1` on,
both of length `s`, and `h1[s-1] = h2[0]` on every input. -/
theorem C4_sorted_merge_splitter [LinearOrder F] (dommk : ℕ → Domain F)
    (f t : List F)
    (hs : 1 ≤ pS dommk f t)
    (htle : t.length ≤ pS dommk f t) (hfle : f.length ≤ pS dommk f t) :
    pMerged dommk f t =
      sortFr (pLt dommk f t ++ (pLf dommk f t).take (pS dommk f t - 1)) ∧
    (pLf dommk f t).length = pS dommk f t ∧
    (pLt dommk f t).length = pS dommk f t ∧
    (pMerged dommk f t).length = 2 * pS dommk f t - 1 ∧
    (pMerged dommk f t).Sorted (· ≤ ·) ∧
    pLh1 dommk f t = (pMerged dommk f t).take (pS dommk f t) ∧
    pLh2 dommk f t = (pMerged dommk f t).drop (pS dommk f t - 1) ∧
    (pLh1 dommk f t).length = pS dommk f t ∧
    (pLh2 dommk f t).length = pS dommk f t ∧
    (pLh1 dommk f t).getD (pS dommk f t - 1) 0 = (pLh2 dommk f t).getD 0 0 := by
  have hlf : (pLf dommk f t).length = pS dommk f t :=
    padded_length f _ hfle
  have hlt : (pLt dommk f t).length = pS dommk f t := by
    rw [pLt, length_sortFr]
    exact padded_length t _ htle
  have hM : (pMerged dommk f t).length = 2 * pS dommk f t - 1 := by
    rw [pMerged, length_sortFr, List.length_append, hlt, List.length_take, hlf]
    omega
  refine ⟨rfl, hlf, hlt, hM, List.sorted_insertionSort _ _, rfl, rfl, ?_, ?_, ?_⟩
  · rw [pLh1, List.length_take, hM]
    omega
  · rw [pLh2, List.length_drop, hM]
    omega
  · rw [pLh1, pLh2]
    exact overlap_take_drop (pMerged dommk f t) (pS dommk f t) hs

/-- Witness for C4 over `ZMod 13` with `f = [1, 2]`, `t = [2, 3]`
(so `s = 4`, no membership assumed). -/
theorem C4_sorted_merge_splitter_witness :
    (pMerged dommk13 [1, 2] [2, 3]).length = 2 * pS dommk13 [1, 2] [2, 3] - 1 ∧
    (pLh1 dommk13 [1, 2] [2, 3]).getD (pS dommk13 [1, 2] [2, 3] - 1) 0 =
      (pLh2 dommk13 [1, 2] [2, 3]).getD 0 0 :=
  ⟨(C4_sorted_merge_splitter dommk13 [1, 2] [2, 3] (by decide) (by decide)
      (by decide)).2.2.2.1,
    (C4_sorted_merge_splitter dommk13 [1, 2] [2, 3] (by decide) (by decide)
      (by decide)).2.2.2.2.2.2.2.2.2⟩

/-- C5: Accumulator recurrence — `evaluateAccumulationPolynomial` returns `Z`
of the table's length with `Z[0] = 1`, and for every `i` with non-zero
denominator factors, `Z[i+1] = Z[i] * (gamma + lf[i]) * (1+beta) *
(gamma*(1+beta) + lt[i] + beta*lt[i+1]) / ((gamma*(1+beta) + lh1[i] +
beta*lh1[i+1]) * (gamma*(1+beta) + lh2[i] + beta*lh2[i+1]))`: the batched
inversion agrees with element-wise field division. -/
theorem C5_accumulator_recurrence (lf lt lh1 lh2 : List F) (beta gamma : F)
    (hs : 0 < lt.length) :
    (evaluateAccumulationPolynomial lf lt lh1 lh2 beta gamma).length =
      lt.length ∧
    (evaluateAccumulationPolynomial lf lt lh1 lh2 beta gamma).getD 0 0 = 1 ∧
    (∀ i, i + 1 < lt.length →
      gamma * (1 + beta) + lh1.getD i 0 + beta * lh1.getD (i + 1) 0 ≠ 0 →
      gamma * (1 + beta) + lh2.getD i 0 + beta * lh2.getD (i + 1) 0 ≠ 0 →
      (evaluateAccumulationPolynomial lf lt lh1 lh2 beta gamma).getD (i + 1) 0 =
        (evaluateAccumulationPolynomial lf lt lh1 lh2 beta gamma).getD i 0 *
          ((gamma + lf.getD i 0) * (1 + beta) *
            (gamma * (1 + beta) + lt.getD i 0 + beta * lt.getD (i + 1) 0)) /
          ((gamma * (1 + beta) + lh1.getD i 0 + beta * lh1.getD (i + 1) 0) *
            (gamma * (1 + beta) + lh2.getD i 0 + beta * lh2.getD (i + 1) 0))) := by
  refine ⟨evalAcc_length lf lt lh1 lh2 beta gamma,
    evalAcc_zero lf lt lh1 lh2 beta gamma hs, ?_⟩
  intro i hi h1 h2
  have h1' : beta * lh1.getD (i + 1) 0 + lh1.getD i 0 + (1 + beta) * gamma ≠ 0 := by
    intro hc
    exact h1 (by linear_combination hc)
  have h2' : beta * lh2.getD (i + 1) 0 + lh2.getD i 0 + (1 + beta) * gamma ≠ 0 := by
    intro hc
    exact h2 (by linear_combination hc)
  have hrec := evalAcc_rec lf lt lh1 lh2 beta gamma i hi h1' h2'
  rw [eq_div_iff (mul_ne_zero h1 h2)]
  linear_combination hrec

/-- Witness for C5: a concrete recurrence step over `ZMod 13`. -/
theorem C5_accumulator_recurrence_witness :
    (evaluateAccumulationPolynomial ([1, 2] : List F13) [1, 2] [1, 2] [2, 1] 1 1).getD
        0 0 = 1 ∧
    (evaluateAccumulationPolynomial ([1, 2] : List F13) [1, 2] [1, 2] [2, 1] 1 1).getD
        (0 + 1) 0 =
      (evaluateAccumulationPolynomial ([1, 2] : List F13) [1, 2] [1, 2] [2, 1] 1 1).getD
          0 0 *
        ((1 + ([1, 2] : List F13).getD 0 0) * (1 + 1) *
          (1 * (1 + 1) + ([1, 2] : List F13).getD 0 0 +
            1 * ([1, 2] : List F13).getD (0 + 1) 0)) /
        ((1 * (1 + 1) + ([1, 2] : List F13).getD 0 0 +
            1 * ([1, 2] : List F13).getD (0 + 1) 0) *
          (1 * (1 + 1) + ([2, 1] : List F13).getD 0 0 +
            1 * ([2, 1] : List F13).getD (0 + 1) 0)) :=
  ⟨(C5_accumulator_recurrence [1, 2] [1, 2] [1, 2] [2, 1] 1 1 (by decide)).2.1,
    (C5_accumulator_recurrence [1, 2] [1, 2] [1, 2] [2, 1] 1 1 (by decide)).2.2 0
      (by decide) (by decide) (by decide)⟩

/-- C6: Verifier equation reconstruction — the verifier computes `L0(nu)` and
`Ln(nu)` by direct field division of `nu^N - 1`, folds the four terms with
`alpha` in the same Horner order as the prover's quotient assembly, and (once
both openings verify) accepts exactly when the fold equals the claimed
evaluation of `h` times `nu^N - 1`. -/
theorem C6_verifier_equation [DecidableEq F] {Dsm Dbig : Domain F} {N k : ℕ}
    (hD : DomainsOk Dsm Dbig N k) (dommk : ℕ → Domain F)
    (bv : List (List F) → BatchOpeningProof F → Option ℕ)
    (H : List (String × List (List F)) → F) (proof : ProofLookupVector F) :
    (∀ (d : Domain F) (beta gamma alpha nu : F) (pr : ProofLookupVector F),
      plookupFinalFold d beta gamma alpha nu pr =
        hornerFold alpha
          ((nu - d.gen ^ (d.card - 1)) * pr.BatchedProof.claimedValues.getD 3 0 *
              (1 + beta) * (gamma + pr.BatchedProof.claimedValues.getD 4 0) *
              (beta * pr.BatchedProofShifted.claimedValues.getD 2 0 +
                pr.BatchedProof.claimedValues.getD 2 0 + (1 + beta) * gamma) -
            (nu - d.gen ^ (d.card - 1)) *
              pr.BatchedProofShifted.claimedValues.getD 3 0 *
              (beta * pr.BatchedProofShifted.claimedValues.getD 0 0 +
                pr.BatchedProof.claimedValues.getD 0 0 + (1 + beta) * gamma) *
              (beta * pr.BatchedProofShifted.claimedValues.getD 1 0 +
                pr.BatchedProof.claimedValues.getD 1 0 + (1 + beta) * gamma))
          ((pr.BatchedProof.claimedValues.getD 3 0 - 1) *
            ((nu ^ d.card - 1) / (nu - 1)))
          (((nu ^ d.card - 1) / (nu - d.gen ^ (d.card - 1))) *
            (pr.BatchedProof.claimedValues.getD 3 0 - 1))
          ((pr.BatchedProof.claimedValues.getD 0 0 -
              pr.BatchedProofShifted.claimedValues.getD 1 0) *
            ((nu ^ d.card - 1) / (nu - d.gen ^ (d.card - 1))))) ∧
    (∀ (alpha : F) (lh lh0 lhn lh1h2 : List F) (i : ℕ), i < 2 * N →
      evalC (computeQuotientCanonical alpha lh lh0 lhn lh1h2 Dbig)
          (Dbig.shift * Dbig.gen ^ i) =
        hornerFold alpha (lh.getD (bitRev (k + 1) i) 0)
            (lh0.getD (bitRev (k + 1) i) 0) (lhn.getD (bitRev (k + 1) i) 0)
            (lh1h2.getD (bitRev (k + 1) i) 0) *
          ((Dbig.shift * Dbig.gen ^ i) ^ N - 1)⁻¹) ∧
    (bv [proof.h1, proof.h2, proof.t, proof.z, proof.f, proof.h]
        proof.BatchedProof = none →
      bv [proof.h1, proof.h2, proof.t, proof.z] proof.BatchedProofShifted =
        none →
      (VerifyLookupVector dommk bv H proof = .ok () ↔
        plookupFinalFold (dommk proof.size) (vBeta H proof) (vGamma H proof)
            (vAlpha H proof) (vNu H proof) proof =
          proof.BatchedProof.claimedValues.getD 5 0 *
            (vNu H proof ^ (dommk proof.size).card - 1))) := by
  refine ⟨fun d beta gamma alpha nu pr => rfl,
    fun alpha lh lh0 lhn lh1h2 i hi => ?_, fun h6 h4 => ?_⟩
  · rw [computeQuotient_eval hD alpha lh lh0 lhn lh1h2 i hi]
    rfl
  · rw [verify_eq, h6, h4]
    by_cases hif : plookupFinalFold (dommk proof.size) (vBeta H proof)
        (vGamma H proof) (vAlpha H proof) (vNu H proof) proof =
        plookupRight (dommk proof.size) (vNu H proof) proof
    · rw [if_pos hif]
      exact iff_of_true rfl hif
    · rw [if_neg hif]
      constructor
      · intro h
        exact absurd h (by simp)
      · intro h
        exact absurd h hif

/-- Witness for C6 over `ZMod 13`: the prover's Horner fold at the first coset
point of the honest trace. -/
theorem C6_verifier_equation_witness :
    evalC (computeQuotientCanonical 3 [1, 2, 3, 4] [1, 1, 1, 1] [2, 2, 2, 2]
        [0, 1, 0, 1] (pDomB dommk13 [1] [1]))
        ((pDomB dommk13 [1] [1]).shift * (pDomB dommk13 [1] [1]).gen ^ 1) =
      hornerFold 3 (([1, 2, 3, 4] : List F13).getD (bitRev (1 + 1) 1) 0)
          (([1, 1, 1, 1] : List F13).getD (bitRev (1 + 1) 1) 0)
          (([2, 2, 2, 2] : List F13).getD (bitRev (1 + 1) 1) 0)
          (([0, 1, 0, 1] : List F13).getD (bitRev (1 + 1) 1) 0) *
        (((pDomB dommk13 [1] [1]).shift * (pDomB dommk13 [1] [1]).gen ^ 1) ^ 2 -
          1)⁻¹ :=
  (C6_verifier_equation domains13 dommk13 idealBatchVerify hash13
    (pProof dommk13 hash13 [1] [1])).2.1 3 [1, 2, 3, 4] [1, 1, 1, 1]
    [2, 2, 2, 2] [0, 1, 0, 1] 1 (by decide)

/-- C7: Challenge schedule — prover and verifier derive exactly four
challenges in the fixed order `beta, gamma, alpha, nu` from a transcript
seeded with those four labels, bound to the commitments `t,f,h1,h2`, nothing,
`z` and `h` respectively; deriving any other label first fails, and on
identical commitments the verifier's challenges equal the prover's. -/
theorem C7_challenge_schedule [LinearOrder F] (dommk : ℕ → Domain F)
    (H : List (String × List (List F)) → F) (f t : List F)
    (hf : f ≠ []) (ht : t ≠ []) :
    (newTranscript (F := F)).labels = ["beta", "gamma", "alpha", "nu"] ∧
    ProveLookupVector dommk idealCommit idealBatchOpen H f t =
      .ok (pProof dommk H f t) ∧
    deriveRandomness H newTranscript "beta"
        [pCt dommk f t, pCf dommk f t, pCh1 dommk f t, pCh2 dommk f t] =
      .ok (pBeta dommk H f t, ⟨["gamma", "alpha", "nu"],
        [("beta", [pCt dommk f t, pCf dommk f t, pCh1 dommk f t,
          pCh2 dommk f t])]⟩) ∧
    deriveRandomness H ⟨["gamma", "alpha", "nu"],
        [("beta", [pCt dommk f t, pCf dommk f t, pCh1 dommk f t,
          pCh2 dommk f t])]⟩ "gamma" [] =
      .ok (pGamma dommk H f t, ⟨["alpha", "nu"],
        [("beta", [pCt dommk f t, pCf dommk f t, pCh1 dommk f t, pCh2 dommk f t]),
         ("gamma", [])]⟩) ∧
    deriveRandomness H ⟨["alpha", "nu"],
        [("beta", [pCt dommk f t, pCf dommk f t, pCh1 dommk f t, pCh2 dommk f t]),
         ("gamma", [])]⟩ "alpha" [pCz dommk H f t] =
      .ok (pAlpha dommk H f t, ⟨["nu"],
        [("beta", [pCt dommk f t, pCf dommk f t, pCh1 dommk f t, pCh2 dommk f t]),
         ("gamma", []), ("alpha", [pCz dommk H f t])]⟩) ∧
    deriveRandomness H ⟨["nu"],
        [("beta", [pCt dommk f t, pCf dommk f t, pCh1 dommk f t, pCh2 dommk f t]),
         ("gamma", []), ("alpha", [pCz dommk H f t])]⟩ "nu" [pCh dommk H f t] =
      .ok (pNu dommk H f t, ⟨[],
        [("beta", [pCt dommk f t, pCf dommk f t, pCh1 dommk f t, pCh2 dommk f t]),
         ("gamma", []), ("alpha", [pCz dommk H f t]),
         ("nu", [pCh dommk H f t])]⟩) ∧
    (∀ (label : String) (pts : List (List F)), label ≠ "beta" →
      deriveRandomness H newTranscript label pts = .error .transcript) ∧
    vBeta H (pProof dommk H f t) = pBeta dommk H f t ∧
    vGamma H (pProof dommk H f t) = pGamma dommk H f t ∧
    vAlpha H (pProof dommk H f t) = pAlpha dommk H f t ∧
    vNu H (pProof dommk H f t) = pNu dommk H f t := by
  refine ⟨rfl, prove_eq_trace dommk H f t hf ht, rfl, rfl, rfl, rfl,
    ?_, rfl, rfl, rfl, rfl⟩
  intro label pts hne
  have hstep : deriveRandomness H (newTranscript (F := F)) label pts =
      if "beta" = label then
        .ok (H [(label, pts)], ⟨["gamma", "alpha", "nu"], [(label, pts)]⟩)
      else .error .transcript := rfl
  rw [hstep, if_neg (fun h => hne h.symm)]

/-- Witness for C7 over `ZMod 13`: the out-of-order derivation fails and the
verifier's `beta` equals the prover's on the trace proof. -/
theorem C7_challenge_schedule_witness :
    deriveRandomness hash13 newTranscript "nu" [] = .error .transcript ∧
    vBeta hash13 (pProof dommk13 hash13 [1] [1]) = pBeta dommk13 hash13 [1] [1] :=
  ⟨(C7_challenge_schedule dommk13 hash13 [1] [1] (by decide)
      (by decide)).2.2.2.2.2.2.1 "nu" [] (by decide),
    (C7_challenge_schedule dommk13 hash13 [1] [1] (by decide)
      (by decide)).2.2.2.2.2.2.2.1⟩

/-- C8: Opening batcher — every proof the prover returns carries exactly two
batched single-point openings: one at `nu` covering, in order, `h1, h2, t, z,
f, h`, and one at `nu·g` covering, in order, `h1, h2, t, z`; the verifier
checks both batches against the same digest lists in the same order. -/
theorem C8_opening_batcher [LinearOrder F] (dommk : ℕ → Domain F)
    (H : List (String × List (List F)) → F) (f t : List F)
    (hf : f ≠ []) (ht : t ≠ []) :
    ProveLookupVector dommk idealCommit idealBatchOpen H f t =
      .ok (pProof dommk H f t) ∧
    (pProof dommk H f t).BatchedProof.point = pNu dommk H f t ∧
    (pProof dommk H f t).BatchedProof =
      ⟨pNu dommk H f t,
        ([pCh1 dommk f t, pCh2 dommk f t, pCt dommk f t, pCz dommk H f t,
          pCf dommk f t, pCh dommk H f t]).map
          (fun p => evalC p (pNu dommk H f t))⟩ ∧
    (pProof dommk H f t).BatchedProofShifted.point =
      pNu dommk H f t * (pDomS dommk f t).gen ∧
    (pProof dommk H f t).BatchedProofShifted =
      ⟨pNu dommk H f t * (pDomS dommk f t).gen,
        ([pCh1 dommk f t, pCh2 dommk f t, pCt dommk f t, pCz dommk H f t]).map
          (fun p => evalC p (pNu dommk H f t * (pDomS dommk f t).gen))⟩ ∧
    idealBatchOpen
        [pCh1 dommk f t, pCh2 dommk f t, pCt dommk f t, pCz dommk H f t,
          pCf dommk f t, pCh dommk H f t]
        [pCh1 dommk f t, pCh2 dommk f t, pCt dommk f t, pCz dommk H f t,
          pCf dommk f t, pCh dommk H f t]
        (pNu dommk H f t) (pDomS dommk f t) =
      .ok ((pProof dommk H f t).BatchedProof) ∧
    (∀ bv : List (List F) → BatchOpeningProof F → Option ℕ,
      VerifyLookupVector dommk bv H (pProof dommk H f t) =
        match bv [(pProof dommk H f t).h1, (pProof dommk H f t).h2,
            (pProof dommk H f t).t, (pProof dommk H f t).z,
            (pProof dommk H f t).f, (pProof dommk H f t).h]
            (pProof dommk H f t).BatchedProof with
        | some e => .error (.kzg e)
        | none =>
          match bv [(pProof dommk H f t).h1, (pProof dommk H f t).h2,
              (pProof dommk H f t).t, (pProof dommk H f t).z]
              (pProof dommk H f t).BatchedProofShifted with
          | some e => .error (.kzg e)
          | none =>
            if plookupFinalFold (dommk (pProof dommk H f t).size)
                (vBeta H (pProof dommk H f t)) (vGamma H (pProof dommk H f t))
                (vAlpha H (pProof dommk H f t)) (vNu H (pProof dommk H f t))
                (pProof dommk H f t) =
                plookupRight (dommk (pProof dommk H f t).size)
                  (vNu H (pProof dommk H f t)) (pProof dommk H f t)
            then .ok () else .error .plookupVerification) :=
  ⟨prove_eq_trace dommk H f t hf ht, rfl, rfl, rfl, rfl, rfl,
    fun bv => verify_eq H (pProof dommk H f t) dommk bv⟩

/-- Witness for C8 over `ZMod 13`: the trace proof's first batch is the
ordered evaluation list at `nu`. -/
theorem C8_opening_batcher_witness :
    (pProof dommk13 hash13 [1] [1]).BatchedProof =
      ⟨pNu dommk13 hash13 [1] [1],
        ([pCh1 dommk13 [1] [1], pCh2 dommk13 [1] [1], pCt dommk13 [1] [1],
          pCz dommk13 hash13 [1] [1], pCf dommk13 [1] [1],
          pCh dommk13 hash13 [1] [1]]).map
          (fun p => evalC p (pNu dommk13 hash13 [1] [1]))⟩ :=
  (C8_opening_batcher dommk13 hash13 [1] [1] (by decide) (by decide)).2.2.1

/-- C9 (amended): Empty-input handling — a call of `ProveLookupVector` with an
empty vector `f` or an empty table `t` does not return an input error to the
caller: the padding helper reads `v[len(v)-1]` on an empty slice, which is a
panic (modelled as `.error .panic`, distinct from every returned `error`),
whenever the constructed domain is non-trivial. -/
theorem C9_empty_input_panics [LinearOrder F] (dommk : ℕ → Domain F)
    (H : List (String × List (List F)) → F) (f t : List F)
    (hs : 0 < pS dommk f t) (he : f = [] ∨ t = []) :
    ProveLookupVector dommk idealCommit idealBatchOpen H f t = .error .panic :=
  prove_empty_panic dommk H f t hs he

/-- Counterexample for C9's original wording: on the empty vector the prover
panics (the modelled out-of-range read), it does not fail fast with a
reported error. -/
theorem C9_empty_input_counterexample :
    ProveLookupVector dommk13 idealCommit idealBatchOpen hash13
        ([] : List F13) [1] = .error .panic ∧
    PFail.panic ≠ PFail.err PErr.notInTable := by
  exact ⟨by decide, by decide⟩

/-- Witness for the amended C9 over `ZMod 13`. -/
theorem C9_empty_input_panics_witness :
    ProveLookupVector dommk13 idealCommit idealBatchOpen hash13
        ([1] : List F13) [] = .error .panic :=
  C9_empty_input_panics dommk13 hash13 [1] [] (by decide) (Or.inr rfl)

/-- C10 (implicit): the last padded query entry is never consumed — the merge
only copies `lf[:s-1]`, so `h1` and `h2` do not depend on `lf[s-1]`, and the
accumulator never reads `lf[s-1]`: with fixed challenges, padded vectors that
differ only at index `s-1` give identical merges, `h1`, `h2` and `Z`. -/
theorem C10_last_entry_not_consumed [LinearOrder F]
    (lf lf' lt lh1 lh2 : List F) (beta gamma : F) (s : ℕ)
    (hlf : lf.length = s) (hlf' : lf'.length = s) (hlt : lt.length = s)
    (hagree : lf.take (s - 1) = lf'.take (s - 1)) :
    sortFr (lt ++ lf.take (s - 1)) = sortFr (lt ++ lf'.take (s - 1)) ∧
    (sortFr (lt ++ lf.take (s - 1))).take s =
      (sortFr (lt ++ lf'.take (s - 1))).take s ∧
    (sortFr (lt ++ lf.take (s - 1))).drop (s - 1) =
      (sortFr (lt ++ lf'.take (s - 1))).drop (s - 1) ∧
    evaluateAccumulationPolynomial lf lt lh1 lh2 beta gamma =
      evaluateAccumulationPolynomial lf' lt lh1 lh2 beta gamma := by
  refine ⟨by rw [hagree], by rw [hagree], by rw [hagree], ?_⟩
  refine evalAcc_congr lf lf' lt lh1 lh2 beta gamma fun i hi => ?_
  have hi' : i < s - 1 := by rw [hlt] at hi; omega
  have h2 : (lf.take (s - 1)).getD i 0 = (lf'.take (s - 1)).getD i 0 := by
    rw [hagree]
  rw [take_getD lf (s - 1) i hi', take_getD lf' (s - 1) i hi'] at h2
  exact h2

/-- Witness for C10 over `ZMod 13`: padded vectors `[1,2,9]` and `[1,2,4]`
differing only at the last index give the same accumulator. -/
theorem C10_last_entry_not_consumed_witness :
    evaluateAccumulationPolynomial ([1, 2, 9] : List F13) [1, 2, 3] [1, 1, 1]
        [1, 1, 1] 1 1 =
      evaluateAccumulationPolynomial ([1, 2, 4] : List F13) [1, 2, 3] [1, 1, 1]
        [1, 1, 1] 1 1 :=
  (C10_last_entry_not_consumed [1, 2, 9] [1, 2, 4] [1, 2, 3] [1, 1, 1] [1, 1, 1]
    1 1 3 (by decide) (by decide) (by decide) (by decide)).2.2.2
